import Mathlib

/-!
# sot-core: state integration of `Device` and the Euler transfer-function integrator

Shallow embedding of

* `Device::integrateRollPitchYaw`, `Device::integrate`, the constructor and the setters of
  `Device`, `setControlInputType` and `setRoot` among them (`src/tools/device.cpp`),
* `IntegratorEuler::integrate`, `initialize`, `derivative` and `setSamplingPeriod`
  (`include/sot/core/integrator-euler.hh`),
* `MotionPeriod::computeMotion` (`src/tools/motion-period.cpp`),

followed by the properties proved about them.

Conventions of the embedding.

* `double` values live in a field `α`: the real numbers for the statements about
  trigonometry, any field such as `ℚ` for evaluation.
* A dynamic vector (`dynamicgraph::Vector`, `std::vector`) is a `List`; every indexed
  access is checked, and an access outside the vector makes the operation return `none`.
  In the statements `v[i]? = some a` says that entry `i` exists and is `a`, and
  `v.getD i 0` is entry `i` of `v` (it is only used for `i` inside the vector).
* A `for` loop is `forLoop` (ascending) or `forDown` (descending) over its body.
* The functions of `<cmath>` called by the code are the fields of a record `Libm`;
  `Libm.IsReal` says that they are the functions of real analysis.
* Signal inputs (`controlSIN.accessCopy()`, `SIN.access(time)`) are arguments; the output
  signals (`stateSOUT` and the like) are outside the embedding.
* What the sources lack (the table `ControlInput_s` of `device.hh`, the signal `SOUT` of
  `integrator-abstract.hh`, `eulerAngles` of Eigen, the constant `M_PI`) is an argument of
  the function that uses it.
* A thrown exception is the value `Thrown.exception`, distinct from `none`.
-/

namespace SotCore

/-! ## Vectors and loops -/

/-- Checked read `v(i)`. -/
def vget {α : Type} (v : List α) (i : Nat) : Option α := v[i]?

/-- Checked write `v(i) = x`. -/
def vset {α : Type} (v : List α) (i : Nat) (x : α) : Option (List α) :=
  if i < v.length then some (v.set i x) else none

/-- Checked read with a signed index, `v[i]` with `int i`. -/
def vgetI {α : Type} (v : List α) (i : Int) : Option α :=
  if 0 ≤ i then v[i.toNat]? else none

/-- Checked write with a signed index, `v[i] = x` with `int i`. -/
def vsetI {α : Type} (v : List α) (i : Int) (x : α) : Option (List α) :=
  if 0 ≤ i then vset v i.toNat x else none

/-- The loop `for (i = lo; i < lo + n; ++i) body`, threading the state `s`;
it stops with `none` as soon as one iteration fails. -/
def forLoop {σ : Type} (body : Nat → σ → Option σ) : Nat → Nat → σ → Option σ
  | _, 0, s => some s
  | i, n + 1, s => (body i s).bind (forLoop body (i + 1) n)

/-- The loop `for (i = n - 1; i >= 0; --i) body`. -/
def forDown {σ : Type} (body : Nat → σ → Option σ) : Nat → σ → Option σ
  | 0, s => some s
  | n + 1, s => (body n s).bind (forDown body n)

/-! ## Fixed-size linear algebra (`Eigen::Vector3d`, `MatrixHomogeneous`) -/

/-- The functions of `<cmath>` called by `integrateRollPitchYaw`. -/
structure Libm (α : Type) where
  cos : α → α
  sin : α → α
  sqrt : α → α
  atan2 : α → α → α

/-- The record `m` is the real-number `cos`, `sin`, `sqrt` and `atan2`
(`atan2 y x` is the argument of the point `(x, y)`, in `(-π, π]`, and `0` at the origin). -/
def Libm.IsReal (m : Libm ℝ) : Prop :=
  m.cos = Real.cos ∧ m.sin = Real.sin ∧ m.sqrt = Real.sqrt ∧
    ∀ y x : ℝ, m.atan2 y x = Complex.arg ⟨x, y⟩

/-- `Eigen::Vector3d`. -/
structure Vector3d (α : Type) where
  x : α
  y : α
  z : α
deriving DecidableEq, Repr

namespace Vector3d

variable {α : Type}

/-- Read `v(i)`, `i < 3`. -/
def get (v : Vector3d α) : Nat → α
  | 0 => v.x
  | 1 => v.y
  | _ => v.z

/-- Write `v(i) = a`, `i < 3`. -/
def set (v : Vector3d α) (i : Nat) (a : α) : Vector3d α :=
  match i with
  | 0 => { v with x := a }
  | 1 => { v with y := a }
  | _ => { v with z := a }

variable [Field α]

/-- `a.dot(b)`. -/
def dot (a b : Vector3d α) : α := a.x * b.x + a.y * b.y + a.z * b.z

/-- `a.cross(b)`. -/
def cross (a b : Vector3d α) : Vector3d α :=
  ⟨a.y * b.z - a.z * b.y, a.z * b.x - a.x * b.z, a.x * b.y - a.y * b.x⟩

/-- `a + b`. -/
def add (a b : Vector3d α) : Vector3d α := ⟨a.x + b.x, a.y + b.y, a.z + b.z⟩

/-- `a * s`. -/
def scale (a : Vector3d α) (s : α) : Vector3d α := ⟨a.x * s, a.y * s, a.z * s⟩

/-- `a / s`. -/
def divScalar (a : Vector3d α) (s : α) : Vector3d α := ⟨a.x / s, a.y / s, a.z / s⟩

/-- `a.norm()`, the square root of the squared norm. -/
def norm (m : Libm α) (a : Vector3d α) : α := m.sqrt (a.dot a)

end Vector3d

/-- The local array `Eigen::Vector3d column [3]`. -/
structure Columns (α : Type) where
  c0 : Vector3d α
  c1 : Vector3d α
  c2 : Vector3d α
deriving DecidableEq, Repr

namespace Columns

variable {α : Type}

/-- Read `column[i]`, `i < 3`. -/
def get (c : Columns α) : Nat → Vector3d α
  | 0 => c.c0
  | 1 => c.c1
  | _ => c.c2

/-- Write `column[i] = v`, `i < 3`. -/
def set (c : Columns α) (i : Nat) (v : Vector3d α) : Columns α :=
  match i with
  | 0 => { c with c0 := v }
  | 1 => { c with c1 := v }
  | _ => { c with c2 := v }

end Columns

/-- `MatrixHomogeneous`, a 4 x 4 array of coefficients addressed as `M(r,c)`. -/
abbrev MatrixHomogeneous (α : Type) := Fin 4 → Fin 4 → α

/-- Write `M(r,c) = a`, for `r, c < 4`. -/
def MatrixHomogeneous.set {α : Type} (M : MatrixHomogeneous α) (r c : Nat) (a : α) :
    MatrixHomogeneous α :=
  fun i j => if i.val = r ∧ j.val = c then a else M i j

/-! ## `Device::integrateRollPitchYaw` -/

section Device

variable {α : Type} [Field α] [DecidableEq α]

/-- Lines 61-72: the rotation matrix of `(roll, pitch, yaw)` as a vector of columns. -/
def rpyColumns (m : Libm α) (roll pitch yaw : α) : Columns α :=
  { c0 := ⟨m.cos pitch * m.cos yaw, m.cos pitch * m.sin yaw, -m.sin pitch⟩
    c1 := ⟨m.sin roll * m.sin pitch * m.cos yaw - m.cos roll * m.sin yaw,
           m.sin roll * m.sin pitch * m.sin yaw + m.cos roll * m.cos yaw,
           m.sin roll * m.cos pitch⟩
    c2 := ⟨m.cos roll * m.sin pitch * m.cos yaw + m.sin roll * m.sin yaw,
           m.cos roll * m.sin pitch * m.sin yaw - m.sin roll * m.cos yaw,
           m.cos roll * m.cos pitch⟩ }

/-- Line 88: `ei*cos(angle) + (k.cross(ei))*sin(angle) + k*((k.dot(ei))*(1-cos(angle)))`. -/
def rodrigues (m : Libm α) (k : Vector3d α) (angle : α) (ei : Vector3d α) : Vector3d α :=
  ((ei.scale (m.cos angle)).add ((k.cross ei).scale (m.sin angle))).add
    (k.scale (k.dot ei * (1 - m.cos angle)))

/-- Lines 86-89: the loop that rotates the three columns. -/
def rotateColumns (m : Libm α) (k : Vector3d α) (angle : α) (column : Columns α) :
    Option (Columns α) :=
  forLoop (fun i col => some (col.set i (rodrigues m k angle (col.get i)))) 0 3 column

/-- Lines 77-81 and 91-95: `ffPose_(r,c) = column[c](r)` for `r, c < 3`. -/
def storeRotation (ffPose_ : MatrixHomogeneous α) (column : Columns α) :
    Option (MatrixHomogeneous α) :=
  forLoop (fun r M =>
    forLoop (fun c M => some (M.set r c ((column.get c).get r))) 0 3 M) 0 3 ffPose_

/-- Lines 96-102: roll, pitch and yaw read back from the columns. -/
def rpyExtract (m : Libm α) (column : Columns α) : α × α × α :=
  let nx := column.c2.z
  let ny := column.c1.z
  (m.atan2 ny nx,
   m.atan2 (-column.c0.z) (m.sqrt (ny * ny + nx * nx)),
   m.atan2 column.c0.y column.c0.x)

/-- Lines 50-54: the translation loop; it also fills `omega`. -/
def translationLoop (control : List α) (dt : α)
    (s : List α × MatrixHomogeneous α × Vector3d α) :
    Option (List α × MatrixHomogeneous α × Vector3d α) :=
  forLoop (fun i s =>
    (vget s.1 i).bind fun si =>
    (vget control i).bind fun ci =>
    (vset s.1 i (si + ci * dt)).bind fun state =>
    (vget state i).bind fun sti =>
    (vget control (i + 3)).bind fun oi =>
    some (state, s.2.1.set i 3 sti, s.2.2.set i oi)) 0 3 s

/-- `Device::integrateRollPitchYaw(state, control, dt)`, acting on `state` and on the
member `ffPose_`. -/
def integrateRollPitchYaw (m : Libm α) (ffPose_ : MatrixHomogeneous α)
    (state control : List α) (dt : α) : Option (List α × MatrixHomogeneous α) :=
  (translationLoop control dt (state, ffPose_, ⟨0, 0, 0⟩)).bind fun s =>
  let state := s.1
  let ffPose_ := s.2.1
  let omega := s.2.2
  (vget state 3).bind fun roll =>
  (vget state 4).bind fun pitch =>
  (vget state 5).bind fun yaw =>
  let column := rpyColumns m roll pitch yaw
  let angle := dt * omega.norm m
  if angle = 0 then
    (storeRotation ffPose_ column).bind fun ffPose_ => some (state, ffPose_)
  else
    let k := omega.divScalar (omega.norm m)
    (rotateColumns m k angle column).bind fun column =>
    (storeRotation ffPose_ column).bind fun ffPose_ =>
    let rpy := rpyExtract m column
    (vset state 3 rpy.1).bind fun state =>
    (vset state 4 rpy.2.1).bind fun state =>
    (vset state 5 rpy.2.2).bind fun state =>
    some (state, ffPose_)

/-! ## `Device::integrate` -/

/-- The enumeration `ControlInput`. -/
inductive ControlInput
  | CONTROL_INPUT_NO_INTEGRATION
  | CONTROL_INPUT_ONE_INTEGRATION
  | CONTROL_INPUT_TWO_INTEGRATION
deriving DecidableEq, Repr

open ControlInput

/-- The members of `Device` that `integrate` reads or writes. -/
structure Device (α : Type) where
  state_ : List α
  velocity_ : List α
  vel_controlInit_ : Bool
  vel_control_ : List α
  controlInputType_ : ControlInput
  ffPose_ : MatrixHomogeneous α

/-- Lines 407-409: `state_(i+6) = controlIN(i)` for every `i < controlIN.size()`. -/
def copyControl (controlIN : List α) (state_ : List α) : Option (List α) :=
  forLoop (fun i st => (vget controlIN i).bind fun ci => vset st (i + 6) ci)
    0 controlIN.length state_

/-- Lines 428-432: the loop of the acceleration mode, on `(vel_control_, velocity_)`. -/
def accelerationLoop (controlIN : List α) (dt : α) (offset : Nat)
    (s : List α × List α) : Option (List α × List α) :=
  forLoop (fun i s =>
    (vget s.2 (i + offset)).bind fun vi =>
    (vget controlIN i).bind fun ci =>
    (vset s.1 i (vi + ci * dt * (1 / 2))).bind fun vel_control_ =>
    (vget s.2 (i + offset)).bind fun vi =>
    (vset s.2 (i + offset) (vi + ci * dt)).bind fun velocity_ =>
    some (vel_control_, velocity_)) 0 controlIN.length s

/-- Lines 444-445: `state_(i) += vel_control_(i-offset)*dt` for `6 <= i < state_.size()`. -/
def jointLoop (vel_control_ : List α) (dt : α) (offset : Nat) (state_ : List α) :
    Option (List α) :=
  forLoop (fun i st =>
    (vget st i).bind fun si =>
    (vget vel_control_ (i - offset)).bind fun vi =>
    vset st i (si + vi * dt)) 6 (state_.length - 6) state_

/-- `Device::integrate(dt)`; `controlIN` is the value of `controlSIN.accessCopy()`.
The `assert` of line 407 is a failure of the call. -/
def integrate (m : Libm α) (d : Device α) (controlIN : List α) (dt : α) :
    Option (Device α) :=
  if d.controlInputType_ = CONTROL_INPUT_NO_INTEGRATION then
    if d.state_.length = controlIN.length + 6 then
      (copyControl controlIN d.state_).bind fun st => some { d with state_ := st }
    else none
  else
    let d : Device α :=
      if d.vel_controlInit_ = false then
        { d with vel_control_ := List.replicate controlIN.length 0, vel_controlInit_ := true }
      else d
    let offset : Nat := 6
    (if d.controlInputType_ = CONTROL_INPUT_TWO_INTEGRATION then
        let offset := if controlIN.length = d.velocity_.length then 0 else offset
        (accelerationLoop controlIN dt offset (d.vel_control_, d.velocity_)).bind fun s =>
        some ({ d with vel_control_ := s.1, velocity_ := s.2 }, offset)
      else
        some ({ d with vel_control_ := controlIN }, offset)).bind fun p =>
    let d := p.1
    let offset := p.2
    (if d.vel_control_.length = d.state_.length then
        (integrateRollPitchYaw m d.ffPose_ d.state_ d.vel_control_ dt).bind fun r =>
        some ({ d with state_ := r.1, ffPose_ := r.2 }, 0)
      else
        some (d, offset)).bind fun p =>
    let d := p.1
    let offset := p.2
    (jointLoop d.vel_control_ dt offset d.state_).bind fun st =>
    some { d with state_ := st }

/-! ## Construction and setters of `Device` -/

/-- `Device::Device(n)` (lines 119-160): state and velocity of size 6 filled with zeros,
the velocity mode, `vel_control_` empty and not initialised; `pose` is the content of the
default-constructed `ffPose_`. -/
def Device.construct (pose : MatrixHomogeneous α) : Device α :=
  { state_ := List.replicate 6 0
    velocity_ := List.replicate 6 0
    vel_controlInit_ := false
    vel_control_ := []
    controlInputType_ := CONTROL_INPUT_ONE_INTEGRATION
    ffPose_ := pose }

/-- `Device::setVelocitySize(size)` (lines 241-247). -/
def setVelocitySize (d : Device α) (size : Nat) : Device α :=
  { d with velocity_ := List.replicate size 0 }

/-- `Device::setStateSize(size)` (lines 226-239). -/
def setStateSize (d : Device α) (size : Nat) : Device α :=
  setVelocitySize { d with state_ := List.replicate size 0 } size

/-- `Device::setState(st)` (lines 249-255). -/
def setState (d : Device α) (st : List α) : Device α :=
  { d with state_ := st }

/-- `Device::setVelocity(vel)` (lines 257-262). -/
def setVelocity (d : Device α) (vel : List α) : Device α :=
  { d with velocity_ := vel }

/-- `Device::setSecondOrderIntegration()` (lines 281-288). -/
def setSecondOrderIntegration (d : Device α) : Device α :=
  { d with controlInputType_ := CONTROL_INPUT_TWO_INTEGRATION
           velocity_ := List.replicate d.state_.length 0 }

/-- `Device::setNoIntegration()` (lines 290-297). -/
def setNoIntegration (d : Device α) : Device α :=
  { d with controlInputType_ := CONTROL_INPUT_NO_INTEGRATION
           velocity_ := List.replicate d.state_.length 0 }

/-- `Device::setControlInputType(cit)` (lines 299-310): the first mode, in the order of the
enumeration, whose name is `cit` becomes the control mode; an unrecognised name changes
nothing. The table `ControlInput_s` of the names of the modes is declared in `device.hh`,
absent from the sources: it is an argument. -/
def setControlInputType (ControlInput_s : ControlInput → String) (d : Device α)
    (cit : String) : Device α :=
  match [CONTROL_INPUT_NO_INTEGRATION, CONTROL_INPUT_ONE_INTEGRATION,
      CONTROL_INPUT_TWO_INTEGRATION].find? (fun i => cit = ControlInput_s i) with
  | some i => { d with controlInputType_ := i }
  | none => d

/-! ## `integrateRollPitchYaw` with the division checked -/

/-- `a / s`, where a zero divisor is a failure. -/
def Vector3d.divScalarGuarded (a : Vector3d α) (s : α) : Option (Vector3d α) :=
  if s = 0 then none else some (a.divScalar s)

/-- `Device::integrateRollPitchYaw(state, control, dt)` where the division of line 84,
`omega/omega.norm()`, fails on a zero divisor; the rest is `integrateRollPitchYaw`. -/
def integrateRollPitchYawGuarded (m : Libm α) (ffPose_ : MatrixHomogeneous α)
    (state control : List α) (dt : α) : Option (List α × MatrixHomogeneous α) :=
  (translationLoop control dt (state, ffPose_, ⟨0, 0, 0⟩)).bind fun s =>
  let state := s.1
  let ffPose_ := s.2.1
  let omega := s.2.2
  (vget state 3).bind fun roll =>
  (vget state 4).bind fun pitch =>
  (vget state 5).bind fun yaw =>
  let column := rpyColumns m roll pitch yaw
  let angle := dt * omega.norm m
  if angle = 0 then
    (storeRotation ffPose_ column).bind fun ffPose_ => some (state, ffPose_)
  else
    (omega.divScalarGuarded (omega.norm m)).bind fun k =>
    (rotateColumns m k angle column).bind fun column =>
    (storeRotation ffPose_ column).bind fun ffPose_ =>
    let rpy := rpyExtract m column
    (vset state 3 rpy.1).bind fun state =>
    (vset state 4 rpy.2.1).bind fun state =>
    (vset state 5 rpy.2.2).bind fun state =>
    some (state, ffPose_)

/-! ## `Device::setRoot` and successive calls of `integrate` -/

/-- The assignment `q = v` to a dynamic vector `q` (`Eigen::VectorXd`): `q` takes the size
and the entries of `v`, whatever its size was. -/
def assignVector (_q v : List α) : List α := v

/-- `Device::setRoot(worldMwaist)` (lines 272-279). `eulerAngles` stands for
`worldMwaist.linear().eulerAngles(2,1,0)` of Eigen. The local vector `q` is a copy of
`state_`; it is then assigned `worldMwaist.translation()`, a vector of three entries, and
the loop writes `q(i+3)`. No member is assigned: the result is the device as it was, or
`none` when a write falls outside `q`. -/
def setRoot (eulerAngles : MatrixHomogeneous α → Vector3d α) (d : Device α)
    (worldMwaist : MatrixHomogeneous α) : Option (Device α) :=
  let e := eulerAngles worldMwaist
  let r : Vector3d α := ⟨e.z, e.y, e.x⟩
  let q : List α := d.state_
  let q : List α := assignVector q [worldMwaist 0 3, worldMwaist 1 3, worldMwaist 2 3]
  (forLoop (fun i q => vset q (i + 3) (r.get i)) 0 3 q).bind fun _ =>
  some d

/-- Successive calls of `Device::integrate`, one per pair of a control vector and a
period `dt`, in order. -/
def integrateRun (m : Libm α) : Device α → List (List α × α) → Option (Device α)
  | d, [] => some d
  | d, c :: cs => (integrate m d c.1 c.2).bind fun d' => integrateRun m d' cs

/-- The sizes under which `integrate` runs in the velocity and acceleration modes on
control vectors of size `n`: a state of six entries or more, a velocity of the size of the
state, `n` the size of the state or six less, and, in the acceleration mode, a buffer
`vel_control_` that, once initialised, has the size `n` (the control vectors of the earlier
calls had that size). -/
def Device.SizesFor (d : Device α) (n : Nat) : Prop :=
  6 ≤ d.state_.length ∧ d.velocity_.length = d.state_.length ∧
    (n = d.state_.length ∨ n + 6 = d.state_.length) ∧
    (d.controlInputType_ = CONTROL_INPUT_TWO_INTEGRATION → d.vel_controlInit_ = true →
      d.vel_control_.length = n) ∧
    d.controlInputType_ ≠ CONTROL_INPUT_NO_INTEGRATION

end Device

/-! ## `IntegratorEuler<sigT, coefT>` -/

/-- The members of `IntegratorEuler` used by `integrate`: the coefficient vectors of
`IntegratorAbstract`, the two memories and the sampling period with its inverse. Signals
(`sigT`) live in `M`; coefficients (`coefT`) and the `double` period are scalars in `K`. -/
structure IntegratorEuler (K M : Type) where
  numerator : List K
  denominator : List K
  inputMemory : List M
  outputMemory : List M
  dt : K
  invdt : K

namespace IntegratorEuler

variable {K M : Type} [Ring K] [AddCommGroup M] [Module K M]

/-- Step 1 (lines 115-117), with `x` the value of `SIN.access(time)`: the result is
`(tmp1, inputMemory, sum)`. -/
def integrateStep1 (e : IntegratorEuler K M) (x : M) : Option (M × List M × M) :=
  (vget e.inputMemory 0).bind fun tmp1 =>
  (vset e.inputMemory 0 x).bind fun inputMemory =>
  (vget e.numerator 0).bind fun b0 =>
  (vget inputMemory 0).bind fun x0 =>
  some (tmp1, inputMemory, b0 • x0)

/-- Step 2 (lines 121-129), on `(tmp1, inputMemory, sum)`. -/
def integrateStep2 (e : IntegratorEuler K M) (s : M × List M × M) :
    Option (M × List M × M) :=
  forLoop (fun i s =>
    (vget s.2.1 (i - 1)).bind fun prev =>
    let tmp2 := prev - s.1
    let tmp2 := e.invdt • tmp2
    (vget s.2.1 i).bind fun tmp1 =>
    (vset s.2.1 i tmp2).bind fun inputMemory =>
    (vget e.numerator i).bind fun bi =>
    (vget inputMemory i).bind fun xi =>
    some (tmp1, inputMemory, s.2.2 + bi • xi)) 1 (e.numerator.length - 1) s

/-- The local `int denomsize = (int)denom.size() - 1`. -/
def denomsize (e : IntegratorEuler K M) : Int := (e.denominator.length : Int) - 1

/-- Step 3 (lines 133-137), on the running `sum`. -/
def integrateStep3 (e : IntegratorEuler K M) (sum : M) : Option M :=
  forLoop (fun i sum =>
    (vget e.denominator i).bind fun ai =>
    (vget e.outputMemory i).bind fun yi =>
    some (sum - ai • yi)) 0 e.denomsize.toNat sum

/-- Step 4 (lines 141-145): the new `outputMemory`. -/
def integrateStep4 (e : IntegratorEuler K M) (sum : M) : Option (List M) :=
  (vsetI e.outputMemory e.denomsize sum).bind fun outputMemory =>
  forDown (fun i out =>
    (vget out i).bind fun yi =>
    (vget out (i + 1)).bind fun yi1 =>
    vset out i (yi + e.dt • yi1)) e.denomsize.toNat outputMemory

/-- `IntegratorEuler::integrate(res, time)`, with `x` the value of `SIN.access(time)`: the
returned sample and the integrator after the call. -/
def integrate (e : IntegratorEuler K M) (x : M) : Option (M × IntegratorEuler K M) :=
  (integrateStep1 e x).bind fun s1 =>
  (integrateStep2 e s1).bind fun s2 =>
  (integrateStep3 e s2.2.2).bind fun sum =>
  (integrateStep4 e sum).bind fun outputMemory =>
  (vset s2.2.1 0 x).bind fun inputMemory =>
  (vget outputMemory 0).bind fun res =>
  some (res, { e with inputMemory := inputMemory, outputMemory := outputMemory })

end IntegratorEuler

/-! ## `IntegratorEuler`: initialisation, derivative and successive calls -/

/-- `std::vector::resize(n)`: the first `n` entries are kept, new entries are
value-initialised (written `0` here; `initialize` overwrites every entry). -/
def resize {α : Type} [Zero α] (v : List α) (n : Nat) : List α :=
  v.take n ++ List.replicate (n - v.length) 0

namespace IntegratorEuler

section Initialisation

variable {K M : Type} [Ring K] [AddCommGroup M] [Module K M]

/-- `IntegratorEuler::initialize()` (lines 177-194), with `x` the value of
`SIN.accessCopy()`; the name is spelt `initialise` because the other spelling is a keyword. -/
def initialise (e : IntegratorEuler K M) (x : M) : Option (IntegratorEuler K M) :=
  let numsize := e.numerator.length
  let inputMemory := resize e.inputMemory numsize
  (vset inputMemory 0 x).bind fun inputMemory =>
  (forLoop (fun i mem => (vget mem 0).bind fun x0 => vset mem i x0)
    1 (numsize - 1) inputMemory).bind fun inputMemory =>
  let denomsize := e.denominator.length
  let outputMemory := resize e.outputMemory denomsize
  (forLoop (fun i out => (vget inputMemory 0).bind fun x0 => vset out i x0)
    0 denomsize outputMemory).bind fun outputMemory =>
  some { e with inputMemory := inputMemory, outputMemory := outputMemory }

/-- The outcome of a call that may throw: a value or the thrown `ExceptionSignal`. -/
inductive Thrown (α : Type) where
  | returned (a : α)
  | exception (msg : String)

/-- `IntegratorEuler::derivative(res, time)` (lines 155-164). `recompute` stands for
`SOUT.recompute(time)`, which acts on the integrator. The result is the outcome (value or
exception) with the integrator after the call; `none` is an access outside a vector. -/
def derivativeWith (recompute : IntegratorEuler K M → Option (IntegratorEuler K M))
    (e : IntegratorEuler K M) : Option (Thrown M × IntegratorEuler K M) :=
  if e.outputMemory.length < 2 then
    some (Thrown.exception "Integrator does not compute the derivative.", e)
  else
    (recompute e).bind fun e =>
    (vget e.outputMemory 1).bind fun res =>
    some (Thrown.returned res, e)

/-- Modelled from the spec: `SOUT.recompute(time)` (the signal `SOUT` is declared in
`integrator-abstract.hh`, absent from the sources) forces the recomputation of the primary
output for the same `time`, that is one call of `integrate` on the sample `x` of that time. -/
def recomputeSOUT (x : M) (e : IntegratorEuler K M) : Option (IntegratorEuler K M) :=
  (integrate e x).map fun r => r.2

/-- `IntegratorEuler::derivative(res, time)` with `SOUT` bound to `integrate`. -/
def derivative (e : IntegratorEuler K M) (x : M) : Option (Thrown M × IntegratorEuler K M) :=
  derivativeWith (recomputeSOUT x) e

/-- Successive calls of `integrate`, one per sample of `xs` in order: the returned values
and the integrator after the last call. -/
def integrateSeq (e : IntegratorEuler K M) : List M → Option (List M × IntegratorEuler K M)
  | [] => some ([], e)
  | x :: xs =>
    (integrate e x).bind fun r =>
    (integrateSeq r.2 xs).bind fun rs =>
    some (r.1 :: rs.1, rs.2)

end Initialisation

/-- `IntegratorEuler::setSamplingPeriod(period)` (lines 166-170). -/
def setSamplingPeriod {K M : Type} [Field K] (e : IntegratorEuler K M) (period : K) :
    IntegratorEuler K M :=
  { e with dt := period, invdt := 1 / period }

/-- `IntegratorEuler::getSamplingPeriod()` (lines 172-175). -/
def getSamplingPeriod {K M : Type} (e : IntegratorEuler K M) : K := e.dt

end IntegratorEuler

/-! ## `MotionPeriod::computeMotion` -/

/-- The enumeration of the motion types used by `computeMotion`. -/
inductive MotionPeriodType
  | MOTION_CONSTANT
  | MOTION_SIN
  | MOTION_COS
deriving DecidableEq, Repr

/-- The parameters of one component, `sotMotionParam`: the structure is declared in
`motion-period.hh`, absent from the sources; its fields are those `computeMotion` and
`resize` use, the two periods being integers. -/
structure sotMotionParam (α : Type) where
  motionType : MotionPeriodType
  period : Int
  initPeriod : Int
  amplitude : α
  initAmplitude : α

/-- The members `size` and `motionParams` of `MotionPeriod`. -/
structure MotionPeriod (α : Type) where
  size : Nat
  motionParams : List (sotMotionParam α)

section MotionPeriodDefs

variable {α : Type} [Field α]

/-- The body of the loop of `computeMotion` (lines 70-80) for the parameters
`p = motionParams[i]`. The remainder `%` is that of C++ (truncated) and is not defined for
a zero `period`; `M_PI` is the constant of `<cmath>`. -/
def computeMotionBody (m : Libm α) (M_PI : α) (p : sotMotionParam α) (time : Int) (i : Nat)
    (res : List α) : Option (List α) :=
  if p.period = 0 then none
  else
    let x : α := ((((time - p.initPeriod).tmod p.period : Int) : α) + 0) / ((p.period : α) + 0)
    (vset res i p.initAmplitude).bind fun res =>
    match p.motionType with
    | MotionPeriodType.MOTION_CONSTANT =>
      (vget res i).bind fun r => vset res i (r + p.amplitude)
    | MotionPeriodType.MOTION_SIN =>
      (vget res i).bind fun r => vset res i (r + p.amplitude * m.sin (M_PI * 2 * x))
    | MotionPeriodType.MOTION_COS =>
      (vget res i).bind fun r => vset res i (r + p.amplitude * m.cos (M_PI * 2 * x))

/-- `MotionPeriod::computeMotion(res, time)` (lines 62-85). -/
def computeMotion (m : Libm α) (M_PI : α) (mp : MotionPeriod α) (res : List α) (time : Int) :
    Option (List α) :=
  forLoop (fun i res =>
    (vget mp.motionParams i).bind fun p =>
    computeMotionBody m M_PI p time i res) 0 mp.size (resize res mp.size)

end MotionPeriodDefs

/-! ## Closed forms used in the statements -/

/-- The value `computeMotion` stores in the component of parameters `p` at `time`. -/
def motionValue {α : Type} [Field α] (m : Libm α) (M_PI : α) (p : sotMotionParam α)
    (time : Int) : α :=
  let x : α := (((time - p.initPeriod).tmod p.period : Int) : α) / (p.period : α)
  match p.motionType with
  | MotionPeriodType.MOTION_CONSTANT => p.initAmplitude + p.amplitude
  | MotionPeriodType.MOTION_SIN => p.initAmplitude + p.amplitude * m.sin (M_PI * 2 * x)
  | MotionPeriodType.MOTION_COS => p.initAmplitude + p.amplitude * m.cos (M_PI * 2 * x)

/-- The matrix left by the two store loops: `column[c](r)` in the rotation block
`r, c < 3`, the old coefficient elsewhere. -/
def rotationBlock {α : Type} (ffPose_ : MatrixHomogeneous α) (column : Columns α) :
    MatrixHomogeneous α :=
  fun i j => if i.val < 3 ∧ j.val < 3 then (column.get j.val).get i.val else ffPose_ i j

/-- The three columns after the loop of lines 86-89. -/
def rotatedColumns {α : Type} [Field α] (m : Libm α) (k : Vector3d α) (angle : α)
    (column : Columns α) : Columns α :=
  ⟨rodrigues m k angle column.c0, rodrigues m k angle column.c1, rodrigues m k angle column.c2⟩

/-- Column `c` of the rotation block of a pose, `c < 3`. -/
def poseColumn {α : Type} (ffPose_ : MatrixHomogeneous α) (c : Fin 3) : Vector3d α :=
  ⟨ffPose_ 0 c.castSucc, ffPose_ 1 c.castSucc, ffPose_ 2 c.castSucc⟩

/-! ## Concrete devices used as inputs -/

/-- A device of state size 7 in the acceleration mode whose buffer `vel_control_` holds the
seven entries of an earlier control vector: the state after `resize(7)`, one `integrate` in
the velocity mode on a zero control vector of size 7, and `setSecondOrderIntegration`. -/
def staleBufferDevice (α : Type) [Field α] : Device α :=
  { state_ := [0, 0, 0, 0, 0, 0, 0]
    velocity_ := [0, 0, 0, 0, 0, 0, 0]
    vel_controlInit_ := true
    vel_control_ := [0, 0, 0, 0, 0, 0, 0]
    controlInputType_ := ControlInput.CONTROL_INPUT_TWO_INTEGRATION
    ffPose_ := fun i j => if i = j then 1 else 0 }

/-- A device of state size 7 on which `integrate` has not run yet, with joint position 1
and joint velocity 2, in the given control mode. -/
def freshDevice (α : Type) [Field α] (mode : ControlInput) : Device α :=
  { state_ := [0, 0, 0, 0, 0, 0, 1]
    velocity_ := [0, 0, 0, 0, 0, 0, 2]
    vel_controlInit_ := false
    vel_control_ := []
    controlInputType_ := mode
    ffPose_ := fun i j => if i = j then 1 else 0 }

/-- The three columns are mutually orthonormal: each has unit norm and every pair has
zero dot product. -/
def Columns.Orthonormal {α : Type} [Field α] (c : Columns α) : Prop :=
  c.c0.dot c.c0 = 1 ∧ c.c1.dot c.c1 = 1 ∧ c.c2.dot c.c2 = 1 ∧
    c.c0.dot c.c1 = 0 ∧ c.c0.dot c.c2 = 0 ∧ c.c1.dot c.c2 = 0

/-- The three columns of the rotation block of a pose. -/
def poseColumns {α : Type} (ffPose_ : MatrixHomogeneous α) : Columns α :=
  ⟨poseColumn ffPose_ 0, poseColumn ffPose_ 1, poseColumn ffPose_ 2⟩

/-- An integrator of order 2 over the rationals: numerator `[2, 3, 5]`, denominator
`[2, 3, 1]`, memories `[1, 2, 3]` and `[5, 7, 11]`, sampling period `1/2`. -/
def exampleIntegrator : IntegratorEuler ℚ ℚ :=
  { numerator := [2, 3, 5]
    denominator := [2, 3, 1]
    inputMemory := [1, 2, 3]
    outputMemory := [5, 7, 11]
    dt := 1 / 2
    invdt := 2 }

/-- `IntegratorEuler::IntegratorEuler(name)` (lines 66-91) followed by the commands of
`IntegratorAbstract` that store the coefficient vectors: empty memories and the default
sampling period 0.005. -/
def IntegratorEuler.construct {K M : Type} [Field K] (numerator denominator : List K) :
    IntegratorEuler K M :=
  IntegratorEuler.setSamplingPeriod ⟨numerator, denominator, [], [], 0, 0⟩ (5 / 1000)

/-- The ramp `0, 1, ..., n - 1`. -/
def ramp (K : Type) [NatCast K] (n : Nat) : List K := (List.range n).map (Nat.cast : Nat → K)

/-- Modelled from the spec: the names of the control modes accepted by
`setControlInputType` (`"position"`, `"velocity"`, `"acceleration"`), standing for the table
`ControlInput_s` of `device.hh`, which is absent from the sources. -/
def modeNames : ControlInput → String
  | ControlInput.CONTROL_INPUT_NO_INTEGRATION => "position"
  | ControlInput.CONTROL_INPUT_ONE_INTEGRATION => "velocity"
  | ControlInput.CONTROL_INPUT_TWO_INTEGRATION => "acceleration"

/-! ## Reasoning about loops and checked accesses -/

theorem vget_eq {α : Type} (v : List α) (i : Nat) : vget v i = v[i]? := rfl

theorem vset_of_lt {α : Type} {v : List α} {i : Nat} (x : α) (h : i < v.length) :
    vset v i x = some (v.set i x) := by
  simp [vset, h]

theorem vget_of_lt {α : Type} {v : List α} {i : Nat} (h : i < v.length) :
    vget v i = some (v.get ⟨i, h⟩) := by
  simp [vget, List.getElem?_eq_getElem h]

/-- Invariant rule for `forLoop`: an invariant that every iteration in range
re-establishes (without failing) holds at the exit, and the loop does not fail. -/
theorem forLoop_inv {σ : Type} (body : Nat → σ → Option σ) (P : Nat → σ → Prop) :
    ∀ (n lo : Nat) (s : σ), P lo s →
      (∀ i t, lo ≤ i → i < lo + n → P i t → ∃ t', body i t = some t' ∧ P (i + 1) t') →
      ∃ s', forLoop body lo n s = some s' ∧ P (lo + n) s' := by
  intro n
  induction n with
  | zero =>
    intro lo s h0 _
    exact ⟨s, rfl, by simpa using h0⟩
  | succ n ih =>
    intro lo s h0 hstep
    obtain ⟨t, ht, hPt⟩ := hstep lo s (Nat.le_refl lo) (by omega) h0
    obtain ⟨s', hs', hP'⟩ := ih (lo + 1) t hPt (fun i u h1 h2 hu =>
      hstep i u (by omega) (by omega) hu)
    refine ⟨s', ?_, ?_⟩
    · simp [forLoop, ht, hs']
    · have : lo + (n + 1) = lo + 1 + n := by omega
      rw [this]; exact hP'

/-- Invariant rule for `forDown`. -/
theorem forDown_inv {σ : Type} (body : Nat → σ → Option σ) (P : Nat → σ → Prop) :
    ∀ (n : Nat) (s : σ), P n s →
      (∀ i t, i < n → P (i + 1) t → ∃ t', body i t = some t' ∧ P i t') →
      ∃ s', forDown body n s = some s' ∧ P 0 s' := by
  intro n
  induction n with
  | zero =>
    intro s h0 _
    exact ⟨s, rfl, h0⟩
  | succ n ih =>
    intro s h0 hstep
    obtain ⟨t, ht, hPt⟩ := hstep n s (by omega) h0
    obtain ⟨s', hs', hP'⟩ := ih t hPt (fun i u h1 hu => hstep i u (by omega) hu)
    exact ⟨s', by simp [forDown, ht, hs'], hP'⟩

/-- The copy loop of the position mode writes `controlIN` behind the first six entries. -/
theorem copyControl_spec {α : Type} (controlIN state_ : List α)
    (hsz : state_.length = controlIN.length + 6) :
    ∃ st, copyControl controlIN state_ = some st ∧ st.length = state_.length ∧
      ∀ j, st[j]? = if 6 ≤ j then controlIN[j - 6]? else state_[j]? := by
  obtain ⟨st, hst, hlen, hP⟩ := forLoop_inv
    (fun i st => (vget controlIN i).bind fun ci => vset st (i + 6) ci)
    (fun i (st : List α) => st.length = state_.length ∧
      ∀ j, st[j]? = if 6 ≤ j ∧ j < 6 + i then controlIN[j - 6]? else state_[j]?)
    controlIN.length 0 state_ ⟨rfl, fun j => by rw [if_neg (by omega)]⟩
    (by
      intro i t _ hi ⟨hlen, hP⟩
      have hi' : i < controlIN.length := by omega
      have hi6 : i + 6 < t.length := by omega
      refine ⟨t.set (i + 6) (controlIN.get ⟨i, hi'⟩), ?_, by simp [hlen], ?_⟩
      · show (vget controlIN i).bind (fun ci => vset t (i + 6) ci) = _
        rw [vget_of_lt hi']
        exact vset_of_lt _ hi6
      · intro j
        rw [List.getElem?_set]
        by_cases hj : i + 6 = j
        · subst hj
          rw [if_pos rfl, if_pos hi6, if_pos (by omega)]
          simp [List.getElem?_eq_getElem hi']
        · rw [if_neg hj, hP j]
          by_cases h1 : 6 ≤ j ∧ j < 6 + i
          · rw [if_pos h1, if_pos (by omega)]
          · rw [if_neg h1, if_neg (by omega)])
  refine ⟨st, hst, hlen, fun j => ?_⟩
  rw [hP j]
  by_cases h6 : 6 ≤ j
  · by_cases h1 : j < 6 + (0 + controlIN.length)
    · rw [if_pos ⟨h6, h1⟩, if_pos h6]
    · rw [if_neg (by omega), if_pos h6,
        List.getElem?_eq_none (by omega), List.getElem?_eq_none (by omega)]
  · rw [if_neg (by omega), if_neg h6]

section GetDLemmas

variable {α : Type} [Zero α]

/-- A read inside the vector, with the entry written through `getD`. -/
theorem vget_getD {v : List α} {i : Nat} (h : i < v.length) :
    vget v i = some (v.getD i 0) := by
  simp [vget, List.getD, List.getElem?_eq_getElem h]

theorem getElem?_eq_some_getD {l : List α} {i : Nat} (h : i < l.length) :
    l[i]? = some (l.getD i 0) := by
  simp [List.getD, List.getElem?_eq_getElem h]

theorem getD_eq_zero_of_forall {l : List α} (h : ∀ x ∈ l, x = 0) (i : Nat) :
    l.getD i 0 = 0 := by
  by_cases hi : i < l.length
  · have : l.getD i 0 = l.get ⟨i, hi⟩ := by
      simp [List.getD, List.getElem?_eq_getElem hi]
    rw [this]
    exact h _ (List.get_mem l i hi)
  · simp [List.getD, List.getElem?_eq_none (Nat.le_of_not_lt hi)]

theorem getD_of_getElem? {l : List α} {i : Nat} {x : α} (h : l[i]? = some x) :
    l.getD i 0 = x := by
  simp [List.getD, h]

theorem getD_set_self {l : List α} {i : Nat} (x : α) (h : i < l.length) :
    (l.set i x).getD i 0 = x := by
  simp [List.getD, List.getElem?_set, h]

theorem getD_set_of_ne {l : List α} {i j : Nat} (x : α) (h : i ≠ j) :
    (l.set i x).getD j 0 = l.getD j 0 := by
  simp [List.getD, List.getElem?_set, h]

theorem getD_congr {l l' : List α} {i : Nat} (h : l[i]? = l'[i]?) :
    l.getD i 0 = l'.getD i 0 := by
  simp [List.getD, h]

end GetDLemmas

section DeviceLemmas

variable {α : Type} [Field α]

/-- The joint loop adds `vel_control_(i-offset)*dt` to every entry from the sixth on. -/
theorem jointLoop_spec (vel_control_ : List α) (dt : α) (offset : Nat) (state_ : List α)
    (hvc : ∀ j, 6 ≤ j → j < state_.length → j - offset < vel_control_.length) :
    ∃ st, jointLoop vel_control_ dt offset state_ = some st ∧ st.length = state_.length ∧
      ∀ j, st[j]? = if 6 ≤ j ∧ j < state_.length
        then some (state_.getD j 0 + vel_control_.getD (j - offset) 0 * dt)
        else state_[j]? := by
  obtain ⟨st, hst, hlen, hP⟩ := forLoop_inv
    (fun i st =>
      (vget st i).bind fun si =>
      (vget vel_control_ (i - offset)).bind fun vi =>
      vset st i (si + vi * dt))
    (fun i (st : List α) => st.length = state_.length ∧
      ∀ j, st[j]? = if 6 ≤ j ∧ j < i
        then some (state_.getD j 0 + vel_control_.getD (j - offset) 0 * dt)
        else state_[j]?)
    (state_.length - 6) 6 state_ ⟨rfl, fun j => by rw [if_neg (by omega)]⟩
    (by
      intro i t h6 hi ⟨hlen, hP⟩
      have hit : i < t.length := by omega
      have hiv : i - offset < vel_control_.length := hvc i h6 (by omega)
      have hti : t.getD i 0 = state_.getD i 0 := by
        have := hP i
        rw [if_neg (by omega)] at this
        simp [List.getD, this]
      refine ⟨t.set i (state_.getD i 0 + vel_control_.getD (i - offset) 0 * dt), ?_,
        by simp [hlen], ?_⟩
      · show (vget t i).bind (fun si => (vget vel_control_ (i - offset)).bind fun vi =>
          vset t i (si + vi * dt)) = _
        rw [vget_getD hit, Option.some_bind, vget_getD hiv, Option.some_bind, hti]
        exact vset_of_lt _ hit
      · intro j
        rw [List.getElem?_set]
        by_cases hj : i = j
        · subst hj
          rw [if_pos rfl, if_pos hit, if_pos (by omega)]
        · rw [if_neg hj, hP j]
          by_cases h1 : 6 ≤ j ∧ j < i
          · rw [if_pos h1, if_pos (by omega)]
          · rw [if_neg h1, if_neg (by omega)])
  refine ⟨st, hst, hlen, fun j => ?_⟩
  rw [hP j]
  by_cases h1 : 6 ≤ j ∧ j < state_.length
  · rw [if_pos h1, if_pos (by omega)]
  · rw [if_neg h1, if_neg (by omega)]

/-- The loop of the acceleration mode: `vel_control_(i)` receives the velocity at the half
step, `velocity_(i+offset)` the velocity at the full step, both from the old velocity. -/
theorem accelerationLoop_spec (controlIN : List α) (dt : α) (offset : Nat)
    (vel_control_ velocity_ : List α)
    (hvc : controlIN.length ≤ vel_control_.length)
    (hvel : controlIN.length + offset ≤ velocity_.length) :
    ∃ vc vel, accelerationLoop controlIN dt offset (vel_control_, velocity_) = some (vc, vel) ∧
      vc.length = vel_control_.length ∧ vel.length = velocity_.length ∧
      (∀ j, vc[j]? = if j < controlIN.length
        then some (velocity_.getD (j + offset) 0 + controlIN.getD j 0 * dt * (1 / 2))
        else vel_control_[j]?) ∧
      (∀ j, vel[j]? = if offset ≤ j ∧ j < controlIN.length + offset
        then some (velocity_.getD j 0 + controlIN.getD (j - offset) 0 * dt)
        else velocity_[j]?) := by
  obtain ⟨⟨vc, vel⟩, hst, hl1, hl2, hP1, hP2⟩ := forLoop_inv
    (fun i (s : List α × List α) =>
      (vget s.2 (i + offset)).bind fun vi =>
      (vget controlIN i).bind fun ci =>
      (vset s.1 i (vi + ci * dt * (1 / 2))).bind fun vel_control_ =>
      (vget s.2 (i + offset)).bind fun vi =>
      (vset s.2 (i + offset) (vi + ci * dt)).bind fun velocity_ =>
      some (vel_control_, velocity_))
    (fun i (s : List α × List α) =>
      s.1.length = vel_control_.length ∧ s.2.length = velocity_.length ∧
      (∀ j, s.1[j]? = if j < i
        then some (velocity_.getD (j + offset) 0 + controlIN.getD j 0 * dt * (1 / 2))
        else vel_control_[j]?) ∧
      (∀ j, s.2[j]? = if offset ≤ j ∧ j < i + offset
        then some (velocity_.getD j 0 + controlIN.getD (j - offset) 0 * dt)
        else velocity_[j]?))
    controlIN.length 0 (vel_control_, velocity_)
    ⟨rfl, rfl, fun j => by rw [if_neg (by omega)], fun j => by rw [if_neg (by omega)]⟩
    (by
      intro i t _ hi ⟨hl1, hl2, hP1, hP2⟩
      have hic : i < controlIN.length := by omega
      have hi1 : i < t.1.length := by omega
      have hi2 : i + offset < t.2.length := by omega
      have hti : t.2.getD (i + offset) 0 = velocity_.getD (i + offset) 0 := by
        have := hP2 (i + offset)
        rw [if_neg (by omega)] at this
        simp [List.getD, this]
      refine ⟨(t.1.set i (velocity_.getD (i + offset) 0 + controlIN.getD i 0 * dt * (1 / 2)),
        t.2.set (i + offset) (velocity_.getD (i + offset) 0 + controlIN.getD i 0 * dt)),
        ?_, by simp [hl1], by simp [hl2], ?_, ?_⟩
      · show (vget t.2 (i + offset)).bind (fun vi =>
          (vget controlIN i).bind fun ci =>
          (vset t.1 i (vi + ci * dt * (1 / 2))).bind fun vel_control_ =>
          (vget t.2 (i + offset)).bind fun vi =>
          (vset t.2 (i + offset) (vi + ci * dt)).bind fun velocity_ =>
          some (vel_control_, velocity_)) = _
        rw [vget_getD hi2, Option.some_bind, vget_getD hic, Option.some_bind,
          vset_of_lt _ hi1, Option.some_bind, Option.some_bind, vset_of_lt _ hi2,
          Option.some_bind, hti]
      · intro j
        show (t.1.set i _)[j]? = _
        rw [List.getElem?_set]
        by_cases hj : i = j
        · subst hj
          rw [if_pos rfl, if_pos hi1, if_pos (by omega)]
        · rw [if_neg hj, hP1 j]
          by_cases h1 : j < i
          · rw [if_pos h1, if_pos (by omega)]
          · rw [if_neg h1, if_neg (by omega)]
      · intro j
        show (t.2.set (i + offset) _)[j]? = _
        rw [List.getElem?_set]
        by_cases hj : i + offset = j
        · subst hj
          rw [if_pos rfl, if_pos hi2, if_pos (by omega)]
          simp
        · rw [if_neg hj, hP2 j]
          by_cases h1 : offset ≤ j ∧ j < i + offset
          · rw [if_pos h1, if_pos (by omega)]
          · rw [if_neg h1, if_neg (by omega)])
  refine ⟨vc, vel, hst, hl1, hl2, fun j => ?_, fun j => ?_⟩
  · rw [hP1 j]
    by_cases h1 : j < controlIN.length
    · rw [if_pos h1, if_pos (by omega)]
    · rw [if_neg h1, if_neg (by omega)]
  · rw [hP2 j]
    by_cases h1 : offset ≤ j ∧ j < controlIN.length + offset
    · rw [if_pos h1, if_pos (by omega)]
    · rw [if_neg h1, if_neg (by omega)]

end DeviceLemmas

section RollPitchYawLemmas

variable {α : Type}

theorem rotateColumns_eq [Field α] (m : Libm α) (k : Vector3d α) (angle : α) (column : Columns α) :
    rotateColumns m k angle column = some (rotatedColumns m k angle column) := rfl

theorem storeRotation_eq (ffPose_ : MatrixHomogeneous α) (column : Columns α) :
    storeRotation ffPose_ column = some (rotationBlock ffPose_ column) := by
  show some _ = some _
  congr 1
  funext i j
  fin_cases i <;> fin_cases j <;> rfl

/-- A vector with at least six entries, split at its sixth entry. -/
theorem exists_six_cons {l : List α} (h : 6 ≤ l.length) :
    ∃ a0 a1 a2 a3 a4 a5 rest, l = a0 :: a1 :: a2 :: a3 :: a4 :: a5 :: rest := by
  match l, h with
  | a0 :: a1 :: a2 :: a3 :: a4 :: a5 :: rest, _ => exact ⟨a0, a1, a2, a3, a4, a5, rest, rfl⟩

/-- `integrateRollPitchYaw` on vectors of six entries or more, in closed form. -/
theorem integrateRollPitchYaw_cons [Field α] [DecidableEq α] (m : Libm α) (ffPose_ : MatrixHomogeneous α) (dt : α)
    (s0 s1 s2 roll pitch yaw : α) (rest : List α) (c0 c1 c2 w0 w1 w2 : α) (crest : List α) :
    integrateRollPitchYaw m ffPose_ (s0 :: s1 :: s2 :: roll :: pitch :: yaw :: rest)
        (c0 :: c1 :: c2 :: w0 :: w1 :: w2 :: crest) dt =
      let omega : Vector3d α := ⟨w0, w1, w2⟩
      let pose := ((ffPose_.set 0 3 (s0 + c0 * dt)).set 1 3 (s1 + c1 * dt)).set 2 3
        (s2 + c2 * dt)
      let column := rpyColumns m roll pitch yaw
      let angle := dt * omega.norm m
      if angle = 0 then
        some ((s0 + c0 * dt) :: (s1 + c1 * dt) :: (s2 + c2 * dt) :: roll :: pitch :: yaw :: rest,
          rotationBlock pose column)
      else
        let rot := rotatedColumns m (omega.divScalar (omega.norm m)) angle column
        let rpy := rpyExtract m rot
        some ((s0 + c0 * dt) :: (s1 + c1 * dt) :: (s2 + c2 * dt) ::
            rpy.1 :: rpy.2.1 :: rpy.2.2 :: rest,
          rotationBlock pose rot) := by
  simp only [integrateRollPitchYaw, translationLoop, forLoop, vget, vset, storeRotation_eq,
    rotateColumns_eq]
  simp [Vector3d.set]

end RollPitchYawLemmas

section IntegrateLemmas

variable {α : Type} [Field α] [DecidableEq α]

open ControlInput

/-- On vectors of six entries or more `integrateRollPitchYaw` succeeds, keeps the size of
the state and every entry from the sixth on, and advances the translation. -/
theorem integrateRollPitchYaw_frame (m : Libm α) (ffPose_ : MatrixHomogeneous α)
    (state control : List α) (dt : α) (hs : 6 ≤ state.length) (hc : 6 ≤ control.length) :
    ∃ st pose, integrateRollPitchYaw m ffPose_ state control dt = some (st, pose) ∧
      st.length = state.length ∧
      (∀ j, 6 ≤ j → st[j]? = state[j]?) ∧
      (∀ j, j < 3 → st[j]? = some (state.getD j 0 + control.getD j 0 * dt)) := by
  obtain ⟨s0, s1, s2, roll, pitch, yaw, rest, rfl⟩ := exists_six_cons hs
  obtain ⟨c0, c1, c2, w0, w1, w2, crest, rfl⟩ := exists_six_cons hc
  rw [integrateRollPitchYaw_cons]
  have key : ∀ (a b c : α) (st : List α), st = (s0 + c0 * dt) :: (s1 + c1 * dt) ::
      (s2 + c2 * dt) :: a :: b :: c :: rest →
      st.length = (s0 :: s1 :: s2 :: roll :: pitch :: yaw :: rest).length ∧
      (∀ j, 6 ≤ j → st[j]? = (s0 :: s1 :: s2 :: roll :: pitch :: yaw :: rest)[j]?) ∧
      (∀ j, j < 3 → st[j]? = some ((s0 :: s1 :: s2 :: roll :: pitch :: yaw :: rest).getD j 0 +
        (c0 :: c1 :: c2 :: w0 :: w1 :: w2 :: crest).getD j 0 * dt)) := by
    intro a b c st hst
    subst hst
    refine ⟨by simp, ?_, ?_⟩
    · intro j hj
      obtain ⟨k, rfl⟩ : ∃ k, j = k + 6 := ⟨j - 6, by omega⟩
      simp
    · intro j hj
      interval_cases j <;> simp
  by_cases h : dt * Vector3d.norm m (⟨w0, w1, w2⟩ : Vector3d α) = 0
  · simp only [h, if_true]
    exact ⟨_, _, rfl, key _ _ _ _ rfl⟩
  · simp only [h, if_false]
    exact ⟨_, _, rfl, key _ _ _ _ rfl⟩

/-- `integrate` in the velocity mode, with the branches on the sizes made explicit. -/
theorem integrate_one_eq (m : Libm α) (d : Device α) (controlIN : List α) (dt : α)
    (hmode : d.controlInputType_ = CONTROL_INPUT_ONE_INTEGRATION) :
    integrate m d controlIN dt =
      if controlIN.length = d.state_.length then
        (integrateRollPitchYaw m d.ffPose_ d.state_ controlIN dt).bind fun r =>
        (jointLoop controlIN dt 0 r.1).bind fun st =>
        some { d with vel_controlInit_ := true, vel_control_ := controlIN,
                      state_ := st, ffPose_ := r.2 }
      else
        (jointLoop controlIN dt 6 d.state_).bind fun st =>
        some { d with vel_controlInit_ := true, vel_control_ := controlIN, state_ := st } := by
  obtain ⟨state_, velocity_, init, vel_control_, mode, pose⟩ := d
  simp only at hmode
  subst hmode
  cases init <;> by_cases h : controlIN.length = state_.length <;>
    simp only [integrate, h, reduceCtorEq, if_false, if_true, Option.some_bind,
      Bool.true_eq_false, Bool.false_eq_true] <;>
    first
      | rfl
      | (cases integrateRollPitchYaw m pose state_ controlIN dt <;> rfl)

/-- `integrate` in the acceleration mode, with the branches on the sizes made explicit. -/
theorem integrate_two_eq (m : Libm α) (d : Device α) (controlIN : List α) (dt : α)
    (hmode : d.controlInputType_ = CONTROL_INPUT_TWO_INTEGRATION) :
    integrate m d controlIN dt =
      (accelerationLoop controlIN dt (if controlIN.length = d.velocity_.length then 0 else 6)
        (if d.vel_controlInit_ = false then List.replicate controlIN.length 0
          else d.vel_control_, d.velocity_)).bind fun s =>
      if s.1.length = d.state_.length then
        (integrateRollPitchYaw m d.ffPose_ d.state_ s.1 dt).bind fun r =>
        (jointLoop s.1 dt 0 r.1).bind fun st =>
        some { d with vel_controlInit_ := true, vel_control_ := s.1, velocity_ := s.2,
                      state_ := st, ffPose_ := r.2 }
      else
        (jointLoop s.1 dt (if controlIN.length = d.velocity_.length then 0 else 6)
          d.state_).bind fun st =>
        some { d with vel_controlInit_ := true, vel_control_ := s.1, velocity_ := s.2,
                      state_ := st } := by
  obtain ⟨state_, velocity_, init, vel_control_, mode, pose⟩ := d
  simp only at hmode
  subst hmode
  cases init
  · simp only [integrate]
    simp only [reduceCtorEq, if_false, if_true]
    cases accelerationLoop controlIN dt (if controlIN.length = velocity_.length then 0 else 6)
        (List.replicate controlIN.length 0, velocity_) with
    | none => rfl
    | some s =>
      simp only [Option.some_bind]
      by_cases h : s.1.length = state_.length
      · simp only [h, if_true, Option.some_bind]
        cases integrateRollPitchYaw m pose state_ s.1 dt <;> rfl
      · simp only [h, if_false, Option.some_bind]
  · simp only [integrate]
    simp only [reduceCtorEq, if_false, if_true]
    cases accelerationLoop controlIN dt (if controlIN.length = velocity_.length then 0 else 6)
        (vel_control_, velocity_) with
    | none => rfl
    | some s =>
      simp only [Option.some_bind]
      by_cases h : s.1.length = state_.length
      · simp only [h, if_true, Option.some_bind]
        cases integrateRollPitchYaw m pose state_ s.1 dt <;> rfl
      · simp only [h, if_false, Option.some_bind]

end IntegrateLemmas

section RotationLemmas

theorem poseColumns_rotationBlock {α : Type} (ffPose_ : MatrixHomogeneous α)
    (column : Columns α) : poseColumns (rotationBlock ffPose_ column) = column := rfl

/-- The columns built from roll, pitch and yaw are orthonormal. -/
theorem rpyColumns_orthonormal (m : Libm ℝ) (hm : m.IsReal) (roll pitch yaw : ℝ) :
    (rpyColumns m roll pitch yaw).Orthonormal := by
  obtain ⟨cos, sin, sqrt, atan2⟩ := m
  obtain ⟨rfl, rfl, -, -⟩ := hm
  have h1 := Real.sin_sq_add_cos_sq roll
  have h2 := Real.sin_sq_add_cos_sq pitch
  have h3 := Real.sin_sq_add_cos_sq yaw
  simp only [Columns.Orthonormal, rpyColumns, Vector3d.dot]
  refine ⟨?_, ?_, ?_, ?_, ?_, ?_⟩
  · linear_combination (Real.cos pitch ^ 2) * h3 + h2
  · linear_combination (Real.sin roll ^ 2 * Real.sin pitch ^ 2 + Real.cos roll ^ 2) * h3 +
      (Real.sin roll ^ 2) * h2 + h1
  · linear_combination (Real.cos roll ^ 2 * Real.sin pitch ^ 2 + Real.sin roll ^ 2) * h3 +
      (Real.cos roll ^ 2) * h2 + h1
  · linear_combination (Real.cos pitch * Real.sin roll * Real.sin pitch) * h3
  · linear_combination (Real.cos pitch * Real.cos roll * Real.sin pitch) * h3
  · linear_combination
      (Real.sin roll * Real.cos roll * Real.sin pitch ^ 2 - Real.sin roll * Real.cos roll) * h3 +
      (Real.sin roll * Real.cos roll) * h2

/-- Rodrigues' formula about a unit axis keeps dot products. -/
theorem rodrigues_dot (m : Libm ℝ) (hm : m.IsReal) (k : Vector3d ℝ) (hk : k.dot k = 1)
    (angle : ℝ) (e f : Vector3d ℝ) :
    (rodrigues m k angle e).dot (rodrigues m k angle f) = e.dot f := by
  obtain ⟨cos, sin, sqrt, atan2⟩ := m
  obtain ⟨rfl, rfl, -, -⟩ := hm
  have hcs := Real.sin_sq_add_cos_sq angle
  obtain ⟨k1, k2, k3⟩ := k
  obtain ⟨e1, e2, e3⟩ := e
  obtain ⟨f1, f2, f3⟩ := f
  simp only [Vector3d.dot] at hk
  simp only [rodrigues, Vector3d.dot, Vector3d.add, Vector3d.scale, Vector3d.cross]
  linear_combination
    ((e1 * f1 + e2 * f2 + e3 * f3) - (k1 * e1 + k2 * e2 + k3 * e3) * (k1 * f1 + k2 * f2 + k3 * f3))
      * hcs +
    (Real.sin angle ^ 2 * (e1 * f1 + e2 * f2 + e3 * f3) +
      (1 - Real.cos angle) ^ 2 * (k1 * e1 + k2 * e2 + k3 * e3) * (k1 * f1 + k2 * f2 + k3 * f3))
      * hk

/-- Rotating orthonormal columns about a unit axis leaves them orthonormal. -/
theorem rotatedColumns_orthonormal (m : Libm ℝ) (hm : m.IsReal) (k : Vector3d ℝ)
    (hk : k.dot k = 1) (angle : ℝ) (column : Columns ℝ) (h : column.Orthonormal) :
    (rotatedColumns m k angle column).Orthonormal := by
  obtain ⟨h0, h1, h2, h3, h4, h5⟩ := h
  simp only [Columns.Orthonormal, rotatedColumns, rodrigues_dot m hm k hk]
  exact ⟨h0, h1, h2, h3, h4, h5⟩

/-- The normalised axis `omega / omega.norm()` is a unit vector when the norm is not zero. -/
theorem divScalar_norm_dot (m : Libm ℝ) (hm : m.IsReal) (omega : Vector3d ℝ)
    (h : omega.norm m ≠ 0) :
    (omega.divScalar (omega.norm m)).dot (omega.divScalar (omega.norm m)) = 1 := by
  obtain ⟨cos, sin, sqrt, atan2⟩ := m
  obtain ⟨-, -, rfl, -⟩ := hm
  obtain ⟨w1, w2, w3⟩ := omega
  simp only [Vector3d.norm, Vector3d.dot] at h ⊢
  have hnn : 0 ≤ w1 * w1 + w2 * w2 + w3 * w3 := by
    have h1 := mul_self_nonneg w1
    have h2 := mul_self_nonneg w2
    have h3 := mul_self_nonneg w3
    linarith
  have hsq := Real.mul_self_sqrt hnn
  simp only [Vector3d.divScalar]
  generalize √(w1 * w1 + w2 * w2 + w3 * w3) = N at h hsq
  field_simp
  linear_combination -hsq

end RotationLemmas

section AngleLemmas

/-- The argument of the point `(r cos θ, r sin θ)` is `θ`, for `r > 0` and `θ` in `(-π, π]`. -/
theorem arg_scaled_cos_sin {r θ : ℝ} (hr : 0 < r) (h1 : -Real.pi < θ) (h2 : θ ≤ Real.pi) :
    Complex.arg ⟨r * Real.cos θ, r * Real.sin θ⟩ = θ := by
  have h := Complex.arg_mul_cos_add_sin_mul_I hr (Set.mem_Ioc.mpr ⟨h1, h2⟩)
  have e : (⟨r * Real.cos θ, r * Real.sin θ⟩ : ℂ) =
      (r : ℂ) * (Complex.cos θ + Complex.sin θ * Complex.I) := by
    apply Complex.ext
    · simp [← Complex.ofReal_cos, ← Complex.ofReal_sin]
    · simp [← Complex.ofReal_cos, ← Complex.ofReal_sin]
  rw [e, h]

end AngleLemmas

section ZeroControlLemmas

/-- The zero-angle branch of `integrateRollPitchYaw`: when `control(3..5)` is zero or `dt`
is zero the state keeps its entries from the third on and the pose receives the matrix of
the input angles. -/
theorem integrateRollPitchYaw_zero (m : Libm ℝ) (hm : m.IsReal)
    (ffPose_ : MatrixHomogeneous ℝ) (state control : List ℝ) (dt : ℝ)
    (hs : 6 ≤ state.length) (hc : 6 ≤ control.length)
    (h0 : (control.getD 3 0 = 0 ∧ control.getD 4 0 = 0 ∧ control.getD 5 0 = 0) ∨ dt = 0) :
    ∃ st pose, integrateRollPitchYaw m ffPose_ state control dt = some (st, pose) ∧
      st.length = state.length ∧
      (∀ j, 3 ≤ j → st[j]? = state[j]?) ∧
      (∀ j, j < 3 → st[j]? = some (state.getD j 0 + control.getD j 0 * dt)) ∧
      poseColumns pose = rpyColumns m (state.getD 3 0) (state.getD 4 0) (state.getD 5 0) := by
  obtain ⟨s0, s1, s2, roll, pitch, yaw, rest, rfl⟩ := exists_six_cons hs
  obtain ⟨c0, c1, c2, w0, w1, w2, crest, rfl⟩ := exists_six_cons hc
  rw [integrateRollPitchYaw_cons]
  have h : dt * Vector3d.norm m (⟨w0, w1, w2⟩ : Vector3d ℝ) = 0 := by
    rcases h0 with ⟨h3, h4, h5⟩ | h0
    · simp only [List.getD_cons_succ, List.getD_cons_zero] at h3 h4 h5
      subst h3 h4 h5
      obtain ⟨-, -, hq, -⟩ := hm
      simp [Vector3d.norm, Vector3d.dot, hq]
    · rw [h0, zero_mul]
  simp only [h, if_true]
  refine ⟨_, _, rfl, by simp, ?_, ?_, rfl⟩
  · intro j hj
    obtain ⟨k, rfl⟩ : ∃ k, j = k + 3 := ⟨j - 3, by omega⟩
    simp
  · intro j hj
    interval_cases j <;> simp

end ZeroControlLemmas

namespace IntegratorEuler

section StepLemmas

variable {K M : Type} [Ring K] [AddCommGroup M] [Module K M]

/-- Step 1 in closed form. -/
theorem integrateStep1_eq (e : IntegratorEuler K M) (x : M)
    (hin : 1 ≤ e.inputMemory.length) (hnum : 1 ≤ e.numerator.length) :
    integrateStep1 e x =
      some (e.inputMemory.getD 0 0, e.inputMemory.set 0 x, e.numerator.getD 0 0 • x) := by
  have h0 : 0 < (e.inputMemory.set 0 x).length := by simpa using hin
  simp only [integrateStep1]
  rw [vget_getD (show 0 < e.inputMemory.length from hin), Option.some_bind,
    vset_of_lt x (show 0 < e.inputMemory.length from hin), Option.some_bind,
    vget_getD (show 0 < e.numerator.length from hnum), Option.some_bind,
    vget_getD h0, Option.some_bind, getD_set_self x hin]

/-- Steps 1 and 2: slot 0 holds the new sample, slot `i >= 1` the backward difference of
slot `i - 1`, the slots beyond the numerator are kept, and the running sum is the
numerator applied to the new slots. -/
theorem integrateStep12_spec (e : IntegratorEuler K M) (x : M)
    (hnum : 1 ≤ e.numerator.length) (hin : e.numerator.length ≤ e.inputMemory.length) :
    ∃ tmp1 mem sum, (integrateStep1 e x).bind (integrateStep2 e) = some (tmp1, mem, sum) ∧
      mem.length = e.inputMemory.length ∧
      mem[0]? = some x ∧
      (∀ i, 1 ≤ i → i < e.numerator.length →
        mem[i]? = some (e.invdt • (mem.getD (i - 1) 0 - e.inputMemory.getD (i - 1) 0))) ∧
      (∀ i, e.numerator.length ≤ i → mem[i]? = e.inputMemory[i]?) ∧
      sum = (Finset.range e.numerator.length).sum
        (fun i => e.numerator.getD i 0 • mem.getD i 0) := by
  rw [integrateStep1_eq e x (by omega) hnum, Option.some_bind]
  obtain ⟨⟨tmp1, mem, sum⟩, hs, hlen, -, h0, hrec, hkeep, hsum⟩ := forLoop_inv
    (fun i (s : M × List M × M) =>
      (vget s.2.1 (i - 1)).bind fun prev =>
      let tmp2 := prev - s.1
      let tmp2 := e.invdt • tmp2
      (vget s.2.1 i).bind fun tmp1 =>
      (vset s.2.1 i tmp2).bind fun inputMemory =>
      (vget e.numerator i).bind fun bi =>
      (vget inputMemory i).bind fun xi =>
      some (tmp1, inputMemory, s.2.2 + bi • xi))
    (fun i (s : M × List M × M) =>
      s.2.1.length = e.inputMemory.length ∧
      s.1 = e.inputMemory.getD (i - 1) 0 ∧
      s.2.1[0]? = some x ∧
      (∀ j, 1 ≤ j → j < i →
        s.2.1[j]? = some (e.invdt • (s.2.1.getD (j - 1) 0 - e.inputMemory.getD (j - 1) 0))) ∧
      (∀ j, i ≤ j → s.2.1[j]? = e.inputMemory[j]?) ∧
      s.2.2 = (Finset.range i).sum (fun j => e.numerator.getD j 0 • s.2.1.getD j 0))
    (e.numerator.length - 1) 1
    (e.inputMemory.getD 0 0, e.inputMemory.set 0 x, e.numerator.getD 0 0 • x)
    (by
      refine ⟨by simp, rfl, ?_, fun j h1 h2 => by omega, fun j hj => ?_, ?_⟩
      · show (e.inputMemory.set 0 x)[0]? = some x
        rw [List.getElem?_set, if_pos rfl, if_pos (by omega)]
      · show (e.inputMemory.set 0 x)[j]? = _
        rw [List.getElem?_set, if_neg (by omega)]
      · show e.numerator.getD 0 0 • x = _
        rw [Finset.sum_range_one]
        show _ = e.numerator.getD 0 0 • (e.inputMemory.set 0 x).getD 0 0
        rw [getD_set_self x (by omega)])
    (by
      rintro i ⟨tmp1, mem, sum⟩ h1 hi ⟨hlen, htmp, h0, hrec, hkeep, hsum⟩
      simp only at hlen htmp h0 hrec hkeep hsum
      have hi1 : i - 1 < mem.length := by omega
      have hil : i < mem.length := by omega
      have hin' : i < e.numerator.length := by omega
      have hne : i ≠ i - 1 := by omega
      refine ⟨(mem.getD i 0, mem.set i (e.invdt • (mem.getD (i - 1) 0 - tmp1)),
        sum + e.numerator.getD i 0 • (e.invdt • (mem.getD (i - 1) 0 - tmp1))), ?_, ?_⟩
      · show (vget mem (i - 1)).bind (fun prev =>
          (vget mem i).bind fun tmp1' =>
          (vset mem i (e.invdt • (prev - tmp1))).bind fun inputMemory =>
          (vget e.numerator i).bind fun bi =>
          (vget inputMemory i).bind fun xi =>
          some (tmp1', inputMemory, sum + bi • xi)) = _
        rw [vget_getD hi1, Option.some_bind, vget_getD hil, Option.some_bind,
          vset_of_lt _ hil, Option.some_bind, vget_getD hin', Option.some_bind,
          vget_getD (by simpa using hil), Option.some_bind, getD_set_self _ hil]
      · refine ⟨by simpa using hlen, ?_, ?_, ?_, ?_, ?_⟩
        · show mem.getD i 0 = e.inputMemory.getD (i + 1 - 1) 0
          rw [Nat.add_sub_cancel]
          exact getD_congr (hkeep i (le_refl i))
        · show (mem.set i _)[0]? = some x
          rw [List.getElem?_set, if_neg (by omega)]
          exact h0
        · intro j hj1 hj2
          show (mem.set i _)[j]? = some (e.invdt • ((mem.set i _).getD (j - 1) 0 - _))
          rw [getD_set_of_ne _ (show i ≠ j - 1 by omega), List.getElem?_set]
          by_cases hji : i = j
          · subst hji
            rw [if_pos rfl, if_pos hil, htmp]
          · rw [if_neg hji]
            exact hrec j hj1 (by omega)
        · intro j hj
          show (mem.set i _)[j]? = _
          rw [List.getElem?_set, if_neg (by omega)]
          exact hkeep j (by omega)
        · show sum + _ = _
          rw [Finset.sum_range_succ, getD_set_self _ hil, hsum]
          congr 1
          apply Finset.sum_congr rfl
          intro j hj
          rw [getD_set_of_ne _ (show i ≠ j by
            have := Finset.mem_range.mp hj
            omega)])
  have hfin : 1 + (e.numerator.length - 1) = e.numerator.length := by omega
  rw [hfin] at hrec hkeep hsum
  exact ⟨tmp1, mem, sum, hs, hlen, h0, hrec, hkeep, hsum⟩

end StepLemmas

end IntegratorEuler

namespace IntegratorEuler

theorem denomsize_toNat {K M : Type} (e : IntegratorEuler K M) :
    e.denomsize.toNat = e.denominator.length - 1 := by
  unfold denomsize
  omega

section FeedbackLemmas

variable {K M : Type} [Ring K] [AddCommGroup M] [Module K M]

/-- Step 3 subtracts `denominator[i] * outputMemory[i]` for `i < denominator.size() - 1`. -/
theorem integrateStep3_spec (e : IntegratorEuler K M) (sum : M)
    (hout : e.denominator.length ≤ e.outputMemory.length + 1) :
    integrateStep3 e sum = some (sum - (Finset.range (e.denominator.length - 1)).sum
      (fun i => e.denominator.getD i 0 • e.outputMemory.getD i 0)) := by
  obtain ⟨s, hs, hP⟩ := forLoop_inv
    (fun i (sum : M) =>
      (vget e.denominator i).bind fun ai =>
      (vget e.outputMemory i).bind fun yi =>
      some (sum - ai • yi))
    (fun i (s : M) => s = sum - (Finset.range i).sum
      (fun j => e.denominator.getD j 0 • e.outputMemory.getD j 0))
    (e.denominator.length - 1) 0 sum (by simp)
    (by
      intro i t _ hi ht
      refine ⟨t - e.denominator.getD i 0 • e.outputMemory.getD i 0, ?_, ?_⟩
      · show (vget e.denominator i).bind (fun ai =>
          (vget e.outputMemory i).bind fun yi => some (t - ai • yi)) = _
        rw [vget_getD (show i < e.denominator.length by omega), Option.some_bind,
          vget_getD (show i < e.outputMemory.length by omega), Option.some_bind]
      · show t - _ = sum - (Finset.range (i + 1)).sum _
        rw [Finset.sum_range_succ, ht, sub_add_eq_sub_sub])
  rw [Nat.zero_add] at hP
  rw [integrateStep3, denomsize_toNat, hs, hP]

/-- Step 4 stores the running sum in slot `denominator.size() - 1` and integrates the
slots below it from the top down. -/
theorem integrateStep4_spec (e : IntegratorEuler K M) (sum : M)
    (hden : 1 ≤ e.denominator.length) (hout : e.denominator.length ≤ e.outputMemory.length) :
    ∃ out, integrateStep4 e sum = some out ∧ out.length = e.outputMemory.length ∧
      out[e.denominator.length - 1]? = some sum ∧
      (∀ i, i < e.denominator.length - 1 →
        out[i]? = some (e.outputMemory.getD i 0 + e.dt • out.getD (i + 1) 0)) ∧
      (∀ i, e.denominator.length ≤ i → out[i]? = e.outputMemory[i]?) := by
  have hds : (0 : Int) ≤ e.denomsize := by
    unfold denomsize
    omega
  have hlt : e.denominator.length - 1 < e.outputMemory.length := by omega
  obtain ⟨out, hs, hlen, htop, hrec, -, hkeep⟩ := forDown_inv
    (fun i (out : List M) =>
      (vget out i).bind fun yi =>
      (vget out (i + 1)).bind fun yi1 =>
      vset out i (yi + e.dt • yi1))
    (fun i (t : List M) =>
      t.length = e.outputMemory.length ∧
      t[e.denominator.length - 1]? = some sum ∧
      (∀ j, i ≤ j → j < e.denominator.length - 1 →
        t[j]? = some (e.outputMemory.getD j 0 + e.dt • t.getD (j + 1) 0)) ∧
      (∀ j, j < i → t[j]? = e.outputMemory[j]?) ∧
      (∀ j, e.denominator.length ≤ j → t[j]? = e.outputMemory[j]?))
    (e.denominator.length - 1) (e.outputMemory.set (e.denominator.length - 1) sum)
    (by
      refine ⟨by simp, ?_, fun j h1 h2 => by omega, fun j hj => ?_, fun j hj => ?_⟩
      · rw [List.getElem?_set, if_pos rfl, if_pos hlt]
      · rw [List.getElem?_set, if_neg (by omega)]
      · rw [List.getElem?_set, if_neg (by omega)])
    (by
      rintro i t hi ⟨hlen, htop, hrec, hlow, hkeep⟩
      have hit : i < t.length := by omega
      have hit1 : i + 1 < t.length := by omega
      have hyi : t.getD i 0 = e.outputMemory.getD i 0 := getD_congr (hlow i (by omega))
      refine ⟨t.set i (e.outputMemory.getD i 0 + e.dt • t.getD (i + 1) 0), ?_,
        by simpa using hlen, ?_, ?_, ?_, ?_⟩
      · show (vget t i).bind (fun yi => (vget t (i + 1)).bind fun yi1 =>
          vset t i (yi + e.dt • yi1)) = _
        rw [vget_getD hit, Option.some_bind, vget_getD hit1, Option.some_bind, hyi]
        exact vset_of_lt _ hit
      · rw [List.getElem?_set, if_neg (by omega)]
        exact htop
      · intro j hj1 hj2
        rw [getD_set_of_ne _ (show i ≠ j + 1 by omega), List.getElem?_set]
        by_cases hji : i = j
        · subst hji
          rw [if_pos rfl, if_pos hit]
        · rw [if_neg hji]
          exact hrec j (by omega) hj2
      · intro j hj
        rw [List.getElem?_set, if_neg (by omega)]
        exact hlow j (by omega)
      · intro j hj
        rw [List.getElem?_set, if_neg (by omega)]
        exact hkeep j hj)
  refine ⟨out, ?_, hlen, htop, fun i hi => hrec i (Nat.zero_le i) hi, hkeep⟩
  rw [integrateStep4, vsetI, if_pos hds, denomsize_toNat, vset_of_lt _ hlt, Option.some_bind]
  exact hs

end FeedbackLemmas

end IntegratorEuler

section Reachability

open ControlInput

/-- The device `staleBufferDevice` is reached through the commands of `Device`: `resize(7)`
on a new device, one `integrate` in the velocity mode on a zero control vector of size 7,
then `setSecondOrderIntegration`. -/
theorem staleBufferDevice_reachable :
    ∃ d1, integrate ⟨Real.cos, Real.sin, Real.sqrt, fun y x => Complex.arg ⟨x, y⟩⟩
        (setStateSize (Device.construct (fun i j => if i = j then 1 else 0)) 7)
        [0, 0, 0, 0, 0, 0, 0] 1 = some d1 ∧
      setSecondOrderIntegration d1 = staleBufferDevice ℝ := by
  rw [integrate_one_eq _ _ _ _ rfl]
  simp only [setStateSize, setVelocitySize, Device.construct, List.replicate, List.length_cons,
    List.length_nil, if_true, integrateRollPitchYaw_cons, Vector3d.norm, Vector3d.dot,
    mul_zero, add_zero, Real.sqrt_zero, Option.some_bind]
  simp only [jointLoop, forLoop, vget, vset, List.length_cons, List.length_nil]
  simp only [Nat.reduceAdd, Nat.reduceSub, Nat.reduceLT, if_true, Option.some_bind,
    List.getElem?_cons_succ, List.getElem?_cons_zero, List.set_cons_succ, List.set_cons_zero]
  refine ⟨_, rfl, ?_⟩
  simp only [setSecondOrderIntegration, staleBufferDevice, List.length_cons, List.length_nil,
    List.replicate, mul_zero, add_zero, mul_one, Nat.reduceAdd]
  congr 1
  funext i j
  fin_cases i <;> fin_cases j <;>
    simp [rotationBlock, MatrixHomogeneous.set, rpyColumns, Columns.get, Vector3d.get]

/-- The device `freshDevice` in the acceleration mode is reached through the commands
`resize(7)`, `set`, `setSecondOrderIntegration` and `setVelocity` on a new device. -/
theorem freshDevice_reachable :
    setVelocity (setSecondOrderIntegration (setState
      (setStateSize (Device.construct (fun i j => if i = j then 1 else 0)) 7)
      [0, 0, 0, 0, 0, 0, 1])) [0, 0, 0, 0, 0, 0, 2] =
    freshDevice ℝ CONTROL_INPUT_TWO_INTEGRATION := rfl

end Reachability

section ResizeLemmas

theorem length_resize {α : Type} [Zero α] (v : List α) (n : Nat) : (resize v n).length = n := by
  simp only [resize, List.length_append, List.length_take, List.length_replicate]
  omega

/-- A vector of size `n` whose entries are all `x` is `n` copies of `x`. -/
theorem eq_replicate_of_getElem? {α : Type} {l : List α} {n : Nat} {x : α}
    (hlen : l.length = n) (h : ∀ j, j < n → l[j]? = some x) : l = List.replicate n x := by
  apply List.ext_getElem?
  intro j
  by_cases hj : j < n
  · rw [h j hj, List.getElem?_replicate, if_pos hj]
  · rw [List.getElem?_eq_none (by omega), List.getElem?_replicate, if_neg hj]

end ResizeLemmas

namespace IntegratorEuler

section InitialiseLemmas

variable {K M : Type}

/-- The fill loops of `initialize`: writing the same value in the slots `lo .. lo + n - 1`
of a vector whose slots below `lo` already hold it. -/
theorem fillLoop_spec (get : List M → Option M) (x : M) (size : Nat) :
    ∀ (n lo : Nat) (mem : List M), mem.length = size → lo + n = size →
      (∀ t : List M, t.length = size → (∀ j, j < lo → t[j]? = some x) → get t = some x) →
      (∀ j, j < lo → mem[j]? = some x) →
      forLoop (fun i t => (get t).bind fun x0 => vset t i x0) lo n mem =
        some (List.replicate size x) := by
  intro n lo mem hlen hsz hget hlow
  obtain ⟨out, hout, hl, hP⟩ := forLoop_inv
    (fun i t => (get t).bind fun x0 => vset t i x0)
    (fun i (t : List M) => t.length = size ∧ ∀ j, j < i → t[j]? = some x)
    n lo mem ⟨hlen, hlow⟩
    (by
      rintro i t hi1 hi2 ⟨htl, ht⟩
      refine ⟨t.set i x, ?_, by simpa using htl, ?_⟩
      · show (get t).bind (fun x0 => vset t i x0) = _
        rw [hget t htl (fun j hj => ht j (by omega)), Option.some_bind]
        exact vset_of_lt x (by omega)
      · intro j hj
        rw [List.getElem?_set]
        by_cases hji : i = j
        · subst hji
          rw [if_pos rfl, if_pos (by omega)]
        · rw [if_neg hji]
          exact ht j (by omega))
  rw [hout, eq_replicate_of_getElem? hl (fun j hj => hP j (by omega))]

/-- `initialize` on a non-empty numerator: both memories are resized to the sizes of the
coefficient vectors and every slot receives the sample. -/
theorem initialise_eq [AddCommGroup M] (e : IntegratorEuler K M) (x : M) (hnum : 1 ≤ e.numerator.length) :
    initialise e x = some { e with
      inputMemory := List.replicate e.numerator.length x
      outputMemory := List.replicate e.denominator.length x } := by
  have h1 : ((resize e.inputMemory e.numerator.length).set 0 x).length = e.numerator.length := by
    simp [length_resize]
  have hin := fillLoop_spec (fun mem => vget mem 0) x e.numerator.length
    (e.numerator.length - 1) 1 ((resize e.inputMemory e.numerator.length).set 0 x) h1
    (by omega)
    (fun t _ ht => by
      show vget t 0 = some x
      exact ht 0 (by omega))
    (fun j hj => by
      have hj0 : j = 0 := by omega
      subst hj0
      rw [List.getElem?_set, if_pos rfl, if_pos (by rw [length_resize]; omega)])
  have hout := fillLoop_spec
    (fun _ => vget (List.replicate e.numerator.length x) 0) x e.denominator.length
    e.denominator.length 0 (resize e.outputMemory e.denominator.length)
    (length_resize _ _) (by omega)
    (fun _ _ _ => by
      show vget (List.replicate e.numerator.length x) 0 = some x
      rw [vget, List.getElem?_replicate, if_pos (by omega)])
    (fun j hj => by omega)
  simp only [initialise]
  rw [vset_of_lt x (by rw [length_resize]; omega), Option.some_bind, hin, Option.some_bind,
    hout, Option.some_bind]

end InitialiseLemmas

end IntegratorEuler

namespace IntegratorEuler

section IntegrateLemmas

variable {K M : Type} [Ring K] [AddCommGroup M] [Module K M]

/-- With an empty denominator `integrate` writes `outputMemory[-1]`: the call is not
defined. -/
theorem integrate_eq_none_of_denominator (e : IntegratorEuler K M) (x : M)
    (hden : e.denominator.length = 0) : integrate e x = none := by
  have h4 : ∀ sum, integrateStep4 e sum = none := by
    intro sum
    have : ¬ (0 : Int) ≤ e.denomsize := by
      unfold denomsize
      omega
    simp [integrateStep4, vsetI, this]
  simp only [integrate]
  cases integrateStep1 e x with
  | none => rfl
  | some s1 =>
    simp only [Option.some_bind]
    cases integrateStep2 e s1 with
    | none => rfl
    | some s2 =>
      simp only [Option.some_bind]
      cases integrateStep3 e s2.2.2 with
      | none => rfl
      | some sum => simp only [Option.some_bind, h4, Option.none_bind]

/-- `integrate` is defined when the input memory covers the non-empty numerator and the
output memory the non-empty denominator; it changes only the two memories, whose sizes it
keeps, and returns the new `outputMemory[0]`. -/
theorem integrate_defined (e : IntegratorEuler K M) (x : M)
    (hnum : 1 ≤ e.numerator.length) (hin : e.numerator.length ≤ e.inputMemory.length)
    (hden : 1 ≤ e.denominator.length) (hout : e.denominator.length ≤ e.outputMemory.length) :
    ∃ res e', integrate e x = some (res, e') ∧
      e'.inputMemory.length = e.inputMemory.length ∧
      e'.outputMemory.length = e.outputMemory.length ∧
      e'.numerator = e.numerator ∧ e'.denominator = e.denominator ∧
      e'.dt = e.dt ∧ e'.invdt = e.invdt ∧
      e'.outputMemory[0]? = some res := by
  obtain ⟨tmp1, mem, s, h12, hmlen, -, -, -, -⟩ := integrateStep12_spec e x hnum hin
  have h3 := integrateStep3_spec e s (by omega)
  obtain ⟨out, h4, holen, -, -, -⟩ := integrateStep4_spec e
    (s - (Finset.range (e.denominator.length - 1)).sum
      (fun i => e.denominator.getD i 0 • e.outputMemory.getD i 0)) hden hout
  obtain ⟨s1, hs1, hs2⟩ := Option.bind_eq_some.mp h12
  have hm0 : 0 < mem.length := by omega
  have ho0 : 0 < out.length := by omega
  refine ⟨out.getD 0 0, { e with inputMemory := mem.set 0 x, outputMemory := out }, ?_,
    by simpa using hmlen, holen, rfl, rfl, rfl, rfl, getElem?_eq_some_getD ho0⟩
  simp only [integrate, hs1, Option.some_bind, hs2, h3, h4, vset_of_lt x hm0, vget_getD ho0]

/-- Whenever `integrate` returns, under the size invariant of the memories, the sizes
and the coefficients are kept. -/
theorem integrate_sizes (e : IntegratorEuler K M) (x : M)
    (hnum : 1 ≤ e.numerator.length) (hin : e.inputMemory.length = e.numerator.length)
    (hout : e.outputMemory.length = e.denominator.length)
    {res : M} {e' : IntegratorEuler K M} (h : integrate e x = some (res, e')) :
    e'.inputMemory.length = e.inputMemory.length ∧
      e'.outputMemory.length = e.outputMemory.length ∧
      e'.numerator = e.numerator ∧ e'.denominator = e.denominator := by
  by_cases hden : e.denominator.length = 0
  · rw [integrate_eq_none_of_denominator e x hden] at h
    exact absurd h (by simp)
  · obtain ⟨res1, e1, h1, a, b, c, d, -⟩ := integrate_defined e x hnum (by omega) (by omega)
      (by omega)
    rw [h1] at h
    obtain ⟨-, rfl⟩ : res1 = res ∧ e1 = e' := by simpa using h
    exact ⟨a, b, c, d⟩

/-- Successive calls keep the sizes of the memories and the coefficients. -/
theorem integrateSeq_sizes (xs : List M) :
    ∀ (e : IntegratorEuler K M), 1 ≤ e.numerator.length →
      e.inputMemory.length = e.numerator.length →
      e.outputMemory.length = e.denominator.length →
      ∀ outs e', integrateSeq e xs = some (outs, e') →
        e'.inputMemory.length = e.inputMemory.length ∧
        e'.outputMemory.length = e.outputMemory.length ∧
        e'.numerator = e.numerator ∧ e'.denominator = e.denominator := by
  induction xs with
  | nil =>
    intro e _ _ _ outs e' h
    simp only [integrateSeq, Option.some.injEq, Prod.mk.injEq] at h
    obtain ⟨-, rfl⟩ := h
    exact ⟨rfl, rfl, rfl, rfl⟩
  | cons x xs ih =>
    intro e hnum hin hout outs e' h
    simp only [integrateSeq] at h
    obtain ⟨r, hr, h⟩ := Option.bind_eq_some.mp h
    obtain ⟨rs, hrs, h⟩ := Option.bind_eq_some.mp h
    simp only [Option.some.injEq, Prod.mk.injEq] at h
    obtain ⟨-, rfl⟩ := h
    obtain ⟨a, b, c, d⟩ := integrate_sizes e x hnum hin hout (show integrate e x = some (r.1, r.2) from hr)
    obtain ⟨a', b', c', d'⟩ := ih r.2 (by rw [c]; exact hnum) (by rw [a, c]; exact hin)
      (by rw [b, d]; exact hout) rs.1 rs.2 hrs
    exact ⟨a'.trans a, b'.trans b, c'.trans c, d'.trans d⟩

/-- Successive calls are all defined when the denominator is not empty. -/
theorem integrateSeq_defined (xs : List M) :
    ∀ (e : IntegratorEuler K M), 1 ≤ e.numerator.length →
      e.inputMemory.length = e.numerator.length →
      1 ≤ e.denominator.length →
      e.outputMemory.length = e.denominator.length →
      ∃ outs e', integrateSeq e xs = some (outs, e') ∧ outs.length = xs.length := by
  induction xs with
  | nil =>
    intro e _ _ _ _
    exact ⟨[], e, rfl, rfl⟩
  | cons x xs ih =>
    intro e hnum hin hden hout
    obtain ⟨res, e1, h1, a, b, c, d, -⟩ := integrate_defined e x hnum (by omega) hden
      (by omega)
    obtain ⟨outs, e2, h2, hl⟩ := ih e1 (by rw [c]; exact hnum) (by rw [a, c]; exact hin)
      (by rw [d]; exact hden) (by rw [b, d]; exact hout)
    refine ⟨res :: outs, e2, ?_, by simp [hl]⟩
    simp only [integrateSeq, h1, Option.some_bind, h2]

end IntegrateLemmas

end IntegratorEuler

namespace IntegratorEuler

section ShapeLemmas

variable {K M : Type} [Ring K] [AddCommGroup M] [Module K M]

/-- `integrate` on a one-coefficient numerator and a one-coefficient denominator: the
output is `b0 * x`, whatever the stored denominator coefficient and the memories. -/
theorem integrate_one_coefficient (e : IntegratorEuler K M) (x : M) (b0 a : K) (p y : M)
    (hnum : e.numerator = [b0]) (hden : e.denominator = [a])
    (hin : e.inputMemory = [p]) (hout : e.outputMemory = [y]) :
    integrate e x = some (b0 • x, { e with inputMemory := [x], outputMemory := [b0 • x] }) := by
  obtain ⟨num, den, inM, outM, dt, invdt⟩ := e
  simp only at hnum hden hin hout
  subst hnum hden hin hout
  simp [integrate, integrateStep1, integrateStep2, integrateStep3, integrateStep4, denomsize,
    forLoop, forDown, vget, vset, vsetI]

/-- `integrate` on a two-coefficient numerator and a one-coefficient denominator: the
output is `b0 * x + b1 * invdt * (x - p)` with `p` the previous sample. -/
theorem integrate_two_coefficients (e : IntegratorEuler K M) (x : M) (b0 b1 a : K)
    (p q y : M) (hnum : e.numerator = [b0, b1]) (hden : e.denominator = [a])
    (hin : e.inputMemory = [p, q]) (hout : e.outputMemory = [y]) :
    integrate e x = some (b0 • x + b1 • e.invdt • (x - p),
      { e with inputMemory := [x, e.invdt • (x - p)]
               outputMemory := [b0 • x + b1 • e.invdt • (x - p)] }) := by
  obtain ⟨num, den, inM, outM, dt, invdt⟩ := e
  simp only at hnum hden hin hout
  subst hnum hden hin hout
  simp [integrate, integrateStep1, integrateStep2, integrateStep3, integrateStep4, denomsize,
    forLoop, forDown, vget, vset, vsetI]

/-- With numerator `[1]` and a one-coefficient denominator every call returns its sample. -/
theorem integrateSeq_gain (xs : List M) :
    ∀ (e : IntegratorEuler K M) (a : K) (p y : M), e.numerator = [1] → e.denominator = [a] →
      e.inputMemory = [p] → e.outputMemory = [y] →
      ∃ e', integrateSeq e xs = some (xs, e') := by
  induction xs with
  | nil =>
    intro e _ _ _ _ _ _ _
    exact ⟨e, rfl⟩
  | cons x xs ih =>
    intro e a p y hnum hden hin hout
    have h1 := integrate_one_coefficient e x 1 a p y hnum hden hin hout
    rw [one_smul] at h1
    obtain ⟨e', h'⟩ := ih { e with inputMemory := [x], outputMemory := [x] } a x x hnum hden
      rfl rfl
    exact ⟨e', by simp only [integrateSeq, h1, Option.some_bind, h']⟩

end ShapeLemmas

end IntegratorEuler

namespace IntegratorEuler

section RampLemmas

variable {K : Type} [Field K]

/-- On the differentiator `numerator = [0, 1]` with `invdt = 100`, every sample of a ramp of
unit steps after the sample `j` returns 100. -/
theorem integrateSeq_ramp_tail (n : Nat) :
    ∀ (e : IntegratorEuler K K) (a : K) (j : Nat) (q y : K), e.numerator = [0, 1] →
      e.denominator = [a] → e.invdt = 100 → e.inputMemory = [(j : K), q] →
      e.outputMemory = [y] →
      ∃ e', integrateSeq e ((List.range' (j + 1) n).map (Nat.cast : Nat → K)) =
        some (List.replicate n 100, e') := by
  induction n with
  | zero =>
    intro e _ _ _ _ _ _ _ _ _
    exact ⟨e, rfl⟩
  | succ n ih =>
    intro e a j q y hnum hden hinv hin hout
    have h1 := integrate_two_coefficients e ((j + 1 : Nat) : K) 0 1 a (j : K) q y hnum hden
      hin hout
    have hval : (0 : K) • ((j + 1 : Nat) : K) + (1 : K) • e.invdt • (((j + 1 : Nat) : K) - (j : K))
        = 100 := by
      rw [hinv]
      simp only [smul_eq_mul]
      push_cast
      ring
    have hd : e.invdt • (((j + 1 : Nat) : K) - (j : K)) = 100 := by
      rw [hinv]
      simp only [smul_eq_mul]
      push_cast
      ring
    rw [hval, hd] at h1
    obtain ⟨e', h'⟩ := ih
      ⟨e.numerator, e.denominator, [((j + 1 : Nat) : K), 100], [100], e.dt, e.invdt⟩
      a (j + 1) 100 100 hnum hden hinv rfl rfl
    refine ⟨e', ?_⟩
    rw [List.range'_succ, List.map_cons]
    simp only [integrateSeq, h1, Option.some_bind, h', List.replicate_succ]

end RampLemmas

end IntegratorEuler

section SetterLemmas

variable {α : Type}

open ControlInput

/-- `setControlInputType` writes no member but the control mode. -/
theorem setControlInputType_frame (names : ControlInput → String) (d : Device α)
    (cit : String) :
    (setControlInputType names d cit).state_ = d.state_ ∧
      (setControlInputType names d cit).velocity_ = d.velocity_ ∧
      (setControlInputType names d cit).vel_control_ = d.vel_control_ ∧
      (setControlInputType names d cit).vel_controlInit_ = d.vel_controlInit_ ∧
      (setControlInputType names d cit).ffPose_ = d.ffPose_ := by
  unfold setControlInputType
  cases List.find? (fun i => decide (cit = names i)) [CONTROL_INPUT_NO_INTEGRATION,
      CONTROL_INPUT_ONE_INTEGRATION, CONTROL_INPUT_TWO_INTEGRATION] <;>
    exact ⟨rfl, rfl, rfl, rfl, rfl⟩

/-- Called with the name of a mode that no other mode shares, `setControlInputType` sets
that mode. -/
theorem setControlInputType_mode (names : ControlInput → String) (d : Device α)
    (mode : ControlInput) (hinj : ∀ i, names i = names mode → i = mode) :
    (setControlInputType names d (names mode)).controlInputType_ = mode := by
  unfold setControlInputType
  cases mode with
  | CONTROL_INPUT_NO_INTEGRATION => simp [List.find?]
  | CONTROL_INPUT_ONE_INTEGRATION =>
    have h0 : ¬ names CONTROL_INPUT_ONE_INTEGRATION = names CONTROL_INPUT_NO_INTEGRATION :=
      fun h => by have := hinj _ h.symm; cases this
    simp [List.find?, h0]
  | CONTROL_INPUT_TWO_INTEGRATION =>
    have h0 : ¬ names CONTROL_INPUT_TWO_INTEGRATION = names CONTROL_INPUT_NO_INTEGRATION :=
      fun h => by have := hinj _ h.symm; cases this
    have h1 : ¬ names CONTROL_INPUT_TWO_INTEGRATION = names CONTROL_INPUT_ONE_INTEGRATION :=
      fun h => by have := hinj _ h.symm; cases this
    simp [List.find?, h0, h1]

end SetterLemmas

section LengthLemmas

/-- A property kept by every iteration that returns is kept by a loop that returns. -/
theorem forLoop_preserves {σ : Type} (body : Nat → σ → Option σ) (Q : σ → Prop)
    (hbody : ∀ i s s', body i s = some s' → Q s → Q s') :
    ∀ (n lo : Nat) (s s' : σ), forLoop body lo n s = some s' → Q s → Q s' := by
  intro n
  induction n with
  | zero =>
    intro lo s s' h hQ
    simp only [forLoop, Option.some.injEq] at h
    exact h ▸ hQ
  | succ n ih =>
    intro lo s s' h hQ
    simp only [forLoop] at h
    obtain ⟨t, ht, h⟩ := Option.bind_eq_some.mp h
    exact ih (lo + 1) t s' h (hbody lo s t ht hQ)

theorem vset_length {α : Type} {v v' : List α} {i : Nat} {x : α} (h : vset v i x = some v') :
    v'.length = v.length := by
  unfold vset at h
  split at h
  · simp only [Option.some.injEq] at h
    rw [← h, List.length_set]
  · exact absurd h (by simp)

variable {α : Type}

theorem copyControl_length {controlIN state_ st : List α}
    (h : copyControl controlIN state_ = some st) : st.length = state_.length := by
  refine forLoop_preserves _ (fun t : List α => t.length = state_.length) ?_ _ _ _ _ h rfl
  intro i s s' hs hQ
  obtain ⟨ci, -, hs⟩ := Option.bind_eq_some.mp hs
  rw [vset_length hs]
  exact hQ

theorem jointLoop_length [Field α] {vel_control_ state_ st : List α} {dt : α} {offset : Nat}
    (h : jointLoop vel_control_ dt offset state_ = some st) : st.length = state_.length := by
  refine forLoop_preserves _ (fun t : List α => t.length = state_.length) ?_ _ _ _ _ h rfl
  intro i s s' hs hQ
  obtain ⟨si, -, hs⟩ := Option.bind_eq_some.mp hs
  obtain ⟨vi, -, hs⟩ := Option.bind_eq_some.mp hs
  rw [vset_length hs]
  exact hQ

theorem accelerationLoop_length [Field α] {controlIN : List α} {dt : α} {offset : Nat}
    {s s' : List α × List α} (h : accelerationLoop controlIN dt offset s = some s') :
    s'.1.length = s.1.length ∧ s'.2.length = s.2.length := by
  refine forLoop_preserves _
    (fun t : List α × List α => t.1.length = s.1.length ∧ t.2.length = s.2.length) ?_
    _ _ _ _ h ⟨rfl, rfl⟩
  intro i t t' ht hQ
  obtain ⟨vi, -, ht⟩ := Option.bind_eq_some.mp ht
  obtain ⟨ci, -, ht⟩ := Option.bind_eq_some.mp ht
  obtain ⟨vc, hvc, ht⟩ := Option.bind_eq_some.mp ht
  obtain ⟨vi', -, ht⟩ := Option.bind_eq_some.mp ht
  obtain ⟨vel, hvel, ht⟩ := Option.bind_eq_some.mp ht
  simp only [Option.some.injEq] at ht
  subst ht
  exact ⟨by rw [vset_length hvc]; exact hQ.1, by rw [vset_length hvel]; exact hQ.2⟩

theorem translationLoop_length [Field α] {control : List α} {dt : α}
    {s s' : List α × MatrixHomogeneous α × Vector3d α}
    (h : translationLoop control dt s = some s') : s'.1.length = s.1.length := by
  refine forLoop_preserves _
    (fun t : List α × MatrixHomogeneous α × Vector3d α => t.1.length = s.1.length) ?_
    _ _ _ _ h rfl
  intro i t t' ht hQ
  obtain ⟨si, -, ht⟩ := Option.bind_eq_some.mp ht
  obtain ⟨ci, -, ht⟩ := Option.bind_eq_some.mp ht
  obtain ⟨st, hst, ht⟩ := Option.bind_eq_some.mp ht
  obtain ⟨sti, -, ht⟩ := Option.bind_eq_some.mp ht
  obtain ⟨oi, -, ht⟩ := Option.bind_eq_some.mp ht
  simp only [Option.some.injEq] at ht
  subst ht
  show st.length = s.1.length
  rw [vset_length hst]
  exact hQ

/-- Whenever `integrateRollPitchYaw` returns, the state has kept its size. -/
theorem integrateRollPitchYaw_length [Field α] [DecidableEq α] {m : Libm α} {ffPose_ : MatrixHomogeneous α}
    {state control : List α} {dt : α} {r : List α × MatrixHomogeneous α}
    (h : integrateRollPitchYaw m ffPose_ state control dt = some r) :
    r.1.length = state.length := by
  unfold integrateRollPitchYaw at h
  obtain ⟨s, hs, h⟩ := Option.bind_eq_some.mp h
  have hlen := translationLoop_length hs
  obtain ⟨roll, -, h⟩ := Option.bind_eq_some.mp h
  obtain ⟨pitch, -, h⟩ := Option.bind_eq_some.mp h
  obtain ⟨yaw, -, h⟩ := Option.bind_eq_some.mp h
  simp only [storeRotation_eq, rotateColumns_eq, Option.some_bind] at h
  split at h
  · simp only [Option.some.injEq] at h
    rw [← h]
    exact hlen
  · obtain ⟨s3, h3, h⟩ := Option.bind_eq_some.mp h
    obtain ⟨s4, h4, h⟩ := Option.bind_eq_some.mp h
    obtain ⟨s5, h5, h⟩ := Option.bind_eq_some.mp h
    simp only [Option.some.injEq] at h
    rw [← h]
    show s5.length = state.length
    rw [vset_length h5, vset_length h4, vset_length h3]
    exact hlen

open ControlInput

/-- Whenever `integrate` returns, the state and the velocity have kept their sizes. -/
theorem integrate_length [Field α] [DecidableEq α] {m : Libm α} {d d' : Device α} {controlIN : List α} {dt : α}
    (h : integrate m d controlIN dt = some d') :
    d'.state_.length = d.state_.length ∧ d'.velocity_.length = d.velocity_.length := by
  cases hmode : d.controlInputType_ with
  | CONTROL_INPUT_NO_INTEGRATION =>
    simp only [integrate, hmode, if_true] at h
    split at h
    · obtain ⟨st, hst, h⟩ := Option.bind_eq_some.mp h
      simp only [Option.some.injEq] at h
      rw [← h]
      exact ⟨copyControl_length hst, rfl⟩
    · exact absurd h (by simp)
  | CONTROL_INPUT_ONE_INTEGRATION =>
    rw [integrate_one_eq m d controlIN dt hmode] at h
    split at h
    · obtain ⟨r, hr, h⟩ := Option.bind_eq_some.mp h
      obtain ⟨st, hst, h⟩ := Option.bind_eq_some.mp h
      simp only [Option.some.injEq] at h
      rw [← h]
      exact ⟨by
        show st.length = _
        rw [jointLoop_length hst, integrateRollPitchYaw_length hr], rfl⟩
    · obtain ⟨st, hst, h⟩ := Option.bind_eq_some.mp h
      simp only [Option.some.injEq] at h
      rw [← h]
      exact ⟨jointLoop_length hst, rfl⟩
  | CONTROL_INPUT_TWO_INTEGRATION =>
    rw [integrate_two_eq m d controlIN dt hmode] at h
    obtain ⟨s, hs, h⟩ := Option.bind_eq_some.mp h
    have hvel := (accelerationLoop_length hs).2
    split at h
    · obtain ⟨r, hr, h⟩ := Option.bind_eq_some.mp h
      obtain ⟨st, hst, h⟩ := Option.bind_eq_some.mp h
      simp only [Option.some.injEq] at h
      rw [← h]
      exact ⟨by
        show st.length = _
        rw [jointLoop_length hst, integrateRollPitchYaw_length hr], hvel⟩
    · obtain ⟨st, hst, h⟩ := Option.bind_eq_some.mp h
      simp only [Option.some.injEq] at h
      rw [← h]
      exact ⟨jointLoop_length hst, hvel⟩

end LengthLemmas

section FrameLemmas

/-- The columns built from roll, pitch and yaw form a right-handed frame. -/
theorem rpyColumns_cross (m : Libm ℝ) (hm : m.IsReal) (roll pitch yaw : ℝ) :
    (rpyColumns m roll pitch yaw).c2 =
      (rpyColumns m roll pitch yaw).c0.cross (rpyColumns m roll pitch yaw).c1 := by
  obtain ⟨cos, sin, sqrt, atan2⟩ := m
  obtain ⟨rfl, rfl, -, -⟩ := hm
  have h2 := Real.sin_sq_add_cos_sq pitch
  have h3 := Real.sin_sq_add_cos_sq yaw
  simp only [rpyColumns, Vector3d.cross, Vector3d.mk.injEq]
  refine ⟨?_, ?_, ?_⟩
  · linear_combination (-(Real.sin roll * Real.sin yaw)) * h2
  · linear_combination (Real.sin roll * Real.cos yaw) * h2
  · linear_combination (-(Real.cos roll * Real.cos pitch)) * h3

/-- Rodrigues' formula about a unit axis commutes with the cross product. -/
theorem rodrigues_cross (m : Libm ℝ) (hm : m.IsReal) (k : Vector3d ℝ) (hk : k.dot k = 1)
    (angle : ℝ) (a b : Vector3d ℝ) :
    rodrigues m k angle (a.cross b) = (rodrigues m k angle a).cross (rodrigues m k angle b) := by
  obtain ⟨cos, sin, sqrt, atan2⟩ := m
  obtain ⟨rfl, rfl, -, -⟩ := hm
  have hcs := Real.sin_sq_add_cos_sq angle
  obtain ⟨k1, k2, k3⟩ := k
  obtain ⟨a1, a2, a3⟩ := a
  obtain ⟨b1, b2, b3⟩ := b
  simp only [Vector3d.dot] at hk
  simp only [rodrigues, Vector3d.dot, Vector3d.add, Vector3d.scale, Vector3d.cross,
    Vector3d.mk.injEq]
  refine ⟨?_, ?_, ?_⟩
  · linear_combination
      (-(Real.sin angle * (1 - Real.cos angle) *
          (k2 * (a1 * b2 - a2 * b1) - k3 * (a3 * b1 - a1 * b3)) +
        Real.cos angle * (1 - Real.cos angle) * (a2 * b3 - a3 * b2))) * hk +
      (-((k1 * (a2 * b3 - a3 * b2) + k2 * (a3 * b1 - a1 * b3) + k3 * (a1 * b2 - a2 * b1))
        * k1)) * hcs
  · linear_combination
      (-(Real.sin angle * (1 - Real.cos angle) *
          (k3 * (a2 * b3 - a3 * b2) - k1 * (a1 * b2 - a2 * b1)) +
        Real.cos angle * (1 - Real.cos angle) * (a3 * b1 - a1 * b3))) * hk +
      (-((k1 * (a2 * b3 - a3 * b2) + k2 * (a3 * b1 - a1 * b3) + k3 * (a1 * b2 - a2 * b1))
        * k2)) * hcs
  · linear_combination
      (-(Real.sin angle * (1 - Real.cos angle) *
          (k1 * (a3 * b1 - a1 * b3) - k2 * (a2 * b3 - a3 * b2)) +
        Real.cos angle * (1 - Real.cos angle) * (a1 * b2 - a2 * b1))) * hk +
      (-((k1 * (a2 * b3 - a3 * b2) + k2 * (a3 * b1 - a1 * b3) + k3 * (a1 * b2 - a2 * b1))
        * k3)) * hcs

end FrameLemmas

section RebuildLemmas

/-- Cosine and sine of the argument of a point at distance `r` from the origin. -/
theorem cos_sin_arg_of_sq {a b r : ℝ} (hr : 0 < r) (h : a * a + b * b = r * r) :
    Real.cos (Complex.arg ⟨a, b⟩) = a / r ∧ Real.sin (Complex.arg ⟨a, b⟩) = b / r := by
  have habs : Complex.abs ⟨a, b⟩ = r := by
    rw [Complex.abs_apply, Complex.normSq_mk, h, Real.sqrt_mul_self hr.le]
  have hne : (⟨a, b⟩ : ℂ) ≠ 0 := by
    intro h0
    rw [h0, map_zero] at habs
    exact hr.ne habs
  exact ⟨by rw [Complex.cos_arg hne, habs], by rw [Complex.sin_arg, habs]⟩

/-- Cosine and sine of the argument of a point of the unit circle. -/
theorem cos_sin_arg_of_unit {a b : ℝ} (h : a * a + b * b = 1) :
    Real.cos (Complex.arg ⟨a, b⟩) = a ∧ Real.sin (Complex.arg ⟨a, b⟩) = b := by
  have := cos_sin_arg_of_sq (r := 1) one_pos (by rw [h, one_mul])
  simpa using this

theorem rebuild_c1x (x0 y0 z0 x1 y1 z1 ρ : ℝ) (hρpos : 0 < ρ) (hρ : ρ * ρ = 1 - z0 * z0)
    (h0 : x0 * x0 + y0 * y0 + z0 * z0 = 1) (h01 : x0 * x1 + y0 * y1 + z0 * z1 = 0) :
    (z1 / ρ) * (-z0) * (x0 / ρ) - ((x0 * y1 - y0 * x1) / ρ) * (y0 / ρ) = x1 := by
  have hi : ρ * ρ⁻¹ = 1 := mul_inv_cancel₀ hρpos.ne'
  simp only [div_eq_mul_inv]
  generalize ρ⁻¹ = i at hi
  linear_combination (i ^ 2) * (x1 * h0 - x0 * h01 - x1 * hρ) + ((x1) * (i * ρ + 1)) * hi

theorem rebuild_c1y (x0 y0 z0 x1 y1 z1 ρ : ℝ) (hρpos : 0 < ρ) (hρ : ρ * ρ = 1 - z0 * z0)
    (h0 : x0 * x0 + y0 * y0 + z0 * z0 = 1) (h01 : x0 * x1 + y0 * y1 + z0 * z1 = 0) :
    (z1 / ρ) * (-z0) * (y0 / ρ) + ((x0 * y1 - y0 * x1) / ρ) * (x0 / ρ) = y1 := by
  have hi : ρ * ρ⁻¹ = 1 := mul_inv_cancel₀ hρpos.ne'
  simp only [div_eq_mul_inv]
  generalize ρ⁻¹ = i at hi
  linear_combination (i ^ 2) * (y1 * h0 - y0 * h01 - y1 * hρ) + ((y1) * (i * ρ + 1)) * hi

theorem rebuild_c2x (x0 y0 z0 x1 y1 z1 ρ : ℝ) (hρpos : 0 < ρ) (hρ : ρ * ρ = 1 - z0 * z0)
    (h0 : x0 * x0 + y0 * y0 + z0 * z0 = 1) (h01 : x0 * x1 + y0 * y1 + z0 * z1 = 0) :
    ((x0 * y1 - y0 * x1) / ρ) * (-z0) * (x0 / ρ) + (z1 / ρ) * (y0 / ρ) =
      y0 * z1 - z0 * y1 := by
  have hi : ρ * ρ⁻¹ = 1 := mul_inv_cancel₀ hρpos.ne'
  simp only [div_eq_mul_inv]
  generalize ρ⁻¹ = i at hi
  linear_combination (i ^ 2) * ((-(z0 * y1)) * h0 + (z0 * y0) * h01 - (y0 * z1 - z0 * y1) * hρ) + ((y0 * z1 - z0 * y1) * (i * ρ + 1)) * hi

theorem rebuild_c2y (x0 y0 z0 x1 y1 z1 ρ : ℝ) (hρpos : 0 < ρ) (hρ : ρ * ρ = 1 - z0 * z0)
    (h0 : x0 * x0 + y0 * y0 + z0 * z0 = 1) (h01 : x0 * x1 + y0 * y1 + z0 * z1 = 0) :
    ((x0 * y1 - y0 * x1) / ρ) * (-z0) * (y0 / ρ) - (z1 / ρ) * (x0 / ρ) =
      z0 * x1 - x0 * z1 := by
  have hi : ρ * ρ⁻¹ = 1 := mul_inv_cancel₀ hρpos.ne'
  simp only [div_eq_mul_inv]
  generalize ρ⁻¹ = i at hi
  linear_combination (i ^ 2) * ((z0 * x1) * h0 - (z0 * x0) * h01 - (z0 * x1 - x0 * z1) * hρ) + ((z0 * x1 - x0 * z1) * (i * ρ + 1)) * hi

/-- The third row of a right-handed orthonormal frame has unit norm. -/
theorem frame_row_sq (x0 y0 z0 x1 y1 z1 : ℝ)
    (h0 : x0 * x0 + y0 * y0 + z0 * z0 = 1) (h1 : x1 * x1 + y1 * y1 + z1 * z1 = 1)
    (h01 : x0 * x1 + y0 * y1 + z0 * z1 = 0) :
    z1 * z1 + (x0 * y1 - y0 * x1) * (x0 * y1 - y0 * x1) = 1 - z0 * z0 := by
  linear_combination (1 - z1 ^ 2 + (x1 * x1 + y1 * y1 + z1 * z1 - 1)) * h0 + (1 - z0 ^ 2) * h1 +
    (2 * z0 * z1 - (x0 * x1 + y0 * y1 + z0 * z1)) * h01

end RebuildLemmas

section RebuildFrame

/-- Away from gimbal lock, the columns built from the angles read back from a right-handed
orthonormal frame are the frame itself. -/
theorem rpyColumns_rpyExtract (m : Libm ℝ) (hm : m.IsReal) (c : Columns ℝ)
    (h0 : c.c0.dot c.c0 = 1) (h1 : c.c1.dot c.c1 = 1) (h01 : c.c0.dot c.c1 = 0)
    (hc : c.c2 = c.c0.cross c.c1) (hg : c.c0.z ≠ 1) (hg' : c.c0.z ≠ -1) :
    rpyColumns m (rpyExtract m c).1 (rpyExtract m c).2.1 (rpyExtract m c).2.2 = c := by
  obtain ⟨cos, sin, sqrt, atan2⟩ := m
  obtain ⟨rfl, rfl, rfl, ha⟩ := hm
  replace ha : ∀ y x : ℝ, atan2 y x = Complex.arg ⟨x, y⟩ := ha
  obtain ⟨⟨x0, y0, z0⟩, ⟨x1, y1, z1⟩, c2⟩ := c
  simp only at hc hg hg'
  subst hc
  simp only [Vector3d.dot] at h0 h1 h01
  have hrow := frame_row_sq x0 y0 z0 x1 y1 z1 h0 h1 h01
  have hq0 : 0 ≤ 1 - z0 * z0 := by
    have hx := mul_self_nonneg x0
    have hy := mul_self_nonneg y0
    linarith
  have hqne : 1 - z0 * z0 ≠ 0 := by
    intro h
    have h2 : (z0 - 1) * (z0 + 1) = 0 := by linear_combination -h
    rcases mul_eq_zero.mp h2 with h3 | h3
    · exact hg (by linarith)
    · exact hg' (by linarith)
  have hq : 0 < 1 - z0 * z0 := lt_of_le_of_ne hq0 (Ne.symm hqne)
  have hρpos : 0 < √(z1 * z1 + (x0 * y1 - y0 * x1) * (x0 * y1 - y0 * x1)) :=
    Real.sqrt_pos.mpr (by rw [hrow]; exact hq)
  have hρ : √(z1 * z1 + (x0 * y1 - y0 * x1) * (x0 * y1 - y0 * x1)) *
      √(z1 * z1 + (x0 * y1 - y0 * x1) * (x0 * y1 - y0 * x1)) = 1 - z0 * z0 := by
    rw [Real.mul_self_sqrt (by rw [hrow]; exact hq0), hrow]
  simp only [rpyExtract, rpyColumns, Vector3d.cross, ha]
  generalize √(z1 * z1 + (x0 * y1 - y0 * x1) * (x0 * y1 - y0 * x1)) = ρ at hρpos hρ ⊢
  obtain ⟨hcr, hsr⟩ := cos_sin_arg_of_sq (a := x0 * y1 - y0 * x1) (b := z1) hρpos
    (by rw [hρ, ← hrow]; ring)
  obtain ⟨hcp, hsp⟩ := cos_sin_arg_of_unit (a := ρ) (b := -z0) (by rw [hρ]; ring)
  obtain ⟨hcy, hsy⟩ := cos_sin_arg_of_sq (a := x0) (b := y0) hρpos
    (by rw [hρ]; linear_combination h0)
  rw [hcr, hsr, hcp, hsp, hcy, hsy]
  have hne : ρ ≠ 0 := hρpos.ne'
  rw [rebuild_c1x x0 y0 z0 x1 y1 z1 ρ hρpos hρ h0 h01,
    rebuild_c1y x0 y0 z0 x1 y1 z1 ρ hρpos hρ h0 h01,
    rebuild_c2x x0 y0 z0 x1 y1 z1 ρ hρpos hρ h0 h01,
    rebuild_c2y x0 y0 z0 x1 y1 z1 ρ hρpos hρ h0 h01,
    mul_div_cancel₀ x0 hne, mul_div_cancel₀ y0 hne, neg_neg, div_mul_cancel₀ z1 hne,
    div_mul_cancel₀ (x0 * y1 - y0 * x1) hne]

end RebuildFrame

section RunLemmas

variable {α : Type} [Field α] [DecidableEq α]

open ControlInput

/-- Under the sizes `SizesFor n`, one call of `integrate` on a control vector of size `n`
returns (no access is out of range) and the sizes hold again for the next call. -/
theorem integrate_sizesFor (m : Libm α) (d : Device α) (n : Nat) (h : d.SizesFor n)
    (controlIN : List α) (dt : α) (hc : controlIN.length = n) :
    ∃ d', integrate m d controlIN dt = some d' ∧ d'.SizesFor n ∧
      d'.vel_controlInit_ = true ∧ d'.controlInputType_ = d.controlInputType_ := by
  obtain ⟨h6, hvel, hn, hbuf, hmode⟩ := h
  subst hc
  cases hm : d.controlInputType_ with
  | CONTROL_INPUT_NO_INTEGRATION => exact absurd hm hmode
  | CONTROL_INPUT_ONE_INTEGRATION =>
    rw [integrate_one_eq m d controlIN dt hm]
    by_cases hsz : controlIN.length = d.state_.length
    · obtain ⟨s1, pose, hrpy, hlen1, -, -⟩ := integrateRollPitchYaw_frame m d.ffPose_
        d.state_ controlIN dt h6 (by omega)
      obtain ⟨st, hst, hlen, -⟩ := jointLoop_spec controlIN dt 0 s1 (fun j _ _ => by omega)
      simp only [if_pos hsz, hrpy, Option.some_bind, hst]
      refine ⟨_, rfl, ⟨?_, ?_, ?_, fun _ _ => rfl, ?_⟩, rfl, hm⟩
      · show 6 ≤ st.length
        omega
      · show d.velocity_.length = st.length
        omega
      · show controlIN.length = st.length ∨ controlIN.length + 6 = st.length
        omega
      · show d.controlInputType_ ≠ _
        exact hmode
    · obtain ⟨st, hst, hlen, -⟩ := jointLoop_spec controlIN dt 6 d.state_
        (fun j _ _ => by omega)
      simp only [if_neg hsz, hst, Option.some_bind]
      refine ⟨_, rfl, ⟨?_, ?_, ?_, fun _ _ => rfl, ?_⟩, rfl, hm⟩
      · show 6 ≤ st.length
        omega
      · show d.velocity_.length = st.length
        omega
      · show controlIN.length = st.length ∨ controlIN.length + 6 = st.length
        omega
      · show d.controlInputType_ ≠ _
        exact hmode
  | CONTROL_INPUT_TWO_INTEGRATION =>
    rw [integrate_two_eq m d controlIN dt hm]
    have hvc0 : ∃ vc0, (if d.vel_controlInit_ = false then List.replicate controlIN.length 0
        else d.vel_control_) = vc0 ∧ vc0.length = controlIN.length := by
      cases hinit : d.vel_controlInit_
      · exact ⟨_, rfl, by simp⟩
      · exact ⟨_, rfl, by simpa using hbuf hm hinit⟩
    obtain ⟨vc0, hvc0, hvclen⟩ := hvc0
    rw [hvc0]
    by_cases hsz : controlIN.length = d.state_.length
    · have hoff : (if controlIN.length = d.velocity_.length then 0 else 6) = 0 := by
        rw [if_pos (by omega)]
      rw [hoff]
      obtain ⟨vc, vel, hacc, hl1, hl2, -, -⟩ := accelerationLoop_spec controlIN dt 0 vc0
        d.velocity_ (by omega) (by omega)
      obtain ⟨s1, pose, hrpy, hlen1, -, -⟩ := integrateRollPitchYaw_frame m d.ffPose_
        d.state_ vc dt h6 (by omega)
      obtain ⟨st, hst, hlen, -⟩ := jointLoop_spec vc dt 0 s1 (fun j _ _ => by omega)
      simp only [hacc, Option.some_bind, if_pos (show vc.length = d.state_.length by omega),
        hrpy, hst]
      refine ⟨_, rfl, ⟨?_, ?_, ?_, fun _ _ => ?_, ?_⟩, rfl, hm⟩
      · show 6 ≤ st.length
        omega
      · show vel.length = st.length
        omega
      · show controlIN.length = st.length ∨ controlIN.length + 6 = st.length
        omega
      · show vc.length = controlIN.length
        omega
      · show d.controlInputType_ ≠ _
        exact hmode
    · have hoff : (if controlIN.length = d.velocity_.length then 0 else 6) = 6 := by
        rw [if_neg (by omega)]
      rw [hoff]
      obtain ⟨vc, vel, hacc, hl1, hl2, -, -⟩ := accelerationLoop_spec controlIN dt 6 vc0
        d.velocity_ (by omega) (by omega)
      obtain ⟨st, hst, hlen, -⟩ := jointLoop_spec vc dt 6 d.state_ (fun j _ _ => by omega)
      simp only [hacc, Option.some_bind, if_neg (show ¬ vc.length = d.state_.length by omega),
        hst]
      refine ⟨_, rfl, ⟨?_, ?_, ?_, fun _ _ => ?_, ?_⟩, rfl, hm⟩
      · show 6 ≤ st.length
        omega
      · show vel.length = st.length
        omega
      · show controlIN.length = st.length ∨ controlIN.length + 6 = st.length
        omega
      · show vc.length = controlIN.length
        omega
      · show d.controlInputType_ ≠ _
        exact hmode

end RunLemmas

section MotionLemmas

variable {α : Type} [Field α]

/-- One iteration of the loop of `computeMotion` on a component in range with a non-zero
period writes `motionValue` into `res(i)`. -/
theorem computeMotionBody_eq (m : Libm α) (M_PI : α) (p : sotMotionParam α) (time : Int)
    (i : Nat) (res : List α) (hp : p.period ≠ 0) (hi : i < res.length) :
    computeMotionBody m M_PI p time i res = some (res.set i (motionValue m M_PI p time)) := by
  unfold computeMotionBody motionValue
  rw [if_neg hp]
  cases p.motionType <;>
    simp [vset, vget, hi, List.getElem?_set_self hi]

/-- The stored value has the period `p.period` from `p.initPeriod` on. -/
theorem motionValue_add_period (m : Libm α) (M_PI : α) (p : sotMotionParam α) (time : Int)
    (hp : 0 < p.period) (ht : p.initPeriod ≤ time) :
    motionValue m M_PI p (time + p.period) = motionValue m M_PI p time := by
  have h1 : (time + p.period - p.initPeriod).tmod p.period =
      (time - p.initPeriod).tmod p.period := by
    rw [Int.tmod_eq_emod (by omega) (le_of_lt hp), Int.tmod_eq_emod (by omega) (le_of_lt hp)]
    have : time + p.period - p.initPeriod = time - p.initPeriod + p.period := by ring
    rw [this, Int.add_emod_self]
  unfold motionValue
  rw [h1]

/-- When every component in range has parameters with a non-zero period, `computeMotion`
returns a vector of `size` entries holding `motionValue` of each component. -/
theorem computeMotion_spec (m : Libm α) (M_PI : α) (mp : MotionPeriod α) (res : List α)
    (time : Int) (hsize : mp.size ≤ mp.motionParams.length)
    (hdef : ∀ j q, j < mp.size → mp.motionParams[j]? = some q → q.period ≠ 0) :
    ∃ r, computeMotion m M_PI mp res time = some r ∧ r.length = mp.size ∧
      ∀ j q, j < mp.size → mp.motionParams[j]? = some q →
        r[j]? = some (motionValue m M_PI q time) := by
  obtain ⟨r, hr, hlen, hP⟩ := forLoop_inv
    (fun i res => (vget mp.motionParams i).bind fun p => computeMotionBody m M_PI p time i res)
    (fun i (r : List α) => r.length = mp.size ∧
      ∀ j q, j < i → mp.motionParams[j]? = some q → r[j]? = some (motionValue m M_PI q time))
    mp.size 0 (resize res mp.size) ⟨length_resize _ _, fun j q hj => absurd hj (by omega)⟩
    (fun i t _ hi ⟨hlen, hP⟩ => by
      have hi' : i < mp.motionParams.length := by omega
      have hit : i < t.length := by omega
      have hget : mp.motionParams[i]? = some (mp.motionParams.get ⟨i, hi'⟩) :=
        List.getElem?_eq_getElem hi'
      refine ⟨t.set i (motionValue m M_PI (mp.motionParams.get ⟨i, hi'⟩) time), ?_, ?_, ?_⟩
      · show (vget mp.motionParams i).bind _ = _
        rw [vget_eq, hget, Option.some_bind]
        exact computeMotionBody_eq m M_PI _ time i t (hdef i _ (by omega) hget) hit
      · simpa using hlen
      · intro j q hj hq
        by_cases hji : j = i
        · subst hji
          rw [hget] at hq
          rw [List.getElem?_set_self hit, ← Option.some.inj hq]
        · rw [List.getElem?_set_ne (Ne.symm hji)]
          exact hP j q (by omega) hq)
  refine ⟨r, hr, hlen, fun j q hj hq => hP j q (by simpa using hj) hq⟩

end MotionLemmas

/-! ## Claims -/

section DeviceClaims

variable {α : Type} [Field α] [DecidableEq α]

open ControlInput

/-- C3. In the position mode (`CONTROL_INPUT_NO_INTEGRATION`) with
`state_.size() == controlIN.size() + 6`, `integrate` succeeds for every `dt`, sets
`state_(i+6) = controlIN(i)` for every `i < controlIN.size()`, keeps the size of the state
and its first six entries, and leaves the velocity, `ffPose_` and the other members as they
were. -/
theorem integrate_no_integration (m : Libm α) (d : Device α) (controlIN : List α) (dt : α)
    (hmode : d.controlInputType_ = CONTROL_INPUT_NO_INTEGRATION)
    (hsz : d.state_.length = controlIN.length + 6) :
    ∃ d', integrate m d controlIN dt = some d' ∧
      d'.state_.length = d.state_.length ∧
      (∀ i, i < controlIN.length → d'.state_[i + 6]? = controlIN[i]?) ∧
      (∀ i, i < 6 → d'.state_[i]? = d.state_[i]?) ∧
      d'.velocity_ = d.velocity_ ∧ d'.ffPose_ = d.ffPose_ ∧
      d'.controlInputType_ = d.controlInputType_ ∧
      d'.vel_control_ = d.vel_control_ ∧ d'.vel_controlInit_ = d.vel_controlInit_ := by
  obtain ⟨st, hst, hlen, hP⟩ := copyControl_spec controlIN d.state_ hsz
  refine ⟨{ d with state_ := st }, ?_, hlen, ?_, ?_, rfl, rfl, rfl, rfl, rfl⟩
  · simp [integrate, hmode, hsz, hst]
  · intro i _
    rw [hP]; simp
  · intro i hi
    rw [hP]; simp [Nat.not_le.mpr hi]

/-- C2. In the velocity mode (`CONTROL_INPUT_ONE_INTEGRATION`), with `controlIN` of size
`state_.size() - 6` (offset 6) or of size `state_.size() >= 6` (offset 0), `integrate`
succeeds and sets `state_(i) = state_(i) + controlIN(i-offset)*dt` for every
`6 <= i < state_.size()`; the velocity vector is not written, and in the offset-6 case the
first six entries of the state are unchanged. -/
theorem integrate_one_integration (m : Libm α) (d : Device α) (controlIN : List α) (dt : α)
    (hmode : d.controlInputType_ = CONTROL_INPUT_ONE_INTEGRATION)
    (hsz : d.state_.length = controlIN.length + 6 ∨
      (controlIN.length = d.state_.length ∧ 6 ≤ d.state_.length)) :
    ∃ d', integrate m d controlIN dt = some d' ∧
      d'.state_.length = d.state_.length ∧
      (∀ i, 6 ≤ i → i < d.state_.length →
        d'.state_[i]? = some (d.state_.getD i 0 +
          controlIN.getD (i - (if controlIN.length = d.state_.length then 0 else 6)) 0 * dt)) ∧
      d'.velocity_ = d.velocity_ ∧
      (d.state_.length = controlIN.length + 6 → ∀ i, i < 6 → d'.state_[i]? = d.state_[i]?) := by
  rw [integrate_one_eq m d controlIN dt hmode]
  rcases hsz with hsz | ⟨hsz, h6⟩
  · have hne : controlIN.length ≠ d.state_.length := by omega
    obtain ⟨st, hst, hlen, hP⟩ := jointLoop_spec controlIN dt 6 d.state_
      (fun j _ _ => by omega)
    rw [if_neg hne, hst]
    refine ⟨_, rfl, hlen, ?_, rfl, ?_⟩
    · intro i hi6 hi
      show st[i]? = _
      rw [hP i, if_pos ⟨hi6, hi⟩, if_neg hne]
    · intro _ i hi
      show st[i]? = _
      rw [hP i, if_neg (by omega)]
  · obtain ⟨s1, pose, hrpy, hlen1, hkeep, -⟩ := integrateRollPitchYaw_frame m d.ffPose_
      d.state_ controlIN dt h6 (by omega)
    obtain ⟨st, hst, hlen, hP⟩ := jointLoop_spec controlIN dt 0 s1
      (fun j _ _ => by omega)
    simp only [if_pos hsz, hrpy, Option.some_bind, hst]
    refine ⟨_, rfl, by simp [hlen, hlen1], ?_, rfl, ?_⟩
    · intro i hi6 hi
      show st[i]? = _
      rw [hP i, if_pos ⟨hi6, by omega⟩]
      have : s1.getD i 0 = d.state_.getD i 0 := by
        simp [List.getD_eq_getElem?_getD, hkeep i hi6]
      rw [this]
    · intro h
      omega

/-- The joint update of the acceleration mode on a buffer sized for the control vector. In
the mode `CONTROL_INPUT_TWO_INTEGRATION` with `velocity_.size() == state_.size()` and
`controlIN.size() == state_.size() - 6`, and with the buffer `vel_control_` either not yet
initialised or holding at least `controlIN.size()` entries and not `state_.size()` entries
(as when its size is that of the control vector), `integrate` succeeds and, for every
`i < controlIN.size()`, sets `velocity_(i+6) = velocity_(i+6) + controlIN(i)*dt` and
`state_(i+6) = state_(i+6) + (old velocity_(i+6) + controlIN(i)*dt*0.5)*dt`; the first six
entries of the state and of the velocity are unchanged. -/
theorem integrate_two_integration (m : Libm α) (d : Device α) (controlIN : List α) (dt : α)
    (hmode : d.controlInputType_ = CONTROL_INPUT_TWO_INTEGRATION)
    (hvel : d.velocity_.length = d.state_.length)
    (hsz : d.state_.length = controlIN.length + 6)
    (hbuf : d.vel_controlInit_ = true →
      controlIN.length ≤ d.vel_control_.length ∧ d.vel_control_.length ≠ d.state_.length) :
    ∃ d', integrate m d controlIN dt = some d' ∧
      d'.state_.length = d.state_.length ∧ d'.velocity_.length = d.velocity_.length ∧
      (∀ i, i < controlIN.length →
        d'.velocity_[i + 6]? = some (d.velocity_.getD (i + 6) 0 + controlIN.getD i 0 * dt) ∧
        d'.state_[i + 6]? = some (d.state_.getD (i + 6) 0 +
          (d.velocity_.getD (i + 6) 0 + controlIN.getD i 0 * dt * (1 / 2)) * dt)) ∧
      (∀ i, i < 6 → d'.state_[i]? = d.state_[i]? ∧ d'.velocity_[i]? = d.velocity_[i]?) := by
  rw [integrate_two_eq m d controlIN dt hmode]
  have hoff : (if controlIN.length = d.velocity_.length then 0 else 6) = 6 := by
    rw [if_neg (by omega)]
  rw [hoff]
  have hvc0 : ∃ vc0, (if d.vel_controlInit_ = false then List.replicate controlIN.length 0
      else d.vel_control_) = vc0 ∧ controlIN.length ≤ vc0.length ∧
      vc0.length ≠ d.state_.length := by
    cases hinit : d.vel_controlInit_
    · exact ⟨_, rfl, by simp, by simp; omega⟩
    · exact ⟨_, rfl, by simpa using (hbuf hinit).1, by simpa using (hbuf hinit).2⟩
  obtain ⟨vc0, hvc0, hle, hne⟩ := hvc0
  rw [hvc0]
  obtain ⟨vc, vel, hacc, hl1, hl2, hP1, hP2⟩ := accelerationLoop_spec controlIN dt 6 vc0
    d.velocity_ hle (by omega)
  obtain ⟨st, hst, hlen, hP⟩ := jointLoop_spec vc dt 6 d.state_ (fun j _ _ => by omega)
  simp only [hacc, Option.some_bind, if_neg (show ¬ vc.length = d.state_.length by omega), hst]
  refine ⟨_, rfl, hlen, hl2, ?_, ?_⟩
  · intro i hi
    refine ⟨?_, ?_⟩
    · show vel[i + 6]? = _
      rw [hP2 (i + 6), if_pos (by omega)]
      simp
    · show st[i + 6]? = _
      rw [hP (i + 6), if_pos (by omega)]
      have : vc.getD (i + 6 - 6) 0 =
          d.velocity_.getD (i + 6) 0 + controlIN.getD i 0 * dt * (1 / 2) := by
        have h := hP1 i
        rw [if_pos hi] at h
        simp only [Nat.add_sub_cancel, List.getD_eq_getElem?_getD, h, Option.getD_some]
      rw [this]
  · intro i hi
    refine ⟨?_, ?_⟩
    · show st[i]? = _
      rw [hP i, if_neg (by omega)]
    · show vel[i]? = _
      rw [hP2 i, if_neg (by omega)]

/-- C1. The joint update of the acceleration mode (`velocity_.size() == state_.size()`,
`controlIN.size() == state_.size() - 6`) is not what `integrate` computes on a device whose
buffer `vel_control_` has kept the size of the state (`staleBufferDevice`, reached through
the commands of `Device`, see `staleBufferDevice_reachable`): with `state_` and `velocity_`
seven zeros, `controlIN = [1]` and `dt = 1`, the test of line 439 looks at the size of the
buffer, the call takes the free-flyer branch, moves `state_(0)` from 0 to 1/2 and leaves
the joint `state_(6)` at 0, where the update of the joint is
`0 + (0 + 1*1*0.5)*1 = 1/2` and `state_(0)` is to stay 0. -/
theorem integrate_two_integration_stale_buffer :
    (staleBufferDevice ℝ).controlInputType_ = CONTROL_INPUT_TWO_INTEGRATION ∧
    (staleBufferDevice ℝ).velocity_.length = (staleBufferDevice ℝ).state_.length ∧
    (staleBufferDevice ℝ).state_.length = [(1 : ℝ)].length + 6 ∧
    (staleBufferDevice ℝ).state_[0]? = some 0 ∧
    ∃ d', integrate ⟨Real.cos, Real.sin, Real.sqrt, fun y x => Complex.arg ⟨x, y⟩⟩
        (staleBufferDevice ℝ) [1] 1 = some d' ∧
      d'.state_ = [1 / 2, 0, 0, 0, 0, 0, 0] ∧ d'.velocity_ = [0, 0, 0, 0, 0, 0, 1] := by
  refine ⟨rfl, rfl, rfl, rfl, ?_⟩
  rw [integrate_two_eq _ _ _ _ rfl]
  simp [staleBufferDevice, accelerationLoop, forLoop, vget, vset, integrateRollPitchYaw_cons,
    jointLoop, Vector3d.norm, Vector3d.dot]

/-- Witness of C3: the position mode on a device of state size 7, `controlIN = [5]`. -/
theorem integrate_no_integration_witness :
    (freshDevice ℝ CONTROL_INPUT_NO_INTEGRATION).state_.length = [(5 : ℝ)].length + 6 ∧
    ∃ d', integrate ⟨Real.cos, Real.sin, Real.sqrt, fun y x => Complex.arg ⟨x, y⟩⟩
        (freshDevice ℝ CONTROL_INPUT_NO_INTEGRATION) [5] 1 = some d' ∧
      d'.state_[6]? = some 5 := by
  obtain ⟨d', h, _, h1, _⟩ := integrate_no_integration
    ⟨Real.cos, Real.sin, Real.sqrt, fun y x => Complex.arg ⟨x, y⟩⟩
    (freshDevice ℝ CONTROL_INPUT_NO_INTEGRATION) [5] 1 rfl rfl
  exact ⟨rfl, d', h, by simpa using h1 0 (by simp)⟩

/-- Witness of C2: the velocity mode on a device of state size 7, `controlIN = [3]`,
`dt = 2`: the joint moves from 1 to `1 + 3*2`. -/
theorem integrate_one_integration_witness :
    (freshDevice ℝ CONTROL_INPUT_ONE_INTEGRATION).state_.length = [(3 : ℝ)].length + 6 ∧
    ∃ d', integrate ⟨Real.cos, Real.sin, Real.sqrt, fun y x => Complex.arg ⟨x, y⟩⟩
        (freshDevice ℝ CONTROL_INPUT_ONE_INTEGRATION) [3] 2 = some d' ∧
      d'.state_[6]? = some (1 + 3 * 2) := by
  obtain ⟨d', h, _, h1, _⟩ := integrate_one_integration
    ⟨Real.cos, Real.sin, Real.sqrt, fun y x => Complex.arg ⟨x, y⟩⟩
    (freshDevice ℝ CONTROL_INPUT_ONE_INTEGRATION) [3] 2 rfl (Or.inl rfl)
  refine ⟨rfl, d', h, ?_⟩
  have := h1 6 (le_refl 6) (by simp [freshDevice])
  simpa [freshDevice] using this

/-- The joint update of the acceleration mode on a device of state size 7 that has not
integrated yet, joint position 1 and velocity 2, `controlIN = [3]`, `dt = 2`. -/
theorem integrate_two_integration_witness :
    (freshDevice ℝ CONTROL_INPUT_TWO_INTEGRATION).vel_controlInit_ = false ∧
    ∃ d', integrate ⟨Real.cos, Real.sin, Real.sqrt, fun y x => Complex.arg ⟨x, y⟩⟩
        (freshDevice ℝ CONTROL_INPUT_TWO_INTEGRATION) [3] 2 = some d' ∧
      d'.velocity_[6]? = some (2 + 3 * 2) ∧
      d'.state_[6]? = some (1 + (2 + 3 * 2 * (1 / 2)) * 2) := by
  obtain ⟨d', h, _, _, h1, _⟩ := integrate_two_integration
    ⟨Real.cos, Real.sin, Real.sqrt, fun y x => Complex.arg ⟨x, y⟩⟩
    (freshDevice ℝ CONTROL_INPUT_TWO_INTEGRATION) [3] 2 rfl rfl rfl
    (fun h => by simp [freshDevice] at h)
  refine ⟨rfl, d', h, ?_⟩
  have := h1 0 (by simp)
  simpa [freshDevice] using this

end DeviceClaims

section RotationClaims

/-- C4. Over the reals, for every state and control vector (six entries or more) and every
`dt`, `integrateRollPitchYaw` succeeds and the three columns it stores in the rotation block
of the pose are mutually orthonormal, in the zero-angle branch and after the Rodrigues
update alike. -/
theorem integrateRollPitchYaw_orthonormal (m : Libm ℝ) (hm : m.IsReal)
    (ffPose_ : MatrixHomogeneous ℝ) (state control : List ℝ) (dt : ℝ)
    (hs : 6 ≤ state.length) (hc : 6 ≤ control.length) :
    ∃ st pose, integrateRollPitchYaw m ffPose_ state control dt = some (st, pose) ∧
      (poseColumns pose).Orthonormal := by
  obtain ⟨s0, s1, s2, roll, pitch, yaw, rest, rfl⟩ := exists_six_cons hs
  obtain ⟨c0, c1, c2, w0, w1, w2, crest, rfl⟩ := exists_six_cons hc
  rw [integrateRollPitchYaw_cons]
  by_cases h : dt * Vector3d.norm m (⟨w0, w1, w2⟩ : Vector3d ℝ) = 0
  · simp only [h, if_true]
    exact ⟨_, _, rfl, rpyColumns_orthonormal m hm roll pitch yaw⟩
  · simp only [h, if_false]
    refine ⟨_, _, rfl, ?_⟩
    rw [poseColumns_rotationBlock]
    have hN : Vector3d.norm m (⟨w0, w1, w2⟩ : Vector3d ℝ) ≠ 0 :=
      fun hN => h (by rw [hN, mul_zero])
    exact rotatedColumns_orthonormal m hm _ (divScalar_norm_dot m hm _ hN) _ _
      (rpyColumns_orthonormal m hm roll pitch yaw)

/-- Witness of C4: unit angular velocity about the third axis during one second. -/
theorem integrateRollPitchYaw_orthonormal_witness :
    ∃ st pose, integrateRollPitchYaw
        ⟨Real.cos, Real.sin, Real.sqrt, fun y x => Complex.arg ⟨x, y⟩⟩
        (fun _ _ => 0) [0, 0, 0, 0, 0, 0] [0, 0, 0, 0, 0, 1] 1 = some (st, pose) ∧
      (poseColumns pose).Orthonormal :=
  integrateRollPitchYaw_orthonormal ⟨Real.cos, Real.sin, Real.sqrt, fun y x => Complex.arg ⟨x, y⟩⟩
    ⟨rfl, rfl, rfl, fun _ _ => rfl⟩ (fun _ _ => 0) [0, 0, 0, 0, 0, 0] [0, 0, 0, 0, 0, 1] 1
    (by simp) (by simp)

/-- C5. Over the reals, when `control(3..5)` is zero or `dt` is zero,
`integrateRollPitchYaw` leaves every entry of the state from the third on (roll, pitch and
yaw among them) as it was, stores in the rotation block of the pose the matrix built from
the input roll, pitch and yaw, and advances `state(0..2)` by `control(0..2)*dt`. -/
theorem integrateRollPitchYaw_zero_angle (m : Libm ℝ) (hm : m.IsReal)
    (ffPose_ : MatrixHomogeneous ℝ) (state control : List ℝ) (dt : ℝ)
    (hs : 6 ≤ state.length) (hc : 6 ≤ control.length)
    (h0 : (control.getD 3 0 = 0 ∧ control.getD 4 0 = 0 ∧ control.getD 5 0 = 0) ∨ dt = 0) :
    ∃ st pose, integrateRollPitchYaw m ffPose_ state control dt = some (st, pose) ∧
      st.length = state.length ∧
      (∀ j, 3 ≤ j → st[j]? = state[j]?) ∧
      (∀ j, j < 3 → st[j]? = some (state.getD j 0 + control.getD j 0 * dt)) ∧
      poseColumns pose = rpyColumns m (state.getD 3 0) (state.getD 4 0) (state.getD 5 0) :=
  integrateRollPitchYaw_zero m hm ffPose_ state control dt hs hc h0

/-- Witness of C5: zero angular velocity with a translation rate along the first axis. -/
theorem integrateRollPitchYaw_zero_angle_witness :
    ∃ st pose, integrateRollPitchYaw
        ⟨Real.cos, Real.sin, Real.sqrt, fun y x => Complex.arg ⟨x, y⟩⟩
        (fun _ _ => 0) [1, 0, 0, 2, 3, 4] [5, 0, 0, 0, 0, 0] 2 = some (st, pose) ∧
      st[0]? = some (1 + 5 * 2) ∧ st[3]? = some 2 := by
  obtain ⟨st, pose, h, -, h1, h2, -⟩ := integrateRollPitchYaw_zero_angle
    ⟨Real.cos, Real.sin, Real.sqrt, fun y x => Complex.arg ⟨x, y⟩⟩
    ⟨rfl, rfl, rfl, fun _ _ => rfl⟩ (fun _ _ => 0) [1, 0, 0, 2, 3, 4] [5, 0, 0, 0, 0, 0] 2
    (by simp) (by simp) (Or.inl (by simp))
  exact ⟨st, pose, h, by simpa using h2 0 (by omega), by simpa using h1 3 (le_refl 3)⟩

end RotationClaims

section AngleClaims

/-- C6. Over the reals, for roll and yaw in `(-π, π]` and pitch in `(-π/2, π/2)`, reading
roll, pitch and yaw back (lines 96-102) from the columns built from them (lines 61-72)
returns the three angles. -/
theorem rpyExtract_rpyColumns (m : Libm ℝ) (hm : m.IsReal) (roll pitch yaw : ℝ)
    (hr1 : -Real.pi < roll) (hr2 : roll ≤ Real.pi)
    (hp1 : -(Real.pi / 2) < pitch) (hp2 : pitch < Real.pi / 2)
    (hy1 : -Real.pi < yaw) (hy2 : yaw ≤ Real.pi) :
    rpyExtract m (rpyColumns m roll pitch yaw) = (roll, pitch, yaw) := by
  obtain ⟨cos, sin, sqrt, atan2⟩ := m
  obtain ⟨rfl, rfl, rfl, ha⟩ := hm
  have hcp : 0 < Real.cos pitch := Real.cos_pos_of_mem_Ioo (Set.mem_Ioo.mpr ⟨hp1, hp2⟩)
  have hpi := Real.pi_pos
  replace ha : ∀ y x : ℝ, atan2 y x = Complex.arg ⟨x, y⟩ := ha
  simp only [rpyExtract, rpyColumns, neg_neg, ha]
  have e1 : (⟨Real.cos roll * Real.cos pitch, Real.sin roll * Real.cos pitch⟩ : ℂ) =
      ⟨Real.cos pitch * Real.cos roll, Real.cos pitch * Real.sin roll⟩ := by
    rw [mul_comm (Real.cos roll), mul_comm (Real.sin roll)]
  have e2 : √(Real.sin roll * Real.cos pitch * (Real.sin roll * Real.cos pitch) +
      Real.cos roll * Real.cos pitch * (Real.cos roll * Real.cos pitch)) = Real.cos pitch := by
    have : Real.sin roll * Real.cos pitch * (Real.sin roll * Real.cos pitch) +
        Real.cos roll * Real.cos pitch * (Real.cos roll * Real.cos pitch) =
        Real.cos pitch * Real.cos pitch := by
      linear_combination (Real.cos pitch * Real.cos pitch) * Real.sin_sq_add_cos_sq roll
    rw [this, Real.sqrt_mul_self hcp.le]
  have e3 : (⟨Real.cos pitch, Real.sin pitch⟩ : ℂ) =
      ⟨1 * Real.cos pitch, 1 * Real.sin pitch⟩ := by
    rw [one_mul, one_mul]
  rw [e1, e2, e3, arg_scaled_cos_sin hcp hr1 hr2,
    arg_scaled_cos_sin one_pos (by linarith) (by linarith), arg_scaled_cos_sin hcp hy1 hy2]

/-- Witness of C6: the three angles at zero. -/
theorem rpyExtract_rpyColumns_witness :
    rpyExtract ⟨Real.cos, Real.sin, Real.sqrt, fun y x => Complex.arg ⟨x, y⟩⟩
      (rpyColumns ⟨Real.cos, Real.sin, Real.sqrt, fun y x => Complex.arg ⟨x, y⟩⟩ 0 0 0) =
      (0, 0, 0) :=
  rpyExtract_rpyColumns ⟨Real.cos, Real.sin, Real.sqrt, fun y x => Complex.arg ⟨x, y⟩⟩
    ⟨rfl, rfl, rfl, fun _ _ => rfl⟩ 0 0 0
    (by linarith [Real.pi_pos]) (by linarith [Real.pi_pos]) (by linarith [Real.pi_pos])
    (by linarith [Real.pi_pos]) (by linarith [Real.pi_pos]) (by linarith [Real.pi_pos])

end AngleClaims

section ZeroControlClaims

open ControlInput

/-- C7, as stated, fails when the velocity is not zero: on a device of state size 7 with
joint position 1 and joint velocity 2 (`freshDevice`, see `freshDevice_reachable`), the zero
control `[0]` and `dt = 1` leave the velocity as it was but move the joint from 1 to
`1 + (2 + 0*1*0.5)*1 = 3`. -/
theorem integrate_two_integration_zero_control_moves :
    (∀ x ∈ [(0 : ℝ)], x = 0) ∧ (0 : ℝ) < 1 ∧
    (freshDevice ℝ CONTROL_INPUT_TWO_INTEGRATION).state_ = [0, 0, 0, 0, 0, 0, 1] ∧
    ∃ d', integrate ⟨Real.cos, Real.sin, Real.sqrt, fun y x => Complex.arg ⟨x, y⟩⟩
        (freshDevice ℝ CONTROL_INPUT_TWO_INTEGRATION) [0] 1 = some d' ∧
      d'.state_ = [0, 0, 0, 0, 0, 0, 3] ∧ d'.velocity_ = [0, 0, 0, 0, 0, 0, 2] := by
  refine ⟨by simp, by norm_num, rfl, ?_⟩
  rw [integrate_two_eq _ _ _ _ rfl]
  simp [freshDevice, accelerationLoop, forLoop, vget, vset, jointLoop]
  norm_num

/-- C7 (amended). Over the reals, in the acceleration mode with
`velocity_.size() == state_.size()`, a control vector of size `state_.size() - 6` or
`state_.size() >= 6` whose entries are all zero, and the buffer `vel_control_` not yet
initialised or of the size of the control vector, `integrate` succeeds for every `dt`,
leaves the velocity vector as it was and adds `velocity_(i)*dt` to every joint entry
`state_(i)`, `6 <= i`; when the velocity vector is all zero the state is unchanged. -/
theorem integrate_two_integration_zero_control (m : Libm ℝ) (hm : m.IsReal) (d : Device ℝ)
    (controlIN : List ℝ) (dt : ℝ)
    (hmode : d.controlInputType_ = CONTROL_INPUT_TWO_INTEGRATION)
    (hvel : d.velocity_.length = d.state_.length)
    (hsz : d.state_.length = controlIN.length + 6 ∨
      (controlIN.length = d.state_.length ∧ 6 ≤ d.state_.length))
    (hbuf : d.vel_controlInit_ = true → d.vel_control_.length = controlIN.length)
    (hzero : ∀ x ∈ controlIN, x = 0) :
    ∃ d', integrate m d controlIN dt = some d' ∧
      d'.velocity_ = d.velocity_ ∧
      (∀ i, 6 ≤ i → i < d.state_.length →
        d'.state_[i]? = some (d.state_.getD i 0 + d.velocity_.getD i 0 * dt)) ∧
      ((∀ x ∈ d.velocity_, x = 0) → d'.state_ = d.state_) := by
  rw [integrate_two_eq m d controlIN dt hmode]
  have hvc0 : ∃ vc0, (if d.vel_controlInit_ = false then List.replicate controlIN.length 0
      else d.vel_control_) = vc0 ∧ vc0.length = controlIN.length := by
    cases hinit : d.vel_controlInit_
    · exact ⟨_, rfl, by simp⟩
    · exact ⟨_, rfl, by simpa using hbuf hinit⟩
  obtain ⟨vc0, hvc0, hvclen⟩ := hvc0
  rw [hvc0]
  have hc0 : ∀ i, controlIN.getD i 0 = 0 := getD_eq_zero_of_forall hzero
  rcases hsz with hsz | ⟨hsz, h6⟩
  · have hoff : (if controlIN.length = d.velocity_.length then 0 else 6) = 6 := by
      rw [if_neg (by omega)]
    rw [hoff]
    obtain ⟨vc, vel, hacc, hl1, hl2, hP1, hP2⟩ := accelerationLoop_spec controlIN dt 6 vc0
      d.velocity_ (by omega) (by omega)
    obtain ⟨st, hst, hlen, hP⟩ := jointLoop_spec vc dt 6 d.state_ (fun j _ _ => by omega)
    simp only [hacc, Option.some_bind, if_neg (show ¬ vc.length = d.state_.length by omega),
      hst]
    have hvel' : vel = d.velocity_ := by
      apply List.ext_getElem?
      intro j
      rw [hP2 j]
      split
      · rw [hc0, zero_mul, add_zero, getElem?_eq_some_getD (by omega)]
      · rfl
    have hjoint : ∀ i, 6 ≤ i → i < d.state_.length →
        st[i]? = some (d.state_.getD i 0 + d.velocity_.getD i 0 * dt) := by
      intro i hi6 hi
      rw [hP i, if_pos ⟨hi6, hi⟩]
      have h := hP1 (i - 6)
      rw [if_pos (by omega), hc0, zero_mul, zero_mul, add_zero,
        show i - 6 + 6 = i by omega] at h
      rw [getD_of_getElem? h]
    refine ⟨_, rfl, hvel', hjoint, ?_⟩
    intro hv
    show st = d.state_
    apply List.ext_getElem?
    intro j
    by_cases hj : 6 ≤ j ∧ j < d.state_.length
    · rw [hjoint j hj.1 hj.2, getD_eq_zero_of_forall hv, zero_mul, add_zero,
        getElem?_eq_some_getD hj.2]
    · rw [hP j, if_neg hj]
  · have hoff : (if controlIN.length = d.velocity_.length then 0 else 6) = 0 := by
      rw [if_pos (by omega)]
    rw [hoff]
    obtain ⟨vc, vel, hacc, hl1, hl2, hP1, hP2⟩ := accelerationLoop_spec controlIN dt 0 vc0
      d.velocity_ (by omega) (by omega)
    obtain ⟨s1, pose, hrpy, hlen1, hkeep, -⟩ := integrateRollPitchYaw_frame m d.ffPose_
      d.state_ vc dt h6 (by omega)
    obtain ⟨st, hst, hlen, hP⟩ := jointLoop_spec vc dt 0 s1 (fun j _ _ => by omega)
    simp only [hacc, Option.some_bind, if_pos (show vc.length = d.state_.length by omega),
      hrpy, hst]
    have hvc : ∀ i, i < controlIN.length → vc.getD i 0 = d.velocity_.getD i 0 := by
      intro i hi
      have h := hP1 i
      rw [if_pos hi, hc0, zero_mul, zero_mul, add_zero, Nat.add_zero] at h
      exact getD_of_getElem? h
    have hvel' : vel = d.velocity_ := by
      apply List.ext_getElem?
      intro j
      rw [hP2 j]
      split
      · rw [hc0, zero_mul, add_zero, getElem?_eq_some_getD (by omega)]
      · rfl
    have hjoint : ∀ i, 6 ≤ i → i < d.state_.length →
        st[i]? = some (d.state_.getD i 0 + d.velocity_.getD i 0 * dt) := by
      intro i hi6 hi
      rw [hP i, if_pos ⟨hi6, by omega⟩, Nat.sub_zero, hvc i (by omega)]
      have : s1.getD i 0 = d.state_.getD i 0 := by
        simp [List.getD_eq_getElem?_getD, hkeep i hi6]
      rw [this]
    refine ⟨_, rfl, hvel', hjoint, ?_⟩
    intro hv
    show st = d.state_
    have hvz : ∀ i, i < controlIN.length → vc.getD i 0 = 0 := fun i hi => by
      rw [hvc i hi, getD_eq_zero_of_forall hv]
    obtain ⟨s2, pose2, hrpy2, -, hkeep3, hmove, -⟩ := integrateRollPitchYaw_zero m hm
      d.ffPose_ d.state_ vc dt h6 (by omega)
      (Or.inl ⟨hvz 3 (by omega), hvz 4 (by omega), hvz 5 (by omega)⟩)
    rw [hrpy] at hrpy2
    obtain ⟨rfl, rfl⟩ : s1 = s2 ∧ pose = pose2 := by
      simpa using hrpy2
    apply List.ext_getElem?
    intro j
    by_cases hj : 6 ≤ j ∧ j < d.state_.length
    · rw [hjoint j hj.1 hj.2, getD_eq_zero_of_forall hv, zero_mul, add_zero,
        getElem?_eq_some_getD hj.2]
    · rw [hP j, if_neg (by omega)]
      by_cases h3 : 3 ≤ j
      · exact hkeep3 j h3
      · rw [hmove j (by omega), hvz j (by omega), zero_mul, add_zero,
          getElem?_eq_some_getD (by omega)]

/-- Witness of C7 (amended): a device at rest, of state size 7, and the zero control `[0]`. -/
theorem integrate_two_integration_zero_control_witness :
    (∀ x ∈ [(0 : ℝ)], x = 0) ∧
    ∃ d', integrate ⟨Real.cos, Real.sin, Real.sqrt, fun y x => Complex.arg ⟨x, y⟩⟩
        { staleBufferDevice ℝ with vel_control_ := [0] } [0] 3 = some d' ∧
      d'.velocity_ = [0, 0, 0, 0, 0, 0, 0] ∧ d'.state_ = [0, 0, 0, 0, 0, 0, 0] := by
  obtain ⟨d', h, h1, -, h2⟩ := integrate_two_integration_zero_control
    ⟨Real.cos, Real.sin, Real.sqrt, fun y x => Complex.arg ⟨x, y⟩⟩
    ⟨rfl, rfl, rfl, fun _ _ => rfl⟩ { staleBufferDevice ℝ with vel_control_ := [0] } [0] 3
    rfl rfl (Or.inl rfl) (fun _ => rfl) (by simp)
  exact ⟨by simp, d', h, h1, h2 (by simp [staleBufferDevice])⟩

end ZeroControlClaims

namespace IntegratorEuler

section IntegrateClaims

variable {K M : Type} [Ring K] [AddCommGroup M] [Module K M]

/-- C8. Step 2 of `integrate`: when the input memory covers the non-empty numerator and the
output memory the non-empty denominator, `integrate` returns, and in the integrator it
leaves slot 0 of `inputMemory` is the new sample `x`, every slot
`1 <= i < numerator.size()` is `invdt * (new inputMemory[i-1] - old inputMemory[i-1])` and
the slots beyond the numerator are as they were; the running sum after step 2 is the sum
over `i < numerator.size()` of `numerator[i] * new inputMemory[i]`, and it is this sum,
less the feedback of step 3, that the call stores in `outputMemory[denominator.size()-1]`. -/
theorem integrate_steps12 (e : IntegratorEuler K M) (x : M)
    (hnum : 1 ≤ e.numerator.length) (hin : e.numerator.length ≤ e.inputMemory.length)
    (hden : 1 ≤ e.denominator.length) (hout : e.denominator.length ≤ e.outputMemory.length) :
    ∃ tmp1 sum res e', integrate e x = some (res, e') ∧
      (integrateStep1 e x).bind (integrateStep2 e) = some (tmp1, e'.inputMemory, sum) ∧
      e'.inputMemory.length = e.inputMemory.length ∧
      e'.inputMemory[0]? = some x ∧
      (∀ i, 1 ≤ i → i < e.numerator.length →
        e'.inputMemory[i]? =
          some (e.invdt • (e'.inputMemory.getD (i - 1) 0 - e.inputMemory.getD (i - 1) 0))) ∧
      (∀ i, e.numerator.length ≤ i → e'.inputMemory[i]? = e.inputMemory[i]?) ∧
      sum = (Finset.range e.numerator.length).sum
        (fun i => e.numerator.getD i 0 • e'.inputMemory.getD i 0) ∧
      e'.outputMemory[e.denominator.length - 1]? =
        some (sum - (Finset.range (e.denominator.length - 1)).sum
          (fun i => e.denominator.getD i 0 • e.outputMemory.getD i 0)) := by
  obtain ⟨tmp1, mem, s, h12, hmlen, h0, hrec, hkeep, hsum⟩ :=
    integrateStep12_spec e x hnum hin
  have h3 := integrateStep3_spec e s (by omega)
  obtain ⟨out, h4, holen, htop, -, -⟩ := integrateStep4_spec e
    (s - (Finset.range (e.denominator.length - 1)).sum
      (fun i => e.denominator.getD i 0 • e.outputMemory.getD i 0)) hden hout
  obtain ⟨s1, hs1, hs2⟩ := Option.bind_eq_some.mp h12
  have hm0 : 0 < mem.length := by omega
  have ho0 : 0 < out.length := by omega
  have hset : mem.set 0 x = mem := by
    cases mem with
    | nil => exact absurd hm0 (by simp)
    | cons y t =>
      simp only [List.getElem?_cons_zero, Option.some.injEq] at h0
      rw [List.set_cons_zero, h0]
  refine ⟨tmp1, s, out.getD 0 0, { e with inputMemory := mem, outputMemory := out }, ?_,
    h12, hmlen, h0, hrec, hkeep, hsum, htop⟩
  simp only [integrate, hs1, Option.some_bind, hs2, h3, h4, vset_of_lt x hm0, hset,
    vget_getD ho0]

/-- Witness of C8 on `exampleIntegrator` and the sample 4: the call returns, the new
slot 0 is 4 and the new slot 1 is `2 * (4 - 1)`. -/
theorem integrate_steps12_witness :
    ∃ res e', integrate exampleIntegrator 4 = some (res, e') ∧
      e'.inputMemory[0]? = some 4 ∧ e'.inputMemory[1]? = some (2 * (4 - 1)) := by
  obtain ⟨-, -, res, e', h, -, -, h0, hrec, -, -, -⟩ := integrate_steps12 exampleIntegrator 4
    (by decide) (by decide) (by decide) (by decide)
  have h1 := hrec 1 (le_refl 1) (by decide)
  have hd : e'.inputMemory.getD 0 0 = 4 := by
    simp [List.getD_eq_getElem?_getD, h0]
  refine ⟨res, e', h, h0, ?_⟩
  rw [h1, hd]
  simp [exampleIntegrator]

/-- C9, as stated, fails: on `exampleIntegrator` (denominator `[2, 3, 1]`, output memory
`[5, 7, 11]`) step 3 turns the running sum 66 into `66 - (2*5 + 3*7) = 35`, not into
`66 - (2*5 + 3*7 + 1*11) = 24`: the last stored coefficient takes no part. -/
theorem integrateStep3_skips_last :
    exampleIntegrator.denominator.length = exampleIntegrator.outputMemory.length ∧
    integrateStep3 exampleIntegrator 66 = some 35 ∧
    (66 : ℚ) - (Finset.range exampleIntegrator.denominator.length).sum
      (fun i => exampleIntegrator.denominator.getD i 0 •
        exampleIntegrator.outputMemory.getD i 0) = 24 := by
  refine ⟨rfl, ?_, ?_⟩
  · simp [integrateStep3, denomsize, exampleIntegrator, forLoop, vget]
    norm_num
  · simp [exampleIntegrator, Finset.sum_range_succ]
    norm_num

/-- C9 (amended). Step 3 of `integrate`: with `n = denominator.size() = outputMemory.size()`,
the feedback subtracted from the running sum is the sum over `i` from 0 to `n - 2` of
`denominator[i] * outputMemory[i]`, on the values of `outputMemory` left by the previous
call; the last stored coefficient `denominator[n-1]` is the leading one and is not read. -/
theorem integrateStep3_feedback (e : IntegratorEuler K M) (sum : M)
    (hn : e.denominator.length = e.outputMemory.length) :
    integrateStep3 e sum = some (sum - (Finset.range (e.denominator.length - 1)).sum
      (fun i => e.denominator.getD i 0 • e.outputMemory.getD i 0)) :=
  integrateStep3_spec e sum (by omega)

/-- Witness of C9 (amended) on `exampleIntegrator` and the running sum 66. -/
theorem integrateStep3_feedback_witness :
    exampleIntegrator.denominator.length = exampleIntegrator.outputMemory.length ∧
    integrateStep3 exampleIntegrator 66 =
      some (66 - (Finset.range (exampleIntegrator.denominator.length - 1)).sum
        (fun i => exampleIntegrator.denominator.getD i 0 •
          exampleIntegrator.outputMemory.getD i 0)) :=
  ⟨rfl, integrateStep3_feedback exampleIntegrator 66 rfl⟩

/-- C10. Step 4 and the return of `integrate`: with
`n = outputMemory.size() = denominator.size() >= 1` and an input memory that covers the
non-empty numerator, the call succeeds; `outputMemory[n-1]` is the running sum left by
steps 1 to 3, every slot `i < n - 1` is its previous value plus
`dt * new outputMemory[i+1]`, `inputMemory[0]` is the sample `x`, and the returned value is
the new `outputMemory[0]`. -/
theorem integrate_step4_return (e : IntegratorEuler K M) (x : M)
    (hnum : 1 ≤ e.numerator.length) (hin : e.numerator.length ≤ e.inputMemory.length)
    (hden : e.denominator.length = e.outputMemory.length)
    (hout : 1 ≤ e.outputMemory.length) :
    ∃ s2 sum res e', (integrateStep1 e x).bind (integrateStep2 e) = some s2 ∧
      integrateStep3 e s2.2.2 = some sum ∧
      integrate e x = some (res, e') ∧
      e'.outputMemory.length = e.outputMemory.length ∧
      e'.outputMemory[e.outputMemory.length - 1]? = some sum ∧
      (∀ i, i + 1 < e.outputMemory.length →
        e'.outputMemory[i]? =
          some (e.outputMemory.getD i 0 + e.dt • e'.outputMemory.getD (i + 1) 0)) ∧
      e'.inputMemory[0]? = some x ∧
      e'.outputMemory[0]? = some res := by
  obtain ⟨tmp1, mem, s, h12, hmlen, -, -, -, -⟩ := integrateStep12_spec e x hnum hin
  have h3 := integrateStep3_spec e s (by omega)
  obtain ⟨out, h4, holen, htop, hrec, -⟩ := integrateStep4_spec e
    (s - (Finset.range (e.denominator.length - 1)).sum
      (fun i => e.denominator.getD i 0 • e.outputMemory.getD i 0)) (by omega) (by omega)
  obtain ⟨s1, hs1, hs2⟩ := Option.bind_eq_some.mp h12
  have hm0 : 0 < mem.length := by omega
  have ho0 : 0 < out.length := by omega
  refine ⟨(tmp1, mem, s), _, out.getD 0 0,
    { e with inputMemory := mem.set 0 x, outputMemory := out }, h12, h3, ?_, holen, ?_, ?_,
    ?_, ?_⟩
  · simp only [integrate, hs1, Option.some_bind, hs2, h3, h4, vset_of_lt x hm0,
      vget_getD ho0]
  · show out[e.outputMemory.length - 1]? = _
    rw [← hden]
    exact htop
  · intro i hi
    show out[i]? = _
    exact hrec i (by omega)
  · show (mem.set 0 x)[0]? = some x
    rw [List.getElem?_set, if_pos rfl, if_pos hm0]
  · show out[0]? = _
    exact getElem?_eq_some_getD ho0

/-- Witness of C10 on `exampleIntegrator` and the sample 4. -/
theorem integrate_step4_return_witness :
    exampleIntegrator.denominator.length = exampleIntegrator.outputMemory.length ∧
    ∃ res e', integrate exampleIntegrator 4 = some (res, e') ∧
      e'.inputMemory[0]? = some 4 ∧ e'.outputMemory[0]? = some res := by
  obtain ⟨-, -, res, e', -, -, h, -, -, -, h1, h2⟩ := integrate_step4_return
    exampleIntegrator 4 (by decide) (by decide) rfl (by decide)
  exact ⟨rfl, res, e', h, h1, h2⟩

end IntegrateClaims

end IntegratorEuler

namespace IntegratorEuler

section SteadyStateClaims

variable {K M : Type} [Ring K] [AddCommGroup M] [Module K M]

/-- C11. With `numerator = [1]` and `denominator = [1]`, for every sample `c`, every
sampling period and every number `k` of calls, `initialize` on `c` succeeds and each of `k`
successive calls of `integrate` on the constant sample `c` returns `c`. -/
theorem integrateSeq_steady_state (e : IntegratorEuler K M) (c : M) (k : Nat)
    (hnum : e.numerator = [1]) (hden : e.denominator = [1]) :
    ∃ e1 e2, initialise e c = some e1 ∧
      integrateSeq e1 (List.replicate k c) = some (List.replicate k c, e2) := by
  obtain ⟨num, den, inM, outM, dt, invdt⟩ := e
  simp only at hnum hden
  subst hnum hden
  have hinit := initialise_eq (⟨[1], [1], inM, outM, dt, invdt⟩ : IntegratorEuler K M) c
    (Nat.le_refl 1)
  obtain ⟨e2, h2⟩ := integrateSeq_gain (List.replicate k c)
    (⟨[1], [1], [c], [c], dt, invdt⟩ : IntegratorEuler K M) 1 c c rfl rfl rfl rfl
  exact ⟨_, e2, hinit, h2⟩

/-- Witness of C11: three calls on the sample 7 with the default sampling period. -/
theorem integrateSeq_steady_state_witness :
    ∃ e1 e2, initialise (IntegratorEuler.construct [1] [1] : IntegratorEuler ℚ ℚ) 7 = some e1 ∧
      integrateSeq e1 [7, 7, 7] = some ([7, 7, 7], e2) :=
  integrateSeq_steady_state (IntegratorEuler.construct [1] [1] : IntegratorEuler ℚ ℚ) 7 3
    rfl rfl

end SteadyStateClaims

section RampClaims

/-- C12, as stated, fails: with `numerator = [0, 1]`, `denominator = [1]` and the sampling
period `1/100`, after `initialize` on 0 the ramp `0, 1, 2` returns `0, 100, 100`: the
second and the third sample return 100, not 1. -/
theorem integrateSeq_ramp_returns_hundred :
    ((initialise (setSamplingPeriod
        (IntegratorEuler.construct [0, 1] [1] : IntegratorEuler ℚ ℚ) (1 / 100)) 0).bind
      fun e1 => integrateSeq e1 (ramp ℚ 3)).map Prod.fst = some [0, 100, 100] := by
  rw [initialise_eq _ _ (by decide)]
  simp [IntegratorEuler.construct, setSamplingPeriod, ramp, List.range, List.range.loop,
    integrateSeq, integrate, integrateStep1, integrateStep2, integrateStep3, integrateStep4,
    denomsize, forLoop, forDown, vget, vset, vsetI]
  norm_num

/-- C12 (amended). With `numerator = [0, 1]`, `denominator = [1]` and the sampling period
`1/100` (0.01), after `initialize` on 0 and fed the ramp `0, 1, 2, ...`, the first call
returns 0 and every call from the second ramp sample on returns 100, the backward
difference `(x - previous x) / 0.01` of the ramp. -/
theorem integrateSeq_ramp {K : Type} [Field K] [CharZero K] (e : IntegratorEuler K K) (n : Nat)
    (hnum : e.numerator = [0, 1]) (hden : e.denominator = [1]) :
    ∃ e1 e2, initialise (setSamplingPeriod e (1 / 100)) 0 = some e1 ∧
      integrateSeq e1 (ramp K (n + 1)) = some (0 :: List.replicate n 100, e2) := by
  obtain ⟨num, den, inM, outM, dt, invdt⟩ := e
  simp only at hnum hden
  subst hnum hden
  have hinit := initialise_eq
    (setSamplingPeriod (⟨[0, 1], [1], inM, outM, dt, invdt⟩ : IntegratorEuler K K) (1 / 100))
    (0 : K) (Nat.le_succ 1)
  have hinv : (1 : K) / (1 / 100) = 100 := by norm_num
  have h1 := integrate_two_coefficients
    (⟨[0, 1], [1], [0, 0], [0], 1 / 100, 1 / (1 / 100)⟩ : IntegratorEuler K K)
    (0 : K) 0 1 1 0 0 0 rfl rfl rfl rfl
  simp only [sub_zero, smul_zero, add_zero] at h1
  obtain ⟨e2, h2⟩ := integrateSeq_ramp_tail n
    (⟨[0, 1], [1], [((0 : Nat) : K), 0], [0], 1 / 100, 1 / (1 / 100)⟩ : IntegratorEuler K K)
    1 0 0 0 rfl rfl hinv rfl rfl
  refine ⟨_, e2, hinit, ?_⟩
  have hr : ramp K (n + 1) = (0 : K) :: (List.range' (0 + 1) n).map (Nat.cast : Nat → K) := by
    simp [ramp, List.range_eq_range', List.range'_succ]
  rw [hr]
  simp only [Nat.cast_zero] at h2
  show integrateSeq (⟨[0, 1], [1], [0, 0], [0], 1 / 100, 1 / (1 / 100)⟩ : IntegratorEuler K K)
    _ = _
  simp only [integrateSeq, h1, Option.some_bind, h2]

/-- Witness of C12 (amended): the ramp `0, 1, 2, 3` on a new integrator. -/
theorem integrateSeq_ramp_witness :
    ∃ e1 e2, initialise (setSamplingPeriod
        (IntegratorEuler.construct [0, 1] [1] : IntegratorEuler ℚ ℚ) (1 / 100)) 0 = some e1 ∧
      integrateSeq e1 (ramp ℚ (3 + 1)) = some (0 :: List.replicate 3 100, e2) :=
  integrateSeq_ramp (IntegratorEuler.construct [0, 1] [1] : IntegratorEuler ℚ ℚ) 3 rfl rfl

end RampClaims

end IntegratorEuler

namespace IntegratorEuler

section TransientClaims

/-- C13, as stated, fails for a numerator of three coefficients: with
`numerator = [1, 0, 1]`, `denominator = [1]` and the sampling period 1, `initialize` on the
sample 1 fills `inputMemory` with `[1, 1, 1]`, and `integrate` on the same sample computes
the slots `[1, (1-1)*1, (0-1)*1] = [1, 0, -1]` and returns `1 + 0*0 + 1*(-1) = 0`, not 1. -/
theorem initialise_integrate_transient :
    ((initialise (setSamplingPeriod
        (IntegratorEuler.construct [1, 0, 1] [1] : IntegratorEuler ℚ ℚ) 1) 1).bind
      fun e1 => integrate e1 1).map (fun r => (r.1, r.2.inputMemory)) =
      some (0, [1, 0, -1]) := by
  rw [initialise_eq _ _ (by decide)]
  simp [IntegratorEuler.construct, setSamplingPeriod, integrate, integrateStep1,
    integrateStep2, integrateStep3, integrateStep4, denomsize, forLoop, forDown, vget, vset,
    vsetI]

/-- C13 (amended). For every sample `c`, every sampling period `> 0`, every numerator of
one or two coefficients with `b_0 = 1` and a one-coefficient denominator, `initialize` on
`c` followed by one `integrate` on the same sample returns `c`; with two coefficients the
derivative estimate `inputMemory[1]` of the constant signal is zero. The integrator holds
the period in `dt` and its inverse in `invdt`. -/
theorem initialise_integrate_constant {K M : Type} [LinearOrderedField K] [AddCommGroup M]
    [Module K M] (e : IntegratorEuler K M) (period : K) (c : M) (b a : K)
    (hperiod : 0 < period)
    (hnum : e.numerator = [1] ∨ e.numerator = [1, b]) (hden : e.denominator = [a]) :
    ∃ e1 e2, initialise (setSamplingPeriod e period) c = some e1 ∧
      integrate e1 c = some (c, e2) ∧
      (e.numerator = [1, b] → e2.inputMemory = [c, 0]) ∧
      e2.dt = period ∧ e2.invdt * period = 1 := by
  have hinv : (1 / period) * period = 1 := one_div_mul_cancel (ne_of_gt hperiod)
  obtain ⟨num, den, inM, outM, dt, invdt⟩ := e
  simp only at hnum hden
  subst hden
  rcases hnum with hnum | hnum
  · subst hnum
    have hinit := initialise_eq
      (⟨[1], [a], inM, outM, period, 1 / period⟩ : IntegratorEuler K M) c (Nat.le_refl 1)
    have h1 := integrate_one_coefficient
      (⟨[1], [a], [c], [c], period, 1 / period⟩ : IntegratorEuler K M) c 1 a c c
      rfl rfl rfl rfl
    rw [one_smul] at h1
    exact ⟨_, _, hinit, h1, fun h => by simp at h, rfl, hinv⟩
  · subst hnum
    have hinit := initialise_eq
      (⟨[1, b], [a], inM, outM, period, 1 / period⟩ : IntegratorEuler K M) c (Nat.le_succ 1)
    have h1 := integrate_two_coefficients
      (⟨[1, b], [a], [c, c], [c], period, 1 / period⟩ : IntegratorEuler K M) c 1 b a c c c
      rfl rfl rfl rfl
    simp only [sub_self, smul_zero, add_zero, one_smul] at h1
    exact ⟨_, _, hinit, h1, fun _ => rfl, rfl, hinv⟩

/-- Witness of C13 (amended): numerator `[1, 4]`, sampling period `1/100`, sample 7. -/
theorem initialise_integrate_constant_witness :
    ∃ e1 e2, initialise (setSamplingPeriod
        (IntegratorEuler.construct [1, 4] [1] : IntegratorEuler ℚ ℚ) (1 / 100)) 7 = some e1 ∧
      integrate e1 7 = some (7, e2) ∧ e2.inputMemory = [7, 0] ∧ e2.invdt = 100 := by
  obtain ⟨e1, e2, h1, h2, h3, -, h5⟩ := initialise_integrate_constant
    (IntegratorEuler.construct [1, 4] [1] : IntegratorEuler ℚ ℚ) (1 / 100) 7 4 1
    (by norm_num) (Or.inr rfl) rfl
  refine ⟨e1, e2, h1, h2, h3 rfl, ?_⟩
  linarith

end TransientClaims

section DerivativeClaims

variable {K M : Type} [Ring K] [AddCommGroup M] [Module K M]

/-- C14. `derivative` throws exactly when `outputMemory.size() < 2`, and then leaves the
integrator (both memories) as it was; otherwise, with the memories sized as the
coefficient vectors and a non-empty numerator, it returns `outputMemory[1]` of the
integrator left by the recomputation of the output on the sample of that time. -/
theorem derivative_spec (e : IntegratorEuler K M) (x : M) :
    ((∃ msg e', derivative e x = some (Thrown.exception msg, e')) ↔
        e.outputMemory.length < 2) ∧
      (∀ msg e', derivative e x = some (Thrown.exception msg, e') → e' = e) ∧
      (2 ≤ e.outputMemory.length → 1 ≤ e.numerator.length →
        e.inputMemory.length = e.numerator.length →
        e.outputMemory.length = e.denominator.length →
        ∃ res e1 y, integrate e x = some (res, e1) ∧ e1.outputMemory[1]? = some y ∧
          derivative e x = some (Thrown.returned y, e1)) := by
  refine ⟨⟨?_, ?_⟩, ?_, ?_⟩
  · rintro ⟨msg, e', h⟩
    by_contra hlen
    simp only [derivative, derivativeWith, if_neg hlen] at h
    obtain ⟨e1, -, h⟩ := Option.bind_eq_some.mp h
    obtain ⟨y, -, h⟩ := Option.bind_eq_some.mp h
    simp at h
  · intro hlen
    exact ⟨"Integrator does not compute the derivative.", e,
      by simp only [derivative, derivativeWith, if_pos hlen]⟩
  · intro msg e' h
    by_cases hlen : e.outputMemory.length < 2
    · simp only [derivative, derivativeWith, if_pos hlen, Option.some.injEq,
        Prod.mk.injEq] at h
      exact h.2.symm
    · simp only [derivative, derivativeWith, if_neg hlen] at h
      obtain ⟨e1, -, h⟩ := Option.bind_eq_some.mp h
      obtain ⟨y, -, h⟩ := Option.bind_eq_some.mp h
      simp at h
  · intro h2 hnum hin hout
    obtain ⟨res, e1, h1, -, hol, -, -, -, -, -⟩ := integrate_defined e x hnum (by omega)
      (by omega) (by omega)
    have h1len : 1 < e1.outputMemory.length := by omega
    refine ⟨res, e1, e1.outputMemory.getD 1 0, h1, getElem?_eq_some_getD h1len, ?_⟩
    simp only [derivative, derivativeWith, if_neg (show ¬ e.outputMemory.length < 2 by omega),
      recomputeSOUT, h1, Option.map_some', Option.some_bind, vget_getD h1len]

/-- Witness of C14 on `exampleIntegrator` (order 2) and the sample 4. -/
theorem derivative_spec_witness :
    ∃ res e1 y, integrate exampleIntegrator 4 = some (res, e1) ∧
      e1.outputMemory[1]? = some y ∧
      derivative exampleIntegrator 4 = some (Thrown.returned y, e1) :=
  (derivative_spec exampleIntegrator 4).2.2 (by decide) (by decide) rfl rfl

end DerivativeClaims

end IntegratorEuler

namespace IntegratorEuler

section SizeClaims

variable {K M : Type} [Ring K] [AddCommGroup M] [Module K M]

/-- C15. For a non-empty numerator, `initialize` on the sample `c` succeeds whatever the
memories held: `inputMemory` becomes `numerator.size()` copies of `c` and `outputMemory`
becomes `denominator.size()` copies of `c`; every later sequence of `integrate` calls that
returns keeps both sizes, and with a non-empty denominator every such sequence returns. -/
theorem initialise_sizes (e : IntegratorEuler K M) (c : M) (hnum : 1 ≤ e.numerator.length) :
    ∃ e1, initialise e c = some e1 ∧
      e1.inputMemory = List.replicate e.numerator.length c ∧
      e1.outputMemory = List.replicate e.denominator.length c ∧
      e1.numerator = e.numerator ∧ e1.denominator = e.denominator ∧
      (∀ xs outs e2, integrateSeq e1 xs = some (outs, e2) →
        e2.inputMemory.length = e2.numerator.length ∧
        e2.outputMemory.length = e2.denominator.length ∧
        e2.numerator = e.numerator ∧ e2.denominator = e.denominator) ∧
      (1 ≤ e.denominator.length → ∀ xs, ∃ outs e2, integrateSeq e1 xs = some (outs, e2)) := by
  refine ⟨_, initialise_eq e c hnum, rfl, rfl, rfl, rfl, ?_, ?_⟩
  · intro xs outs e2 h
    obtain ⟨a, b, c', d⟩ := integrateSeq_sizes xs
      ({ e with inputMemory := List.replicate e.numerator.length c
                outputMemory := List.replicate e.denominator.length c } : IntegratorEuler K M)
      hnum (by simp) (by simp) outs e2 h
    simp only [List.length_replicate] at a b
    exact ⟨by rw [a, c'], by rw [b, d], c', d⟩
  · intro hden xs
    obtain ⟨outs, e2, h, -⟩ := integrateSeq_defined xs
      ({ e with inputMemory := List.replicate e.numerator.length c
                outputMemory := List.replicate e.denominator.length c } : IntegratorEuler K M)
      hnum (by simp) hden (by simp)
    exact ⟨outs, e2, h⟩

/-- Witness of C15: `initialize` on `exampleIntegrator`, whose memories hold other values,
with the sample 9. -/
theorem initialise_sizes_witness :
    ∃ e1, initialise exampleIntegrator 9 = some e1 ∧
      e1.inputMemory = [9, 9, 9] ∧ e1.outputMemory = [9, 9, 9] := by
  obtain ⟨e1, h, h1, h2, -⟩ := initialise_sizes exampleIntegrator 9 (by decide)
  exact ⟨e1, h, h1, h2⟩

/-- C16, as stated, fails: with `numerator = [1]` and an empty denominator, `initialize` on
the sample 5 leaves `outputMemory` empty and `integrate` on the same sample is not
defined (step 4 writes `outputMemory[-1]`). -/
theorem integrate_empty_denominator :
    initialise (IntegratorEuler.construct [1] [] : IntegratorEuler ℚ ℚ) 5 =
        some ⟨[1], [], [5], [], 5 / 1000, 1 / (5 / 1000)⟩ ∧
      integrate (⟨[1], [], [5], [], 5 / 1000, 1 / (5 / 1000)⟩ : IntegratorEuler ℚ ℚ) 5 = none :=
  ⟨initialise_eq _ _ (by decide), integrate_eq_none_of_denominator _ _ rfl⟩

/-- C16 (amended). With `numerator = [1]` and a one-coefficient denominator (the stored
leading coefficient, which is not read: the pure-gain system of order 0), for every sample
`c` and every number `k` of calls, after `initialize` on `c` each of `k` successive calls of
`integrate` on the constant sample `c` is defined and returns `c`. -/
theorem integrateSeq_pure_gain (e : IntegratorEuler K M) (c : M) (k : Nat) (a : K)
    (hnum : e.numerator = [1]) (hden : e.denominator = [a]) :
    ∃ e1 e2, initialise e c = some e1 ∧
      integrateSeq e1 (List.replicate k c) = some (List.replicate k c, e2) := by
  obtain ⟨num, den, inM, outM, dt, invdt⟩ := e
  simp only at hnum hden
  subst hnum hden
  have hinit := initialise_eq (⟨[1], [a], inM, outM, dt, invdt⟩ : IntegratorEuler K M) c
    (Nat.le_refl 1)
  obtain ⟨e2, h2⟩ := integrateSeq_gain (List.replicate k c)
    (⟨[1], [a], [c], [c], dt, invdt⟩ : IntegratorEuler K M) a c c rfl rfl rfl rfl
  exact ⟨_, e2, hinit, h2⟩

/-- Witness of C16 (amended): denominator `[3]`, two calls on the sample 5. -/
theorem integrateSeq_pure_gain_witness :
    ∃ e1 e2, initialise (IntegratorEuler.construct [1] [3] : IntegratorEuler ℚ ℚ) 5 = some e1 ∧
      integrateSeq e1 [5, 5] = some ([5, 5], e2) :=
  integrateSeq_pure_gain (IntegratorEuler.construct [1] [3] : IntegratorEuler ℚ ℚ) 5 2 3
    rfl rfl

end SizeClaims

end IntegratorEuler

section SetterClaims

variable {α : Type}

open ControlInput

/-- C17, on the code. Called with the name of a control mode (a name no other mode has),
`setControlInputType` sets that mode and leaves the state vector unchanged; it also leaves
the velocity vector as it was: the velocity is not reset to zeros of size `state_.size()`,
which only `setSecondOrderIntegration` and `setNoIntegration` do. -/
theorem setControlInputType_keeps_velocity (names : ControlInput → String) (d : Device α)
    (mode : ControlInput) (hinj : ∀ i, names i = names mode → i = mode) :
    (setControlInputType names d (names mode)).controlInputType_ = mode ∧
      (setControlInputType names d (names mode)).state_ = d.state_ ∧
      (setControlInputType names d (names mode)).velocity_ = d.velocity_ :=
  ⟨setControlInputType_mode names d mode hinj, (setControlInputType_frame names d _).1,
    (setControlInputType_frame names d _).2.1⟩

/-- C17 at the failing input: on a device of state size 7 with joint velocity 2 in the
velocity mode, the switch to the acceleration mode by its name keeps the velocity
`[0, 0, 0, 0, 0, 0, 2]`, where `setSecondOrderIntegration` gives seven zeros. -/
theorem setControlInputType_keeps_velocity_witness :
    (setControlInputType modeNames (freshDevice ℚ CONTROL_INPUT_ONE_INTEGRATION)
        (modeNames CONTROL_INPUT_TWO_INTEGRATION)).controlInputType_ =
        CONTROL_INPUT_TWO_INTEGRATION ∧
      (setControlInputType modeNames (freshDevice ℚ CONTROL_INPUT_ONE_INTEGRATION)
        (modeNames CONTROL_INPUT_TWO_INTEGRATION)).velocity_ = [0, 0, 0, 0, 0, 0, 2] ∧
      (setSecondOrderIntegration (freshDevice ℚ CONTROL_INPUT_ONE_INTEGRATION)).velocity_ =
        [0, 0, 0, 0, 0, 0, 0] := by
  obtain ⟨h1, -, h3⟩ := setControlInputType_keeps_velocity modeNames
    (freshDevice ℚ CONTROL_INPUT_ONE_INTEGRATION) CONTROL_INPUT_TWO_INTEGRATION
    (fun i h => by cases i <;> simp [modeNames] at h ⊢)
  exact ⟨h1, h3, rfl⟩

/-- C18, as stated, fails for `setState`: a new device has state and velocity of size 6,
and `setState` with a vector of size 7 leaves a state of size 7 and a velocity of size 6. -/
theorem setState_breaks_velocity_size :
    (Device.construct (fun _ _ => 0) : Device ℚ).velocity_.length =
        (Device.construct (fun _ _ => 0) : Device ℚ).state_.length ∧
      (setState (Device.construct (fun _ _ => 0) : Device ℚ)
        [0, 0, 0, 0, 0, 0, 0]).state_.length = 7 ∧
      (setState (Device.construct (fun _ _ => 0) : Device ℚ)
        [0, 0, 0, 0, 0, 0, 0]).velocity_.length = 6 :=
  ⟨rfl, rfl, rfl⟩

/-- C18 (amended). `velocity_.size() == state_.size()` holds after construction (both of
size 6, all zeros) and is kept by `setStateSize`, `setSecondOrderIntegration`,
`setNoIntegration`, `setControlInputType` and by every `integrate` that returns;
`setState` and `setVelocity` keep it exactly when the vector they receive has the size of
the state. -/
theorem velocity_size_invariant [Field α] [DecidableEq α] (m : Libm α) (names : ControlInput → String) (d : Device α)
    (h : d.velocity_.length = d.state_.length) :
    (∀ pose, (Device.construct pose : Device α).state_ = List.replicate 6 0 ∧
      (Device.construct pose : Device α).velocity_ = List.replicate 6 0) ∧
    (∀ size, (setStateSize d size).velocity_.length = (setStateSize d size).state_.length) ∧
    (setSecondOrderIntegration d).velocity_.length =
      (setSecondOrderIntegration d).state_.length ∧
    (setNoIntegration d).velocity_.length = (setNoIntegration d).state_.length ∧
    (∀ cit, (setControlInputType names d cit).velocity_.length =
      (setControlInputType names d cit).state_.length) ∧
    (∀ controlIN dt d', integrate m d controlIN dt = some d' →
      d'.velocity_.length = d'.state_.length) ∧
    (∀ st, (setState d st).velocity_.length = (setState d st).state_.length ↔
      st.length = d.state_.length) ∧
    (∀ vel, (setVelocity d vel).velocity_.length = (setVelocity d vel).state_.length ↔
      vel.length = d.state_.length) := by
  refine ⟨fun _ => ⟨rfl, rfl⟩, fun size => ?_, ?_, ?_, fun cit => ?_, ?_, fun st => ?_,
    fun vel => ?_⟩
  · simp [setStateSize, setVelocitySize]
  · simp [setSecondOrderIntegration]
  · simp [setNoIntegration]
  · obtain ⟨h1, h2, -⟩ := setControlInputType_frame names d cit
    rw [h1, h2]
    exact h
  · intro controlIN dt d' hd
    obtain ⟨h1, h2⟩ := integrate_length hd
    rw [h1, h2]
    exact h
  · show d.velocity_.length = st.length ↔ _
    rw [h]
    exact eq_comm
  · show vel.length = d.state_.length ↔ _
    exact Iff.rfl

/-- Witness of C18 (amended): a device of state size 7 that integrates one step in the
velocity mode. -/
theorem velocity_size_invariant_witness :
    (freshDevice ℝ CONTROL_INPUT_ONE_INTEGRATION).velocity_.length =
        (freshDevice ℝ CONTROL_INPUT_ONE_INTEGRATION).state_.length ∧
      ∀ d', integrate ⟨Real.cos, Real.sin, Real.sqrt, fun y x => Complex.arg ⟨x, y⟩⟩
          (freshDevice ℝ CONTROL_INPUT_ONE_INTEGRATION) [3] 2 = some d' →
        d'.velocity_.length = d'.state_.length :=
  ⟨rfl, fun d' hd => (velocity_size_invariant
    ⟨Real.cos, Real.sin, Real.sqrt, fun y x => Complex.arg ⟨x, y⟩⟩ modeNames
    (freshDevice ℝ CONTROL_INPUT_ONE_INTEGRATION) rfl).2.2.2.2.2.1 [3] 2 d' hd⟩

end SetterClaims

section DivisionClaims

variable {α : Type} [Field α] [DecidableEq α]

/-- C20. For every state, control and `dt`, `integrateRollPitchYaw` with the division
`omega/omega.norm()` checked behaves as `integrateRollPitchYaw`: the division is reached
only in the branch `angle = dt * omega.norm() != 0`, where the divisor is not zero, so the
check never fails; and on vectors of six entries or more the call returns. -/
theorem integrateRollPitchYawGuarded_eq (m : Libm α) (ffPose_ : MatrixHomogeneous α)
    (state control : List α) (dt : α) :
    integrateRollPitchYawGuarded m ffPose_ state control dt =
        integrateRollPitchYaw m ffPose_ state control dt ∧
      (6 ≤ state.length → 6 ≤ control.length →
        ∃ r, integrateRollPitchYawGuarded m ffPose_ state control dt = some r) := by
  have heq : integrateRollPitchYawGuarded m ffPose_ state control dt =
      integrateRollPitchYaw m ffPose_ state control dt := by
    unfold integrateRollPitchYawGuarded integrateRollPitchYaw
    cases translationLoop control dt (state, ffPose_, ⟨0, 0, 0⟩) with
    | none => rfl
    | some s =>
      simp only [Option.some_bind]
      cases vget s.1 3 with
      | none => rfl
      | some roll =>
        simp only [Option.some_bind]
        cases vget s.1 4 with
        | none => rfl
        | some pitch =>
          simp only [Option.some_bind]
          cases vget s.1 5 with
          | none => rfl
          | some yaw =>
            simp only [Option.some_bind]
            by_cases h : dt * Vector3d.norm m s.2.2 = 0
            · simp only [h, if_true]
            · have hN : Vector3d.norm m s.2.2 ≠ 0 := fun hN => h (by rw [hN, mul_zero])
              simp only [h, if_false, Vector3d.divScalarGuarded, hN, Option.some_bind]
  refine ⟨heq, fun hs hc => ?_⟩
  obtain ⟨st, pose, h, -⟩ := integrateRollPitchYaw_frame m ffPose_ state control dt hs hc
  exact ⟨(st, pose), heq.trans h⟩

/-- Witness of C20: zero angular velocity, where `omega.norm()` is zero and the division
is not reached. -/
theorem integrateRollPitchYawGuarded_eq_witness :
    ∃ r, integrateRollPitchYawGuarded
      ⟨Real.cos, Real.sin, Real.sqrt, fun y x => Complex.arg ⟨x, y⟩⟩ (fun _ _ => 0)
      [0, 0, 0, 0, 0, 0] [1, 0, 0, 0, 0, 0] 1 = some r :=
  (integrateRollPitchYawGuarded_eq
    ⟨Real.cos, Real.sin, Real.sqrt, fun y x => Complex.arg ⟨x, y⟩⟩ (fun _ _ => 0)
    [0, 0, 0, 0, 0, 0] [1, 0, 0, 0, 0, 0] 1).2 (by simp) (by simp)

end DivisionClaims

section PoseClaims

/-- C19. Over the reals, after `integrateRollPitchYaw` on vectors of six entries or more,
the translation column of the pose is the updated `state(0..2)`, and the matrix rebuilt
from the updated `state(3..5)` is the rotation block stored in the pose: always in the
zero-angle branch, and in the Rodrigues branch whenever the stored rotation is not at
gimbal lock (the third entry of its first column is neither 1 nor -1). -/
theorem integrateRollPitchYaw_pose (m : Libm ℝ) (hm : m.IsReal)
    (ffPose_ : MatrixHomogeneous ℝ) (state control : List ℝ) (dt : ℝ)
    (hs : 6 ≤ state.length) (hc : 6 ≤ control.length) :
    ∃ st pose, integrateRollPitchYaw m ffPose_ state control dt = some (st, pose) ∧
      pose 0 3 = st.getD 0 0 ∧ pose 1 3 = st.getD 1 0 ∧ pose 2 3 = st.getD 2 0 ∧
      ((dt * Vector3d.norm m ⟨control.getD 3 0, control.getD 4 0, control.getD 5 0⟩ = 0 ∨
          ((poseColumns pose).c0.z ≠ 1 ∧ (poseColumns pose).c0.z ≠ -1)) →
        rpyColumns m (st.getD 3 0) (st.getD 4 0) (st.getD 5 0) = poseColumns pose) := by
  obtain ⟨s0, s1, s2, roll, pitch, yaw, rest, rfl⟩ := exists_six_cons hs
  obtain ⟨c0, c1, c2, w0, w1, w2, crest, rfl⟩ := exists_six_cons hc
  rw [integrateRollPitchYaw_cons]
  simp only [List.getD_cons_succ, List.getD_cons_zero]
  by_cases h : dt * Vector3d.norm m (⟨w0, w1, w2⟩ : Vector3d ℝ) = 0
  · simp only [h, if_true]
    exact ⟨_, _, rfl, rfl, rfl, rfl, fun _ => rfl⟩
  · simp only [h, if_false]
    refine ⟨_, _, rfl, rfl, rfl, rfl, ?_⟩
    intro hcond
    rcases hcond with hz | ⟨hg, hg'⟩
    · exact hz.elim
    · simp only [List.getD_cons_succ, List.getD_cons_zero]
      rw [poseColumns_rotationBlock] at hg hg' ⊢
      have hN : Vector3d.norm m (⟨w0, w1, w2⟩ : Vector3d ℝ) ≠ 0 :=
        fun hN => h (by rw [hN, mul_zero])
      have hk := divScalar_norm_dot m hm _ hN
      obtain ⟨a0, a1, -, a01, -, -⟩ := rotatedColumns_orthonormal m hm _ hk
        (dt * Vector3d.norm m (⟨w0, w1, w2⟩ : Vector3d ℝ)) _
        (rpyColumns_orthonormal m hm roll pitch yaw)
      refine rpyColumns_rpyExtract m hm _ a0 a1 a01 ?_ hg hg'
      show rodrigues m _ _ (rpyColumns m roll pitch yaw).c2 = _
      rw [rpyColumns_cross m hm, rodrigues_cross m hm _ hk]
      rfl

/-- Witness of C19: zero angular velocity and a translation rate along the first axis. -/
theorem integrateRollPitchYaw_pose_witness :
    ∃ st pose, integrateRollPitchYaw
        ⟨Real.cos, Real.sin, Real.sqrt, fun y x => Complex.arg ⟨x, y⟩⟩
        (fun _ _ => 0) [1, 0, 0, 2, 3, 4] [5, 0, 0, 0, 0, 0] 2 = some (st, pose) ∧
      pose 0 3 = st.getD 0 0 ∧
      rpyColumns ⟨Real.cos, Real.sin, Real.sqrt, fun y x => Complex.arg ⟨x, y⟩⟩
        (st.getD 3 0) (st.getD 4 0) (st.getD 5 0) = poseColumns pose := by
  obtain ⟨st, pose, h, h0, -, -, hr⟩ := integrateRollPitchYaw_pose
    ⟨Real.cos, Real.sin, Real.sqrt, fun y x => Complex.arg ⟨x, y⟩⟩
    ⟨rfl, rfl, rfl, fun _ _ => rfl⟩ (fun _ _ => 0) [1, 0, 0, 2, 3, 4] [5, 0, 0, 0, 0, 0] 2
    (by simp) (by simp)
  exact ⟨st, pose, h, h0, hr (Or.inl (by simp [Vector3d.norm, Vector3d.dot]))⟩

end PoseClaims

section RunClaims

open ControlInput

/-- C21. Index safety of `Device::integrate` in the velocity and acceleration modes: on a
device with `state.size() >= 6`, `velocity.size() == state.size()` and control vectors of
one size `n`, the size of the state or six less, on every call (so that the buffer
`vel_control_`, once initialised, has that size), any number of successive calls of
`integrate` returns: no access of `integrate` or `integrateRollPitchYaw` is out of range,
and the sizes hold again after the calls. -/
theorem integrateRun_in_bounds {α : Type} [Field α] [DecidableEq α] (m : Libm α) (n : Nat)
    (cs : List (List α × α)) (hcs : ∀ c ∈ cs, c.1.length = n) (d : Device α)
    (h : d.SizesFor n) :
    ∃ d', integrateRun m d cs = some d' ∧ d'.SizesFor n ∧
      d'.controlInputType_ = d.controlInputType_ := by
  induction cs generalizing d with
  | nil => exact ⟨d, rfl, h, rfl⟩
  | cons c cs ih =>
    obtain ⟨d1, hd1, hs1, -, hm1⟩ := integrate_sizesFor m d n h c.1 c.2
      (hcs c (List.mem_cons_self c cs))
    obtain ⟨d2, hd2, hs2, hm2⟩ := ih (fun c' hc' => hcs c' (List.mem_cons_of_mem c hc')) d1 hs1
    exact ⟨d2, by simp [integrateRun, hd1, hd2], hs2, hm2.trans hm1⟩

/-- Witness of C21: two calls in the acceleration mode on a device of state size 7 with
control vectors of one entry. -/
theorem integrateRun_in_bounds_witness :
    ∃ d', integrateRun ⟨Real.cos, Real.sin, Real.sqrt, fun y x => Complex.arg ⟨x, y⟩⟩
        (freshDevice ℝ CONTROL_INPUT_TWO_INTEGRATION) [([3], 1), ([4], 1)] = some d' ∧
      d'.SizesFor 1 ∧ d'.controlInputType_ = CONTROL_INPUT_TWO_INTEGRATION :=
  integrateRun_in_bounds ⟨Real.cos, Real.sin, Real.sqrt, fun y x => Complex.arg ⟨x, y⟩⟩ 1
    [([3], 1), ([4], 1)] (by simp) (freshDevice ℝ CONTROL_INPUT_TWO_INTEGRATION)
    (by simp [Device.SizesFor, freshDevice])

/-- C22. `Device::setRoot` is not defined on any input: after the assignment
`q = worldMwaist.translation()` the local vector `q` has three entries, and the first
iteration of the loop writes `q(3)`, outside `q`. -/
theorem setRoot_out_of_range {α : Type} [Field α] [DecidableEq α]
    (eulerAngles : MatrixHomogeneous α → Vector3d α) (d : Device α)
    (worldMwaist : MatrixHomogeneous α) : setRoot eulerAngles d worldMwaist = none := by
  simp [setRoot, assignVector, forLoop, vset]

/-- C23. `MotionPeriod::computeMotion` is periodic in each component: for parameters `p`
with `p.period > 0`, every motion type and every `time >= p.initPeriod`, one iteration of
the loop on a vector `res` holding the component writes the same vector at `time` and at
`time + p.period`; and when `computeMotion` is defined (`size` parameters or more, no zero
period among the first `size`), the vectors it returns at `time` and at `time + p.period`
have the same component at every index whose parameters are `p`. -/
theorem computeMotion_periodic {α : Type} [Field α] (m : Libm α) (M_PI : α)
    (p : sotMotionParam α) (time : Int) (hp : 0 < p.period) (ht : p.initPeriod ≤ time) :
    (∀ (i : Nat) (res : List α), i < res.length →
      ∃ res', computeMotionBody m M_PI p time i res = some res' ∧
        computeMotionBody m M_PI p (time + p.period) i res = some res') ∧
    ∀ (mp : MotionPeriod α) (res res' : List α) (i : Nat),
      mp.size ≤ mp.motionParams.length →
      (∀ j q, j < mp.size → mp.motionParams[j]? = some q → q.period ≠ 0) →
      i < mp.size → mp.motionParams[i]? = some p →
      ∃ r r' x, computeMotion m M_PI mp res time = some r ∧
        computeMotion m M_PI mp res' (time + p.period) = some r' ∧
        r[i]? = some x ∧ r'[i]? = some x := by
  have hp0 : p.period ≠ 0 := ne_of_gt hp
  refine ⟨fun i res hi => ⟨_, computeMotionBody_eq m M_PI p time i res hp0 hi, ?_⟩, ?_⟩
  · rw [computeMotionBody_eq m M_PI p _ i res hp0 hi, motionValue_add_period m M_PI p time hp ht]
  · intro mp res res' i hsize hdef hi hpi
    obtain ⟨r, hr, -, hP⟩ := computeMotion_spec m M_PI mp res time hsize hdef
    obtain ⟨r', hr', -, hP'⟩ := computeMotion_spec m M_PI mp res' (time + p.period) hsize hdef
    refine ⟨r, r', _, hr, hr', hP i p hi hpi, ?_⟩
    rw [hP' i p hi hpi, motionValue_add_period m M_PI p time hp ht]

/-- Witness of C23: a sine component of period 4 starting at 1, at time 6, alone in a
`MotionPeriod` of size 1. -/
theorem computeMotion_periodic_witness :
    ∃ r r' x, computeMotion ⟨Real.cos, Real.sin, Real.sqrt, fun y x => Complex.arg ⟨x, y⟩⟩
        Real.pi ⟨1, [⟨MotionPeriodType.MOTION_SIN, 4, 1, 5, 7⟩]⟩ [] 6 = some r ∧
      computeMotion ⟨Real.cos, Real.sin, Real.sqrt, fun y x => Complex.arg ⟨x, y⟩⟩
        Real.pi ⟨1, [⟨MotionPeriodType.MOTION_SIN, 4, 1, 5, 7⟩]⟩ [] (6 + 4) = some r' ∧
      r[0]? = some x ∧ r'[0]? = some x :=
  (computeMotion_periodic ⟨Real.cos, Real.sin, Real.sqrt, fun y x => Complex.arg ⟨x, y⟩⟩
    Real.pi ⟨MotionPeriodType.MOTION_SIN, 4, 1, 5, 7⟩ 6 (by decide) (by decide)).2
    ⟨1, [⟨MotionPeriodType.MOTION_SIN, 4, 1, 5, 7⟩]⟩ [] [] 0 (by simp)
    (fun j q hj hq => by
      have hj0 : j = 0 := by
        have : j < 1 := hj
        omega
      subst hj0
      simp only [List.getElem?_cons_zero, Option.some.injEq] at hq
      rw [← hq]
      decide)
    (by decide) rfl

end RunClaims

end SotCore
